import Mathlib

/-!
# Red-black tree with subtree sums (`Library/Data/red_black_tree.cc`, second `RBTree`)

A shallow embedding of the augmented red-black tree and a verification of its
contract, followed by the baseline tree of the same file (first `RBTree`, in the
namespace `RBTree.Baseline`) and its relation to the augmented one.

Representation.  A `Node*` of the source is a value of `Node`: `Node.null` is
`nullptr`, `Node.node value sum size c0 c1 color` is a node together with the two
subtrees it owns (`children[0]`, `children[1]`).  The `parent` back pointer is
represented by the path from a node up to the root, a list of `Frame`s, nearest
ancestor first: a frame stores the ancestor's fields, the side `dir` on which the
node below hangs (what `dir()` returns for it) and the ancestor's other child.  A
function of the source that can hit a failing `assert` or dereference `nullptr`
returns `Option`, with `none` for that failure.

Numbers.  The key type `T` is taken to be the signed integer type of `T_bits = 64`
bits (`long long`), with the range from `-2^63` to `2^63 - 1`.  A value of `T` is an
`Int` in the range `inT`; keys are compared as integers.  Every addition and subtraction that the source performs on a `sum`
(`n->sum += t`, `yy->sum -= v`, `n->sum -= c->sum`, `sum += n->value`, ...) is done
in `T`: its result is the two's complement value `wrapT` of the integer result, so
the stored sums wrap around exactly where the compiled code does.  `int` (the
`size` fields and `K`) is `Int` without wrap-around: the counts stay far below
`2^31`.
-/

namespace RBTree

/-- Node colours (`enum Color`). -/
inductive Color where
  | RED
  | BLACK
  deriving DecidableEq, Repr

/-- An index into `children[2]`: `d0` is `0`, `d1` is `1`. -/
inductive Dir where
  | d0
  | d1
  deriving DecidableEq, Repr

/-- The other side: `1 - dir`. -/
def Dir.flip : Dir → Dir
  | .d0 => .d1
  | .d1 => .d0

/-- A `Node*`: either `nullptr` or a node with its fields and the subtrees it owns. -/
inductive Node where
  | null : Node
  | node (value sum size : Int) (c0 c1 : Node) (color : Color) : Node
  deriving DecidableEq, Repr

open Color Dir Node

/-- The width of the key type `T` in bits (`long long`). -/
def T_bits : Nat := 64

/-- The value of type `T` that results from an arithmetic operation of `T` whose integer
result is `x`: the two's complement representative of `x` modulo `2 ^ 64`, that is
`(x + 2 ^ 63) mod 2 ^ 64 - 2 ^ 63`. -/
def wrapT (x : Int) : Int :=
  (x + 9223372036854775808) % 18446744073709551616 - 9223372036854775808

/-- The integer `x` is a value of type `T`: `-2 ^ 63 ≤ x ≤ 2 ^ 63 - 1`. -/
def inT (x : Int) : Prop :=
  -9223372036854775808 ≤ x ∧ x ≤ 9223372036854775807

instance : DecidablePred inT := fun x =>
  inferInstanceAs (Decidable (-9223372036854775808 ≤ x ∧ x ≤ 9223372036854775807))

/-- Read `n->children[d]` (only used on nodes that exist). -/
def Node.children : Node → Dir → Node
  | null, _ => null
  | node _ _ _ c0 _ _, d0 => c0
  | node _ _ _ _ c1 _, d1 => c1

/-- Assign `n->children[d] = c`. -/
def Node.setChild : Node → Dir → Node → Node
  | null, _, _ => null
  | node v s sz _ c1 col, d0, c => node v s sz c c1 col
  | node v s sz c0 _ col, d1, c => node v s sz c0 c col

/-- Assign `n->color = col`. -/
def Node.setColor : Node → Color → Node
  | null, _ => null
  | node v s sz c0 c1 _, col => node v s sz c0 c1 col

/-- The test `is_black(n)`: `n == nullptr || n->color == BLACK`. -/
def is_black : Node → Bool
  | null => true
  | node _ _ _ _ _ col => col == BLACK

/-- An ancestor on the path to the root: its fields, the side `dir` on which the
node below hangs, and its child on the other side `1 - dir`. -/
structure Frame where
  value : Int
  sum : Int
  size : Int
  dir : Dir
  other : Node
  color : Color
  deriving DecidableEq, Repr

/-- The ancestor as a node again, with `t` hung on its side `dir`. -/
def Frame.fill (f : Frame) (t : Node) : Node :=
  match f.dir with
  | d0 => node f.value f.sum f.size t f.other f.color
  | d1 => node f.value f.sum f.size f.other t f.color

/-- The whole tree (the root) seen from a subtree `t` and its path to the root. -/
def plug : Node → List Frame → Node
  | t, [] => t
  | t, f :: rest => plug (f.fill t) rest

/-- Step from a node to its child on side `d`, remembering the node as a frame. -/
def down : Node → Dir → Option (Node × Frame)
  | null, _ => none
  | node v s sz c0 c1 col, d0 => some (c0, ⟨v, s, sz, d0, c1, col⟩)
  | node v s sz c0 c1 col, d1 => some (c1, ⟨v, s, sz, d1, c0, col⟩)

/-- The procedure `rotate(n, dir)` on the subtree rooted at `n`; the result is the
node `c` that takes the place of `n` under `n`'s parent (or as root).  `none` when
`n` is absent or `assert(c)` fails.  The updates of the `sum` fields are done in `T`,
one `wrapT` for each `+=` and `-=` of the source. -/
def rotate (n : Node) (dir : Dir) : Option Node :=
  match n with
  | null => none
  | node v s sz n0 n1 col =>
    match (node v s sz n0 n1 col).children dir.flip with
    | null => none
    | node cv cs csz cc0 cc1 ccol =>
      let gc := (node cv cs csz cc0 cc1 ccol).children dir
      match gc with
      | null =>
        -- n->children[1-dir] = gc; n->sum -= c->sum; n->size -= c->size;
        let n' := (node v (wrapT (s - cs)) (sz - csz) n0 n1 col).setChild dir.flip gc
        -- c->children[dir] = n; c->sum += n->sum; c->size += n->size;
        some ((node cv (wrapT (cs + wrapT (s - cs))) (csz + (sz - csz)) cc0 cc1
          ccol).setChild dir n')
      | node _ gs gsz _ _ _ =>
        -- as above, and in between, for the existing gc:
        -- n->sum += gc->sum; n->size += gc->size; c->sum -= gc->sum; c->size -= gc->size;
        let n' := (node v (wrapT (wrapT (s - cs) + gs)) (sz - csz + gsz) n0 n1
          col).setChild dir.flip gc
        some ((node cv (wrapT (wrapT (cs - gs) + wrapT (wrapT (s - cs) + gs)))
          (csz - gsz + (sz - csz + gsz)) cc0 cc1 ccol).setChild dir n')

/-- The search loop of `insert`: the path from the absent slot reached up to the root. -/
def insert_descend : Node → Int → List Frame → List Frame
  | null, _, path => path
  | node v s sz c0 c1 col, t, path =>
    if t < v then insert_descend c0 t (⟨v, s, sz, d0, c1, col⟩ :: path)
    else insert_descend c1 t (⟨v, s, sz, d1, c0, col⟩ :: path)

/-- The fix-up `balance(cur)` after an insertion; `cur` is given with its path to the
root and the result is the new root.  `none` when the source would dereference an
absent node (`cur` absent, or the parent RED with no grandparent) or fail `assert(c)`
in `rotate`. -/
def balance : Node → List Frame → Option Node
  | null, _ => none
  | node v s sz c0 c1 _, [] => some (node v s sz c0 c1 BLACK)
  | cur, [p] => if p.color = BLACK then some (plug cur [p]) else none
  | cur, p :: g :: rest =>
    if p.color = BLACK then some (plug cur (p :: g :: rest))
    else
      let uncle := g.other
      if !is_black uncle then
        -- Case 3: parent and uncle become BLACK, the grandparent RED
        balance
          (Frame.fill { g with color := RED, other := uncle.setColor BLACK }
            (Frame.fill { p with color := BLACK } cur))
          rest
      else
        -- Case 4: straighten a zig-zag by rotating the parent
        let step4 : Option (Node × Dir) :=
          if p.dir ≠ g.dir then
            (rotate (p.fill cur) g.dir).map (fun top => (top, g.dir))
          else some (p.fill cur, p.dir)
        step4.bind fun (par, cdir) =>
          -- grand->color = RED; cur->parent->color = BLACK; rotate(grand, 1-cur->dir())
          (rotate (Frame.fill { g with color := RED } (par.setColor BLACK)) cdir.flip).map
            fun top => plug top rest

/-- The walk `n->sum += t; n->size++` applied to one ancestor; the sum is added in `T`. -/
def Frame.add (d : Int) (f : Frame) : Frame :=
  { f with sum := wrapT (f.sum + d), size := f.size + 1 }

/-- The procedure `insert(t)`; the result is the new root. -/
def insert (root : Node) (t : Int) : Option Node :=
  -- the new node is RED with sum = t and size = 1; every ancestor gets the walk above
  balance (node t t 1 null null RED) ((insert_descend root t []).map (Frame.add t))

/-- The procedure `find(t)`. -/
def find : Node → Int → Bool
  | null, _ => false
  | node v _ _ c0 c1 _, t =>
    if v = t then true
    else if t < v then find c0 t
    else find c1 t

/-- The inner recursion `minsum_inner(n, K)`; `K` is passed by reference in the source, so
the result is the pair of the returned sum and the final value of `K`.  `none` when
`assert(n->children[1])` fails.  The local `T sum` is added to in `T`. -/
def minsum_inner : Node → Int → Option (Int × Int)
  | null, K => some (0, K)
  | node v s sz c0 c1 _, K =>
    if sz ≤ K then some (s, K - sz)
    else
      -- T sum = 0; if(n->children[0]) sum += minsum_inner(n->children[0], K);
      let r0 : Option (Int × Int) :=
        match c0 with
        | null => some (0, K)
        | node _ _ _ _ _ _ => (minsum_inner c0 K).map fun (s0, K) => (wrapT (0 + s0), K)
      r0.bind fun (sum, K) =>
        -- if(K > 0) { sum += n->value; --K; }
        let (sum, K) := if K > 0 then (wrapT (sum + v), K - 1) else (sum, K)
        if K > 0 then
          match c1 with
          | null => none
          | c1 => (minsum_inner c1 K).map fun (s1, K) => (wrapT (sum + s1), K)
        else some (sum, K)

/-- The query `minsum(K)`. -/
def minsum (root : Node) (K : Int) : Option Int :=
  (minsum_inner root K).map Prod.fst

/-- The search loop of `erase`: the node `cur` holding `t` together with its path to the
root, or `none` when the descent ends at an absent slot (`cur == nullptr`). -/
def erase_search : Node → Int → List Frame → Option (Node × List Frame)
  | null, _, _ => none
  | node v s sz c0 c1 col, t, path =>
    if v = t then some (node v s sz c0 c1 col, path)
    else if t < v then erase_search c0 t (⟨v, s, sz, d0, c1, col⟩ :: path)
    else erase_search c1 t (⟨v, s, sz, d1, c0, col⟩ :: path)

/-- The loop `while(y->children[0]) y = y->children[0]`, collecting the frames passed. -/
def leftmost : Node → List Frame → Node × List Frame
  | null, path => (null, path)
  | node v s sz null c1 col, path => (node v s sz null c1 col, path)
  | node v s sz (node a b c d e f) c1 col, path =>
    leftmost (node a b c d e f) (⟨v, s, sz, d0, c1, col⟩ :: path)

/-- The loop of `balance_erase(cur, dir)` for an existing `cur`, given with its path to the
root; the result is the new root.  The first argument bounds the number of evaluations of
the loop condition; `erase` passes the number of ancestors of `cur` plus two, beyond which
the result no longer changes (`balance_erase_fuel`).  `none` when `assert(w)` or
`assert(c)` fails, an absent node is dereferenced, or the bound is exhausted. -/
def balance_erase : Nat → Node → Dir → List Frame → Option Node
  | 0, _, _, _ => none
  | _ + 1, null, _, _ => none
  | fuel + 1, node v s sz c0 c1 col, dir, path =>
    let cur := node v s sz c0 c1 col
    if !is_black (cur.children dir) then
      -- loop exit: if(cur && cur->children[dir]) cur->children[dir]->color = BLACK
      some (plug (cur.setChild dir ((cur.children dir).setColor BLACK)) path)
    else
      match cur.children dir.flip with
      | null => none
      | node wv ws wsz w0 w1 wcol =>
        -- Case 1: w is RED
        let st1 : Option (Node × List Frame) :=
          if wcol = RED then
            match rotate ((cur.setChild dir.flip (node wv ws wsz w0 w1 BLACK)).setColor RED) dir with
            | none => none
            | some top =>
              match down top dir with
              | none => none
              | some (c, f) => some (c, f :: path)
          else some (cur, path)
        match st1 with
        | none => none
        | some (cur, path) =>
          match cur.children dir.flip with
          | null => none
          | node wv ws wsz w0 w1 wcol =>
            if is_black w0 && is_black w1 then
              -- Case 2: w becomes RED and the deficiency moves up
              let cur := cur.setChild dir.flip (node wv ws wsz w0 w1 RED)
              match path with
              | [] => some cur
              | f :: rest => balance_erase fuel (f.fill cur) f.dir rest
            else
              let w := node wv ws wsz w0 w1 wcol
              -- Case 3: the far child of w is BLACK
              let st3 : Option Node :=
                if is_black (w.children dir.flip) then
                  match w.children dir with
                  | null => none
                  | near =>
                    match rotate ((w.setChild dir (near.setColor BLACK)).setColor RED) dir.flip with
                    | none => none
                    | some top => some (cur.setChild dir.flip top)
                else some cur
              match st3 with
              | none => none
              | some cur =>
                -- Case 4
                match cur with
                | null => none
                | node _ _ _ _ _ ccol =>
                  match cur.children dir.flip with
                  | null => none
                  | w =>
                    match w.children dir.flip with
                    | null => none
                    | far =>
                      let w := (w.setColor ccol).setChild dir.flip (far.setColor BLACK)
                      match rotate ((cur.setChild dir.flip w).setColor BLACK) dir with
                      | none => none
                      | some top => some ((plug top path).setColor BLACK)

/-- The walk `yy->sum -= d; yy->size--` applied to one ancestor; the sum is subtracted
in `T`. -/
def Frame.sub (d : Int) (f : Frame) : Frame :=
  { f with sum := wrapT (f.sum - d), size := f.size - 1 }

/-- The procedure `erase(t)`; the result is the new root.  `none` when `balance_erase`
fails or when `delete y` would destroy nodes that are still part of the tree. -/
def erase (root : Node) (t : Int) : Option Node :=
  match erase_search root t [] with
  | none => some root
  | some (null, _) => some root
  | some (node v s sz c0 c1 col, up) =>
    let two : Bool := c0 != null && c1 != null
    -- y, with the frames from y->parent up to cur (cur excluded)
    let (y, low) : Node × List Frame :=
      if two then leftmost c1 [] else (node v s sz c0 c1 col, [])
    match y with
    | null => none
    | node yv _ _ y0 y1 ycol =>
      let x := if y0 != null then y0 else y1
      -- the ancestors of the slot of y after the two aggregate walks; when y != cur the
      -- node cur is one of them, and it now holds y's value
      let ypath : List Frame :=
        if two then
          low.map (Frame.sub yv) ++ ⟨yv, wrapT (s - v), sz - 1, d1, c0, col⟩ :: up.map (Frame.sub v)
        else up.map (Frame.sub v)
      if ycol = BLACK then
        -- balance_erase(y->parent, ydir); if(root) root->color = BLACK;
        let r : Option Node :=
          match ypath with
          | [] => some x
          | f :: rest => balance_erase (rest.length + 2) (f.fill x) f.dir rest
        r.map fun root => root.setColor BLACK
      else
        -- delete y: a RED y still owns x here, and its destructor would destroy a subtree
        -- that is still linked into the tree
        if x != null then none else some (plug x ypath)

/-- In-order traversal: the keys from left to right. -/
def inorder : Node → List Int
  | null => []
  | node v _ _ c0 c1 _ => inorder c0 ++ v :: inorder c1

/-! ## Invariants of the data model -/

/-- The stored `sum` of a child if it is present, `0` for an absent child. -/
def Node.sumOf : Node → Int
  | null => 0
  | node _ s _ _ _ _ => s

/-- The stored `size` of a child if it is present, `0` for an absent child. -/
def Node.sizeOf : Node → Int
  | null => 0
  | node _ _ sz _ _ _ => sz

/-- The sum part of the aggregate invariant, in the arithmetic of `T`: at every node
`sum = value + left.sum + right.sum`, the additions being those of `T` (absent children
contribute nothing). -/
def sumOk : Node → Prop
  | null => True
  | node v s _ c0 c1 _ => s = wrapT (v + c0.sumOf + c1.sumOf) ∧ sumOk c0 ∧ sumOk c1

/-- The size part of the aggregate invariant: at every node
`size = 1 + left.size + right.size` (absent children count for nothing). -/
def sizeOk : Node → Prop
  | null => True
  | node _ _ sz c0 c1 _ => sz = 1 + c0.sizeOf + c1.sizeOf ∧ sizeOk c0 ∧ sizeOk c1

/-- Aggregate invariant as the code keeps it: at every node
`sum = value + left.sum + right.sum` in the arithmetic of `T` and
`size = 1 + left.size + right.size` (absent children contribute nothing). -/
def aggOk : Node → Prop
  | null => True
  | node v s sz c0 c1 _ =>
    s = wrapT (v + c0.sumOf + c1.sumOf) ∧ sz = 1 + c0.sizeOf + c1.sizeOf ∧ aggOk c0 ∧ aggOk c1

/-- Every node stores the sum of the keys below it, reduced to the range of `T`, and the
exact number of the keys below it. -/
def aggExact : Node → Prop
  | null => True
  | node v s sz c0 c1 col =>
    s = wrapT (inorder (node v s sz c0 c1 col)).sum ∧
    sz = ((inorder (node v s sz c0 c1 col)).length : Int) ∧ aggExact c0 ∧ aggExact c1

/-- Aggregate invariant read over the integers, without wrap-around: at every node
`sum = value + left.sum + right.sum` and `size = 1 + left.size + right.size` as integers. -/
def aggOkInt : Node → Prop
  | null => True
  | node v s sz c0 c1 _ =>
    s = v + c0.sumOf + c1.sumOf ∧ sz = 1 + c0.sizeOf + c1.sizeOf ∧ aggOkInt c0 ∧ aggOkInt c1

/-- Every node stores the exact integer sum and the exact number of the keys below it. -/
def aggExactInt : Node → Prop
  | null => True
  | node v s sz c0 c1 col =>
    s = (inorder (node v s sz c0 c1 col)).sum ∧
    sz = ((inorder (node v s sz c0 c1 col)).length : Int) ∧ aggExactInt c0 ∧ aggExactInt c1

/-- No overflow: at every node the integer sum of the keys of its subtree is a value of
`T`. -/
def sumsFit : Node → Prop
  | null => True
  | node v s sz c0 c1 col =>
    inT (inorder (node v s sz c0 c1 col)).sum ∧ sumsFit c0 ∧ sumsFit c1

/-- Every stored `sum` is a value of `T`. -/
def storedInT : Node → Prop
  | null => True
  | node _ s _ c0 c1 _ => inT s ∧ storedInT c0 ∧ storedInT c1

/-- No RED node has a RED child. -/
def redOk : Node → Prop
  | null => True
  | node _ _ _ c0 c1 col =>
    (col = RED → is_black c0 = true ∧ is_black c1 = true) ∧ redOk c0 ∧ redOk c1

/-- The number of BLACK nodes on every path from `n` down to an absent slot, one entry
per absent slot, from left to right. -/
def blackCounts : Node → List Nat
  | null => [0]
  | node _ _ _ c0 c1 col =>
    (blackCounts c0 ++ blackCounts c1).map fun k => k + (if col = BLACK then 1 else 0)

/-- All paths from the root to an absent slot hold the same number of BLACK nodes. -/
def blackUniform (n : Node) : Prop :=
  ∀ a ∈ blackCounts n, ∀ b ∈ blackCounts n, a = b

/-- The number of BLACK nodes on the leftmost path down from `n`. -/
def blackHeight : Node → Nat
  | null => 0
  | node _ _ _ c0 _ col => blackHeight c0 + (if col = BLACK then 1 else 0)

/-- Black-height invariant in local form: at every node both children have the
same black height. -/
def bhOk : Node → Prop
  | null => True
  | node _ _ _ c0 c1 _ => blackHeight c0 = blackHeight c1 ∧ bhOk c0 ∧ bhOk c1

/-- The red-black invariants of a whole tree: the root is BLACK or absent, no RED node
has a RED child, and from every node all paths down to an absent slot hold the same
number of BLACK nodes. -/
def RBInv (root : Node) : Prop :=
  is_black root = true ∧ redOk root ∧ bhOk root

/-- From every node of the tree, all paths down to an absent slot hold the same number of
BLACK nodes. -/
def blackUniformAll : Node → Prop
  | null => True
  | node v s sz c0 c1 col =>
    blackUniform (node v s sz c0 c1 col) ∧ blackUniformAll c0 ∧ blackUniformAll c1

/-- Some node of the tree holds the value `k`. -/
def holds : Node → Int → Prop
  | null, _ => False
  | node v _ _ c0 c1 _, k => v = k ∨ holds c0 k ∨ holds c1 k

/-- The invariants of the data model that every reachable tree satisfies: the red-black
invariants, the aggregate invariant (sums in the arithmetic of `T`), and a non-decreasing
in-order traversal. -/
def TreeInv (t : Node) : Prop :=
  RBInv t ∧ aggOk t ∧ (inorder t).Sorted (· ≤ ·)

/-- The part of the invariants that does not read the `sum` fields: the red-black
invariants, the size invariant, and a non-decreasing in-order traversal. -/
def KeyInv (t : Node) : Prop :=
  RBInv t ∧ sizeOk t ∧ (inorder t).Sorted (· ≤ ·)

/-- Decision procedure for the aggregate invariant. -/
def decAggOk : (t : Node) → Decidable (aggOk t)
  | null => isTrue trivial
  | node v s sz c0 c1 _ =>
    have := decAggOk c0
    have := decAggOk c1
    inferInstanceAs (Decidable (s = wrapT (v + c0.sumOf + c1.sumOf) ∧
      sz = 1 + c0.sizeOf + c1.sizeOf ∧ aggOk c0 ∧ aggOk c1))

instance : DecidablePred aggOk := decAggOk

/-- Decision procedure for the sum part of the aggregate invariant. -/
def decSumOk : (t : Node) → Decidable (sumOk t)
  | null => isTrue trivial
  | node v s _ c0 c1 _ =>
    have := decSumOk c0
    have := decSumOk c1
    inferInstanceAs (Decidable (s = wrapT (v + c0.sumOf + c1.sumOf) ∧ sumOk c0 ∧ sumOk c1))

instance : DecidablePred sumOk := decSumOk

/-- Decision procedure for the size invariant. -/
def decSizeOk : (t : Node) → Decidable (sizeOk t)
  | null => isTrue trivial
  | node _ _ sz c0 c1 _ =>
    have := decSizeOk c0
    have := decSizeOk c1
    inferInstanceAs (Decidable (sz = 1 + c0.sizeOf + c1.sizeOf ∧ sizeOk c0 ∧ sizeOk c1))

instance : DecidablePred sizeOk := decSizeOk

/-- Decision procedure for the aggregate invariant over the integers. -/
def decAggOkInt : (t : Node) → Decidable (aggOkInt t)
  | null => isTrue trivial
  | node v s sz c0 c1 _ =>
    have := decAggOkInt c0
    have := decAggOkInt c1
    inferInstanceAs (Decidable (s = v + c0.sumOf + c1.sumOf ∧ sz = 1 + c0.sizeOf + c1.sizeOf ∧
      aggOkInt c0 ∧ aggOkInt c1))

instance : DecidablePred aggOkInt := decAggOkInt

/-- Decision procedure for the absence of overflow. -/
def decSumsFit : (t : Node) → Decidable (sumsFit t)
  | null => isTrue trivial
  | node v s sz c0 c1 col =>
    have := decSumsFit c0
    have := decSumsFit c1
    inferInstanceAs (Decidable (inT (inorder (node v s sz c0 c1 col)).sum ∧
      sumsFit c0 ∧ sumsFit c1))

instance : DecidablePred sumsFit := decSumsFit

/-- Decision procedure for the red-red condition. -/
def decRedOk : (t : Node) → Decidable (redOk t)
  | null => isTrue trivial
  | node _ _ _ c0 c1 col =>
    have := decRedOk c0
    have := decRedOk c1
    inferInstanceAs (Decidable ((col = RED → is_black c0 = true ∧ is_black c1 = true) ∧
      redOk c0 ∧ redOk c1))

instance : DecidablePred redOk := decRedOk

/-- Decision procedure for the local black-height condition. -/
def decBhOk : (t : Node) → Decidable (bhOk t)
  | null => isTrue trivial
  | node _ _ _ c0 c1 _ =>
    have := decBhOk c0
    have := decBhOk c1
    inferInstanceAs (Decidable (blackHeight c0 = blackHeight c1 ∧ bhOk c0 ∧ bhOk c1))

instance : DecidablePred bhOk := decBhOk

instance : DecidablePred RBInv := fun t =>
  inferInstanceAs (Decidable (is_black t = true ∧ redOk t ∧ bhOk t))

instance : DecidablePred blackUniform := fun t =>
  inferInstanceAs (Decidable (∀ a ∈ blackCounts t, ∀ b ∈ blackCounts t, a = b))

instance : DecidablePred TreeInv := fun t =>
  inferInstanceAs (Decidable (RBInv t ∧ aggOk t ∧ (inorder t).Sorted (· ≤ ·)))

/-! ## Sequences of calls on a tree -/

/-- A call of one of the two mutating procedures. -/
inductive Op where
  | ins (k : Int)
  | del (k : Int)
  deriving DecidableEq, Repr

/-- The key given to an `insert` call is a value of `T` (an `erase` call only compares its
key). -/
def Op.keyInT : Op → Prop
  | Op.ins k => inT k
  | Op.del _ => True

instance : DecidablePred Op.keyInT := fun op =>
  match op with
  | Op.ins k => inferInstanceAs (Decidable (inT k))
  | Op.del _ => isTrue trivial

/-- Run one call on a tree. -/
def applyOp (root : Node) : Op → Option Node
  | Op.ins k => insert root k
  | Op.del k => erase root k

/-- Run a sequence of calls, first to last. -/
def runOps : Node → List Op → Option Node
  | root, [] => some root
  | root, op :: ops => (applyOp root op).bind fun r => runOps r ops

/-- Insert a list of keys one after the other. -/
def insertAll (root : Node) (ks : List Int) : Option Node :=
  runOps root (ks.map Op.ins)

/-- No `insert` call of the run is given a key that the tree holds at that moment. -/
def freshRun : Node → List Op → Bool
  | _, [] => true
  | t, Op.ins k :: ops =>
    !find t k && (match insert t k with
      | none => false
      | some r => freshRun r ops)
  | t, Op.del k :: ops =>
    match erase t k with
    | none => false
    | some r => freshRun r ops

/-! ## The trees of the scenario `5, 3, 8, 1, 4, 7, 9` -/

/-- The tree after inserting 5, 3, 8, 1, 4, 7 into the empty tree. -/
def scenario6 : Node :=
  node 5 28 6
    (node 3 8 3 (node 1 1 1 null null RED) (node 4 4 1 null null RED) BLACK)
    (node 8 15 2 (node 7 7 1 null null RED) null BLACK)
    BLACK

/-- The tree after `erase(5)` on `scenario7`. -/
def scenario7_erased : Node :=
  node 7 32 6
    (node 3 8 3 (node 1 1 1 null null RED) (node 4 4 1 null null RED) BLACK)
    (node 8 17 2 null (node 9 9 1 null null RED) BLACK)
    BLACK

/-- The tree after inserting 5, 3, 8, 1, 4, 7, 9 into the empty tree. -/
def scenario7 : Node :=
  node 5 37 7
    (node 3 8 3 (node 1 1 1 null null RED) (node 4 4 1 null null RED) BLACK)
    (node 8 24 3 (node 7 7 1 null null RED) (node 9 9 1 null null RED) BLACK)
    BLACK

/-! ## Trees with keys at the ends of the range of `T` -/

/-- The tree after inserting `-2^63 + 1`, `-2^63`, `2^63 - 1` into the empty tree. -/
def extremes3 : Node :=
  node (-9223372036854775807) (-9223372036854775808) 3
    (node (-9223372036854775808) (-9223372036854775808) 1 null null RED)
    (node 9223372036854775807 9223372036854775807 1 null null RED)
    BLACK

/-- The tree after inserting `1`, `-1`, `2^63 - 1` into the empty tree. -/
def nearMax3 : Node :=
  node 1 9223372036854775807 3
    (node (-1) (-1) 1 null null RED)
    (node 9223372036854775807 9223372036854775807 1 null null RED)
    BLACK

/-! ## Auxiliary definitions used in the proofs -/

/-- Red-black invariants of a subtree, except for the colour of its root. -/
def rbOk (n : Node) : Prop := redOk n ∧ bhOk n

/-- The nearest ancestor, if there is one, is BLACK. -/
def headBlack : List Frame → Prop
  | [] => True
  | g :: _ => g.color = BLACK

/-- Red-black invariants of the part of the tree around a hole that expects a subtree of
black height `h`: the other subtrees are red-black with matching black heights, a RED
ancestor has a BLACK other child and a BLACK parent, and the topmost ancestor (the root)
is BLACK. -/
def ctxOk : List Frame → Nat → Prop
  | [], _ => True
  | f :: rest, h =>
    rbOk f.other ∧ blackHeight f.other = h ∧
    (f.color = RED → is_black f.other = true ∧ headBlack rest ∧ rest ≠ []) ∧
    ctxOk rest (h + if f.color = BLACK then 1 else 0)

/-- The keys to the left of the hole of a path, in order. -/
def ctxL : List Frame → List Int
  | [] => []
  | f :: rest => ctxL rest ++ (match f.dir with
      | d0 => []
      | d1 => inorder f.other ++ [f.value])

/-- The keys to the right of the hole of a path, in order. -/
def ctxR : List Frame → List Int
  | [] => []
  | f :: rest => (match f.dir with
      | d0 => f.value :: inorder f.other
      | d1 => []) ++ ctxR rest

/-- The subtree `b` may stand for `a`: same keys in the same order; if the sizes of `a` are
right then so are those of `b`, with the same size at the top; and if the sums of `a` are
right then so are those of `b`, with the same sum at the top. -/
def sameContent (a b : Node) : Prop :=
  inorder b = inorder a ∧ (sizeOk a → sizeOk b ∧ b.sizeOf = a.sizeOf) ∧
    (sumOk a → sumOk b ∧ b.sumOf = a.sumOf)

/-- Case 1 of the loop of `balance_erase` for a RED sibling: recolour, rotate `cur` and
step down to `cur` again; the result is `cur` with its new path. -/
def erase_case1 (cur : Node) (dir : Dir) (path : List Frame) : Option (Node × List Frame) :=
  match cur.children dir.flip with
  | null => none
  | node wv ws wsz w0 w1 wcol =>
    if wcol = RED then
      match rotate ((cur.setChild dir.flip (node wv ws wsz w0 w1 BLACK)).setColor RED) dir with
      | none => none
      | some top =>
        match down top dir with
        | none => none
        | some (c, f) => some (c, f :: path)
    else some (cur, path)

/-- Cases 3 and 4 of the loop of `balance_erase`: the sibling is BLACK and one of its
children is RED. -/
def erase_case34 (cur : Node) (dir : Dir) (path : List Frame) : Option Node :=
  match cur.children dir.flip with
  | null => none
  | w =>
    let st3 : Option Node :=
      if is_black (w.children dir.flip) then
        match w.children dir with
        | null => none
        | near =>
          match rotate ((w.setChild dir (near.setColor BLACK)).setColor RED) dir.flip with
          | none => none
          | some top => some (cur.setChild dir.flip top)
      else some cur
    match st3 with
    | none => none
    | some cur =>
      match cur with
      | null => none
      | node _ _ _ _ _ ccol =>
        match cur.children dir.flip with
        | null => none
        | w =>
          match w.children dir.flip with
          | null => none
          | far =>
            let w := (w.setColor ccol).setChild dir.flip (far.setColor BLACK)
            match rotate ((cur.setChild dir.flip w).setColor BLACK) dir with
            | none => none
            | some top => some ((plug top path).setColor BLACK)

/-- Cases 2 to 4 of the loop of `balance_erase`, with the next round of the loop
given as `next`. -/
def erase_case234 (next : Node → Dir → List Frame → Option Node) (cur : Node) (dir : Dir)
    (path : List Frame) : Option Node :=
  match cur.children dir.flip with
  | null => none
  | node wv ws wsz w0 w1 _ =>
    if is_black w0 && is_black w1 then
      match path with
      | [] => some (cur.setChild dir.flip (node wv ws wsz w0 w1 RED))
      | f :: rest => next (f.fill (cur.setChild dir.flip (node wv ws wsz w0 w1 RED))) f.dir rest
    else erase_case34 cur dir path

/-- The state at the head of the loop of `balance_erase`: the subtree `x` in the deficient
slot has black height `h`, one less than its place in the tree expects; below its root it
is red-black. -/
def deficient (x : Node) (path : List Frame) (h : Nat) : Prop :=
  bhOk x ∧ redOk (x.setColor BLACK) ∧ blackHeight x = h ∧ ctxOk path (h + 1)

/-- The relation between a node with its path and a node further down in its subtree with
the longer path: each step goes to a child and records the node left behind. -/
inductive Descends : Node → List Frame → Node → List Frame → Prop where
  | here (t : Node) (path : List Frame) : Descends t path t path
  | left (v s sz : Int) (c0 c1 : Node) (col : Color) (path : List Frame) (t : Node)
      (p : List Frame) : Descends c0 (⟨v, s, sz, d0, c1, col⟩ :: path) t p →
      Descends (node v s sz c0 c1 col) path t p
  | right (v s sz : Int) (c0 c1 : Node) (col : Color) (path : List Frame) (t : Node)
      (p : List Frame) : Descends c1 (⟨v, s, sz, d1, c0, col⟩ :: path) t p →
      Descends (node v s sz c0 c1 col) path t p

/-- The last part of `erase`, once `y`, its child `x` and the updated ancestors of the slot
of `y` are known: the fix-up for a BLACK `y`, and the release of `y`. -/
def erase_finish (ycol : Color) (x : Node) (ypath : List Frame) : Option Node :=
  if ycol = BLACK then
    Option.map (fun r : Node => r.setColor BLACK)
      (match ypath with
      | [] => some x
      | f :: rest => balance_erase (rest.length + 2) (f.fill x) f.dir rest)
  else if x != null then none else some (plug x ypath)

/-- The subtree `b` is `a` with one key `d` less, as far as the aggregates go. -/
def aggDelta (d : Int) (a b : Node) : Prop :=
  (sizeOk a → sizeOk b ∧ b.sizeOf = a.sizeOf - 1) ∧
    (sumOk a → sumOk b ∧ b.sumOf = wrapT (a.sumOf - d))

/-- The number of evaluations of the loop condition of `balance_erase` that always
suffices for `cur` with `path.length` ancestors. -/
def fuelNeeded (cur : Node) (dir : Dir) (path : List Frame) : Nat :=
  if is_black (cur.children dir) then path.length + 2 else 1

/-! ## Further definitions: height, the multiset model -/

/-- The number of nodes on the longest path from `n` down to a leaf. -/
def height : Node → Nat
  | null => 0
  | node _ _ _ c0 c1 _ => 1 + max (height c0) (height c1)

/-- The number of nodes of the tree. -/
def nodeCount : Node → Nat
  | null => 0
  | node _ _ _ c0 c1 _ => 1 + nodeCount c0 + nodeCount c1

/-- The multiset model of one call: `insert(k)` adds one copy of `k`, `erase(k)` removes one
copy of `k` if there is one. -/
def msApply (M : Multiset Int) : Op → Multiset Int
  | Op.ins k => k ::ₘ M
  | Op.del k => M.erase k

/-- The multiset model of a sequence of calls, first to last. -/
def msRun : Multiset Int → List Op → Multiset Int
  | M, [] => M
  | M, op :: ops => msRun (msApply M op) ops

/-! ## The baseline tree (first `RBTree` of the source)

The same representation as for the augmented tree: a `Node*` is `Baseline.Node.null` or a
node with the subtrees `left` and `right` it owns, the `parent` pointer is the path to the
root.  A frame records with `dir` whether the node below is the `left` (`d0`) or the
`right` (`d1`) child. -/

namespace Baseline

/-- A `Node*` of the baseline tree. -/
inductive Node where
  | null : Node
  | node (value : Int) (left right : Node) (color : Color) : Node
  deriving DecidableEq, Repr

/-- An ancestor on the path to the root: its fields, the side on which the node below
hangs (`d0` for `left`, `d1` for `right`), and its other child. -/
structure Frame where
  value : Int
  dir : Dir
  other : Node
  color : Color
  deriving DecidableEq, Repr

/-- The ancestor as a node again, with `t` hung on its side `dir`. -/
def Frame.fill (f : Frame) (t : Node) : Node :=
  match f.dir with
  | d0 => .node f.value t f.other f.color
  | d1 => .node f.value f.other t f.color

/-- The whole tree (the root) seen from a subtree `t` and its path to the root. -/
def plug : Node → List Frame → Node
  | t, [] => t
  | t, f :: rest => plug (f.fill t) rest

/-- Assign `n->color = col`. -/
def Node.setColor : Node → Color → Node
  | .null, _ => .null
  | .node v l r _, col => .node v l r col

/-- The test `n && n->color == RED`. -/
def isRed : Node → Bool
  | .null => false
  | .node _ _ _ col => col == RED

/-- The procedure `rotate_left(n)` on the subtree rooted at `n`; the result is the node
`r` that takes the place of `n`.  `none` when `n` or `n->right` is absent (the source
dereferences it). -/
def rotate_left : Node → Option Node
  | .null => none
  | .node _ _ .null _ => none
  | .node v l (.node rv rl rr rc) c => some (.node rv (.node v l rl c) rr rc)

/-- The procedure `rotate_right(n)`; `none` when `n` or `n->left` is absent. -/
def rotate_right : Node → Option Node
  | .null => none
  | .node _ .null _ _ => none
  | .node v (.node lv ll lr lc) r c => some (.node lv ll (.node v lr r c) lc)

/-- The search loop of `insert`: the path from the absent slot reached up to the root, or
`none` when a node with an equal value is met (`return; // Already exists`). -/
def insert_descend : Node → Int → List Frame → Option (List Frame)
  | .null, _, path => some path
  | .node v l r col, t, path =>
    if v = t then none
    else if t < v then insert_descend l t (⟨v, d0, r, col⟩ :: path)
    else insert_descend r t (⟨v, d1, l, col⟩ :: path)

/-- The fix-up `balance(cur)`; `cur` is given with its path to the root and the result is
the new root.  `none` when the source would dereference an absent node. -/
def balance : Node → List Frame → Option Node
  | .null, _ => none
  | .node v l r _, [] => some (.node v l r BLACK)
  | cur, [p] => if p.color = BLACK then some (plug cur [p]) else none
  | cur, p :: g :: rest =>
    if p.color = BLACK then some (plug cur (p :: g :: rest))
    else
      let uncle := g.other
      if isRed uncle then
        -- Case 3: flip the colours of parent, grandparent and uncle
        balance
          (Frame.fill { g with color := RED, other := uncle.setColor BLACK }
            (Frame.fill { p with color := BLACK } cur))
          rest
      else
        -- Case 4: parent and cur are opposite children
        let step4 : Option (Node × Dir) :=
          if p.dir = d1 ∧ g.dir = d0 then
            -- rotate_left(cur->parent); cur = cur->left;
            (rotate_left (p.fill cur)).map (fun top => (top, d0))
          else if p.dir = d0 ∧ g.dir = d1 then
            -- rotate_right(cur->parent); cur = cur->right;
            (rotate_right (p.fill cur)).map (fun top => (top, d1))
          else some (p.fill cur, p.dir)
        step4.bind fun (par, cdir) =>
          -- grand->color = RED; cur->parent->color = BLACK;
          let grand := Frame.fill { g with color := RED } (par.setColor BLACK)
          -- if(cur == cur->parent->left) rotate_right(grand); else rotate_left(grand);
          (match cdir with
            | d0 => rotate_right grand
            | d1 => rotate_left grand).map fun top => plug top rest

/-- The procedure `insert(t)`; the result is the new root. -/
def insert (root : Node) (t : Int) : Option Node :=
  match insert_descend root t [] with
  | none => some root
  | some path => balance (.node t .null .null RED) path

/-- The procedure `find(t)`. -/
def find : Node → Int → Bool
  | .null, _ => false
  | .node v l r _, t =>
    if v = t then true
    else if t < v then find l t
    else find r t

/-- In-order traversal: the keys from left to right. -/
def inorder : Node → List Int
  | .null => []
  | .node v l r _ => inorder l ++ v :: inorder r

/-- Insert a list of keys one after the other. -/
def insertAll : Node → List Int → Option Node
  | root, [] => some root
  | root, k :: ks => (insert root k).bind fun r => insertAll r ks

end Baseline

/-- The augmented tree without its `sum` and `size` fields: `children[0]` is `left`,
`children[1]` is `right`. -/
def strip : Node → Baseline.Node
  | null => .null
  | node v _ _ c0 c1 col => .node v (strip c0) (strip c1) col

/-- An ancestor of the augmented tree without its `sum` and `size` fields. -/
def stripF (f : Frame) : Baseline.Frame :=
  ⟨f.value, f.dir, strip f.other, f.color⟩

/-! ## Aggregates, `find` and `minsum` -/

/-- The constants of `wrapT` and `inT` are `2 ^ 63` and `2 ^ 64`, for `T_bits = 64`. -/
theorem T_range : (2 : Int) ^ (T_bits - 1) = 9223372036854775808 ∧
    (2 : Int) ^ T_bits = 18446744073709551616 := by
  constructor <;> norm_num [T_bits]

/-- The result of an operation of `T` is a value of `T`. -/
theorem wrapT_inT (x : Int) : inT (wrapT x) := by
  unfold inT wrapT
  omega

/-- No overflow: an integer result in the range of `T` is the result in `T`. -/
theorem wrapT_of_inT {x : Int} (h : inT x) : wrapT x = x := by
  unfold inT at h
  unfold wrapT
  omega

theorem cast_wrapT (x : Int) :
    ((wrapT x : Int) : ZMod 18446744073709551616) = (x : ZMod 18446744073709551616) := by
  have h : wrapT x ≡ x [ZMOD ((18446744073709551616 : Nat) : Int)] := by
    unfold wrapT
    have := (Int.mod_modEq (x + 9223372036854775808)
      ((18446744073709551616 : Nat) : Int)).sub_right 9223372036854775808
    simpa using this
  exact (ZMod.intCast_eq_intCast_iff _ _ _).2 h

/-- Integers that agree modulo `2 ^ 64` give the same value of `T`. -/
theorem wrapT_congr {a b : Int}
    (h : (a : ZMod 18446744073709551616) = (b : ZMod 18446744073709551616)) :
    wrapT a = wrapT b := by
  have h' := (ZMod.intCast_eq_intCast_iff _ _ _).1 h
  unfold wrapT
  have := h'.add_right 9223372036854775808
  unfold Int.ModEq at this
  push_cast at this
  rw [this]

theorem wrapT_wrapT (x : Int) : wrapT (wrapT x) = wrapT x := wrapT_of_inT (wrapT_inT x)

theorem wrapT_zero : wrapT 0 = 0 := by decide

theorem wrapT_zero_add (x : Int) : wrapT (0 + wrapT x) = wrapT x := by
  rw [zero_add, wrapT_wrapT]

theorem aggOk_iff (t : Node) : aggOk t ↔ sumOk t ∧ sizeOk t := by
  induction t with
  | null => simp [aggOk, sumOk, sizeOk]
  | node v s sz c0 c1 col ih0 ih1 =>
    simp only [aggOk, sumOk, sizeOk, ih0, ih1]
    tauto

theorem sizeOk_of_aggOk (t : Node) (h : aggOk t) : sizeOk t := ((aggOk_iff t).1 h).2

theorem sizeOf_of_sizeOk (t : Node) (h : sizeOk t) : t.sizeOf = ((inorder t).length : Int) := by
  induction t with
  | null => rfl
  | node v s sz c0 c1 col ih0 ih1 =>
    obtain ⟨hz, h0, h1⟩ := h
    simp only [Node.sizeOf, inorder, List.length_append, List.length_cons]
    rw [hz, ih0 h0, ih1 h1]; push_cast; ring

/-- Under the sum invariant the stored sum is the sum of the keys of the subtree, reduced
to the range of `T`. -/
theorem sumOf_of_sumOk (t : Node) (h : sumOk t) : t.sumOf = wrapT (inorder t).sum := by
  induction t with
  | null => simp [Node.sumOf, inorder, wrapT_zero]
  | node v s sz c0 c1 col ih0 ih1 =>
    obtain ⟨hs, h0, h1⟩ := h
    simp only [Node.sumOf, inorder, List.sum_append, List.sum_cons]
    rw [hs, ih0 h0, ih1 h1]
    apply wrapT_congr
    push_cast [cast_wrapT]
    ring

/-- Under the aggregate invariant the stored sum is the sum of the keys of the subtree in
`T`, and the stored size is their number. -/
theorem agg_sum_size {t : Node} (h : aggOk t) :
    t.sumOf = wrapT (inorder t).sum ∧ t.sizeOf = ((inorder t).length : Int) :=
  ⟨sumOf_of_sumOk t ((aggOk_iff t).1 h).1, sizeOf_of_sizeOk t ((aggOk_iff t).1 h).2⟩

theorem aggOk_iff_aggExact (t : Node) : aggOk t ↔ aggExact t := by
  induction t with
  | null => simp [aggOk, aggExact]
  | node v s sz c0 c1 col ih0 ih1 =>
    constructor
    · intro h
      have hh := agg_sum_size h
      obtain ⟨hs, hz, h0, h1⟩ := h
      exact ⟨hh.1, hh.2, ih0.1 h0, ih1.1 h1⟩
    · rintro ⟨hs, hz, h0, h1⟩
      have a0 := agg_sum_size (ih0.2 h0)
      have a1 := agg_sum_size (ih1.2 h1)
      refine ⟨?_, ?_, ih0.2 h0, ih1.2 h1⟩
      · rw [hs, a0.1, a1.1]
        simp only [inorder, List.sum_append, List.sum_cons]
        apply wrapT_congr
        push_cast [cast_wrapT]
        ring
      · rw [hz, a0.2, a1.2]; simp [inorder]; ring

/-- Without overflow the aggregate invariant of the code is the aggregate invariant over
the integers: every node stores the exact integer sum of the keys below it. -/
theorem aggOkInt_of_aggOk (t : Node) (h : aggOk t) (hf : sumsFit t) :
    aggOkInt t ∧ aggExactInt t ∧ t.sumOf = (inorder t).sum := by
  induction t with
  | null => exact ⟨trivial, trivial, rfl⟩
  | node v s sz c0 c1 col ih0 ih1 =>
    have hh := agg_sum_size h
    obtain ⟨hs, hz, h0, h1⟩ := h
    obtain ⟨f, f0, f1⟩ := hf
    obtain ⟨a0, b0, e0⟩ := ih0 h0 f0
    obtain ⟨a1, b1, e1⟩ := ih1 h1 f1
    have hsum : s = (inorder (node v s sz c0 c1 col)).sum := by
      have := hh.1
      rw [wrapT_of_inT f] at this
      exact this
    refine ⟨⟨?_, hz, a0, a1⟩, ⟨hsum, hh.2, b0, b1⟩, hsum⟩
    rw [e0, e1, hsum]
    simp only [inorder, List.sum_append, List.sum_cons]
    ring

/-- A tree of values of `T` that satisfies the aggregate invariant over the integers
satisfies the aggregate invariant of the code. -/
theorem aggOk_of_aggOkInt (t : Node) (h : aggOkInt t) (hs : storedInT t) : aggOk t := by
  induction t with
  | null => trivial
  | node v s sz c0 c1 col ih0 ih1 =>
    obtain ⟨e, hz, h0, h1⟩ := h
    obtain ⟨i, i0, i1⟩ := hs
    refine ⟨?_, hz, ih0 h0 i0, ih1 h1 i1⟩
    rw [← e, wrapT_of_inT i]

/-- On a sorted in-order traversal `find` is membership. -/
theorem find_iff_mem (t : Node) (k : Int) (h : (inorder t).Sorted (· ≤ ·)) :
    find t k = true ↔ k ∈ inorder t := by
  induction t with
  | null => simp [find, inorder]
  | node v s sz c0 c1 col ih0 ih1 =>
    simp only [inorder, List.Sorted, List.pairwise_append, List.pairwise_cons, List.mem_cons,
      forall_eq_or_imp] at h
    obtain ⟨h0, ⟨hv1, h1⟩, h01⟩ := h
    simp only [find, inorder, List.mem_append, List.mem_cons]
    by_cases e : v = k
    · simp [e]
    · simp only [e, if_false]
      by_cases lt : k < v
      · simp only [lt, if_true]
        rw [ih0 h0]
        constructor
        · exact Or.inl
        · rintro (h | h | h)
          · exact h
          · exact absurd h.symm e
          · have := hv1 k h; omega
      · simp only [lt, if_false]
        rw [ih1 h1]
        constructor
        · exact fun h => Or.inr (Or.inr h)
        · rintro (h | h | h)
          · have := (h01 k h).1; omega
          · exact absurd h.symm e
          · exact h

theorem minsum_inner_null (K : Int) : minsum_inner null K = some (0, K) := rfl

theorem minsum_inner_node (v s sz : Int) (c0 c1 : Node) (col : Color) (K : Int) :
    minsum_inner (node v s sz c0 c1 col) K =
    if sz ≤ K then some (s, K - sz)
    else
      ((minsum_inner c0 K).map fun (s0, K) => (wrapT (0 + s0), K)).bind fun (sum, K) =>
        let (sum, K) := if K > 0 then (wrapT (sum + v), K - 1) else (sum, K)
        if K > 0 then
          match c1 with
          | null => none
          | c1 => (minsum_inner c1 K).map fun (s1, K) => (wrapT (sum + s1), K)
        else some (sum, K) := by
  cases c0 <;> cases c1 <;> rfl

/-- Under the aggregate invariant `minsum_inner(n, K)` for `K ≥ 0` returns the sum of the
first `K` in-order keys of `n`, added up in `T`, and leaves in `K` what was not used. -/
theorem minsum_inner_nat (t : Node) (hagg : aggOk t) (k : Nat) :
    minsum_inner t (k : Int) =
      some (wrapT ((inorder t).take k).sum, ((k - (inorder t).length : Nat) : Int)) := by
  induction t generalizing k with
  | null => simp [minsum_inner_null, inorder, wrapT_zero]
  | node v s sz c0 c1 col ih0 ih1 =>
    have hh := agg_sum_size hagg
    obtain ⟨hs, hz, h0, h1⟩ := hagg
    have a0 := agg_sum_size h0
    have a1 := agg_sum_size h1
    simp only [Node.sumOf, Node.sizeOf] at hh
    have hlen : (inorder (node v s sz c0 c1 col)).length = (inorder c0).length + 1 + (inorder c1).length := by
      simp [inorder]; omega
    rw [minsum_inner_node]
    by_cases hle : sz ≤ (k : Int)
    · rw [if_pos hle]
      have : (inorder (node v s sz c0 c1 col)).length ≤ k := by omega
      rw [List.take_of_length_le this, ← hh.1]
      congr 2
      omega
    · rw [if_neg hle]
      have hlt : k < (inorder c0).length + 1 + (inorder c1).length := by omega
      rw [ih0 h0 k]
      simp only [Option.map_some', Option.some_bind, inorder, List.take_append_eq_append_take,
        List.sum_append, wrapT_zero_add]
      by_cases hk0 : k ≤ (inorder c0).length
      · have z : k - (inorder c0).length = 0 := by omega
        have z2 : k - ((inorder c0).length + ((inorder c1).length + 1)) = 0 := by omega
        simp [z, z2]
      · have pos : ((k - (inorder c0).length : Nat) : Int) > 0 := by omega
        obtain ⟨m, hm⟩ : ∃ m, k - (inorder c0).length = m + 1 := ⟨k - (inorder c0).length - 1, by omega⟩
        have pos1 : ((m + 1 : Nat) : Int) > 0 := by omega
        simp only [hm, List.take_succ_cons, List.sum_cons]
        simp only [pos1, if_true]
        have e1 : ((m + 1 : Nat) : Int) - 1 = (m : Int) := by push_cast; ring
        rw [e1]
        have z2 : k - ((inorder c0).length + ((inorder c1).length + 1)) = 0 := by omega
        by_cases hm0 : m = 0
        · subst hm0
          simp only [z2, Nat.cast_zero, gt_iff_lt, lt_self_iff_false, if_false, List.take_zero,
            List.sum_nil, add_zero, List.length_append, List.length_cons, Option.some.injEq,
            Prod.mk.injEq, and_true]
          apply wrapT_congr
          push_cast [cast_wrapT]
          ring
        · have pos2 : (m : Int) > 0 := by omega
          simp only [pos2, if_true]
          cases c1 with
          | null => simp [inorder] at hlt; omega
          | node a b c d e f =>
            have z3 : m - (inorder (node a b c d e f)).length = 0 := by omega
            simp only []
            rw [ih1 h1 m]
            simp only [z2, z3, Option.map_some', List.length_append, List.length_cons,
              Option.some.injEq, Prod.mk.injEq, Nat.cast_zero, and_true]
            apply wrapT_congr
            push_cast [cast_wrapT]
            ring

/-! ## Rotation and the fix-up after an insertion -/

/-- The result of `rotate(n, 0)` when `n->children[1]` exists; the node on top takes over
the stored size of `n`, and its sum is the sum of `n` as far as `T` can tell. -/
theorem rotate_d0 (v s sz : Int) (a : Node) (col : Color) (cv cs csz : Int) (b c : Node)
    (ccol : Color) :
    rotate (node v s sz a (node cv cs csz b c ccol) col) d0 =
      some (node cv (wrapT (wrapT (cs - b.sumOf) + wrapT (wrapT (s - cs) + b.sumOf))) sz
        (node v (wrapT (wrapT (s - cs) + b.sumOf)) (sz - csz + b.sizeOf) a b col) c ccol) := by
  cases b <;> simp [rotate, Node.children, Node.setChild, Dir.flip, Node.sumOf, Node.sizeOf,
    wrapT_wrapT]
  apply wrapT_congr
  push_cast [cast_wrapT]
  ring

/-- The result of `rotate(n, 1)` when `n->children[0]` exists. -/
theorem rotate_d1 (v s sz : Int) (c : Node) (col : Color) (cv cs csz : Int) (a b : Node)
    (ccol : Color) :
    rotate (node v s sz (node cv cs csz a b ccol) c col) d1 =
      some (node cv (wrapT (wrapT (cs - b.sumOf) + wrapT (wrapT (s - cs) + b.sumOf))) sz a
        (node v (wrapT (wrapT (s - cs) + b.sumOf)) (sz - csz + b.sizeOf) b c col) ccol) := by
  cases b <;> simp [rotate, Node.children, Node.setChild, Dir.flip, Node.sumOf, Node.sizeOf,
    wrapT_wrapT]
  apply wrapT_congr
  push_cast [cast_wrapT]
  ring

theorem rotate_d0_null (v s sz : Int) (a : Node) (col : Color) :
    rotate (node v s sz a null col) d0 = none := by
  simp [rotate, Node.children, Dir.flip]

theorem rotate_d1_null (v s sz : Int) (a : Node) (col : Color) :
    rotate (node v s sz null a col) d1 = none := by
  simp [rotate, Node.children, Dir.flip]

theorem is_black_null : is_black null = true := rfl

theorem is_black_node (v s sz : Int) (a b : Node) (c : Color) :
    is_black (node v s sz a b c) = true ↔ c = BLACK := by
  cases c <;> simp [is_black]

/-- Filling the hole of a red-black context with a red-black subtree of the expected
black height gives a red-black tree, provided no RED node meets a RED parent. -/
theorem plug_rb (path : List Frame) : ∀ (t : Node) (h : Nat), rbOk t → blackHeight t = h →
    ctxOk path h → (is_black t = true ∨ headBlack path) →
    rbOk (plug t path) ∧ (path ≠ [] → is_black (plug t path) = true) := by
  induction path with
  | nil => intro t h ht _ _ _; exact ⟨ht, fun h => absurd rfl h⟩
  | cons f rest ih =>
    intro t h ht hh hc hb
    obtain ⟨fv, fs, fsz, fd, fo, fc⟩ := f
    obtain ⟨ho, hoh, hred, hrest⟩ := hc
    simp only at ho hoh hred hrest
    have key : rbOk (Frame.fill ⟨fv, fs, fsz, fd, fo, fc⟩ t) ∧
        blackHeight (Frame.fill ⟨fv, fs, fsz, fd, fo, fc⟩ t) = h + (if fc = BLACK then 1 else 0) ∧
        (is_black (Frame.fill ⟨fv, fs, fsz, fd, fo, fc⟩ t) = true ∨ headBlack rest)  := by
      cases fd <;> cases fc <;>
        simp_all [Frame.fill, rbOk, redOk, bhOk, blackHeight, is_black, headBlack]
    have := ih _ _ key.1 key.2.1 hrest key.2.2
    refine ⟨this.1, fun _ => ?_⟩
    by_cases hr : rest = []
    · subst hr
      cases fc
      · simp at hred
      · cases fd <;> simp [plug, Frame.fill, is_black]
    · exact this.2 hr

theorem balance_parent_black (v s sz : Int) (a b : Node) (c : Color) (p : Frame)
    (rest : List Frame) (hp : p.color = BLACK) :
    balance (node v s sz a b c) (p :: rest) = some (plug (node v s sz a b c) (p :: rest)) := by
  cases rest <;> simp [balance, hp]

/-- The fix-up `balance` on a RED node whose subtree is red-black, in a red-black context:
it returns, and the result satisfies the red-black invariants. -/
theorem balance_rb : ∀ (path : List Frame) (v s sz : Int) (a b : Node) (h : Nat),
    rbOk (node v s sz a b RED) → blackHeight (node v s sz a b RED) = h → ctxOk path h →
    ∃ t, balance (node v s sz a b RED) path = some t ∧ RBInv t
  | [], v, s, sz, a, b, h, hcur, hh, hc => by
    refine ⟨_, rfl, ?_⟩
    simp_all [RBInv, rbOk, redOk, bhOk, is_black]
  | [p], v, s, sz, a, b, h, hcur, hh, hc => by
    obtain ⟨fv, fs, fsz, fd, fo, fc⟩ := p
    have hc' := hc
    obtain ⟨ho, hoh, hred, hrest⟩ := hc
    cases fc
    · simp at hred
    · refine ⟨_, balance_parent_black _ _ _ _ _ _ _ _ rfl, ?_⟩
      have := plug_rb _ _ _ hcur hh hc' (Or.inr rfl)
      exact ⟨this.2 (by simp), this.1.1, this.1.2⟩
  | p :: g :: rest, v, s, sz, a, b, h, hcur, hh, hc => by
    obtain ⟨pv, ps, psz, pd, po, pc⟩ := p
    obtain ⟨gv, gs, gsz, gd, go, gc⟩ := g
    have hc' := hc
    obtain ⟨ho, hoh, hred, hrest⟩ := hc
    cases pc
    · -- parent RED
      simp only [true_implies, headBlack] at hred
      obtain ⟨hpo, hgB, -⟩ := hred
      subst hgB
      obtain ⟨hgo, hgoh, -, hrest'⟩ := hrest
      simp only [if_true, if_false, reduceCtorEq, add_zero] at hrest' hgoh hgo
      by_cases hu : is_black go = true
      · -- Case 4
        have hplug : ∀ top, rbOk top → blackHeight top = h + 1 → is_black top = true →
            RBInv (plug top rest) := by
          intro top h1 h2 h3
          have := plug_rb rest top (h + 1) h1 h2 hrest' (Or.inl h3)
          by_cases hr : rest = []
          · subst hr; exact ⟨h3, h1.1, h1.2⟩
          · exact ⟨this.2 hr, this.1.1, this.1.2⟩
        cases pd <;> cases gd <;>
          simp [balance, hu, Frame.fill, Node.setColor, rotate_d0, rotate_d1, Dir.flip] <;>
          apply hplug <;>
          simp_all [rbOk, redOk, bhOk, blackHeight, is_black]
      · -- Case 3
        cases go with
        | null => simp [is_black] at hu
        | node uv us usz ua ub uc =>
          cases uc
          swap
          · simp [is_black] at hu
          have hrec : ∀ (x y : Node) (vv ss zz : Int), rbOk (node vv ss zz x y RED) →
              blackHeight (node vv ss zz x y RED) = h + 1 →
              ∃ t, balance (node vv ss zz x y RED) rest = some t ∧ RBInv t :=
            fun x y vv ss zz h1 h2 => balance_rb rest vv ss zz x y (h + 1) h1 h2 hrest'
          cases pd <;> cases gd <;>
            simp [balance, hu, Frame.fill, Node.setColor, is_black] <;>
            apply hrec <;>
            simp_all [rbOk, redOk, bhOk, blackHeight, is_black]
    · -- parent BLACK
      refine ⟨_, balance_parent_black _ _ _ _ _ _ _ _ rfl, ?_⟩
      have := plug_rb _ _ _ hcur hh hc' (Or.inr rfl)
      exact ⟨this.2 (by simp), this.1.1, this.1.2⟩

theorem sumOf_null : Node.sumOf null = 0 := rfl

theorem sizeOf_null : Node.sizeOf null = 0 := rfl

theorem sumOf_node (v s sz : Int) (a b : Node) (c : Color) : (node v s sz a b c).sumOf = s := rfl

theorem sizeOf_node (v s sz : Int) (a b : Node) (c : Color) : (node v s sz a b c).sizeOf = sz := rfl

theorem inorder_plug (path : List Frame) : ∀ t : Node,
    inorder (plug t path) = ctxL path ++ inorder t ++ ctxR path := by
  induction path with
  | nil => intro t; simp [plug, ctxL, ctxR]
  | cons f rest ih =>
    intro t
    obtain ⟨fv, fs, fsz, fd, fo, fc⟩ := f
    cases fd <;> simp [plug, ih, ctxL, ctxR, Frame.fill, inorder]

theorem sameContent_refl (a : Node) : sameContent a a :=
  ⟨rfl, fun h => ⟨h, rfl⟩, fun h => ⟨h, rfl⟩⟩

theorem sameContent_trans {a b c : Node} (h1 : sameContent a b) (h2 : sameContent b c) :
    sameContent a c := by
  refine ⟨h2.1.trans h1.1, fun h => ?_, fun h => ?_⟩
  · obtain ⟨x1, x2⟩ := h1.2.1 h
    obtain ⟨y1, y2⟩ := h2.2.1 x1
    exact ⟨y1, y2.trans x2⟩
  · obtain ⟨x1, x2⟩ := h1.2.2 h
    obtain ⟨y1, y2⟩ := h2.2.2 x1
    exact ⟨y1, y2.trans x2⟩

theorem sameContent_fill (f : Frame) {a b : Node} (h : sameContent a b) :
    sameContent (f.fill a) (f.fill b) := by
  obtain ⟨fv, fs, fsz, fd, fo, fc⟩ := f
  obtain ⟨h1, h2, h3⟩ := h
  cases fd <;> simp only [sameContent, Frame.fill, inorder, h1, sizeOk, sumOk, sumOf_null,
      sumOf_node, sizeOf_null, sizeOf_node, true_and, and_true]
  · constructor
    · rintro ⟨e1, e2, e3⟩
      obtain ⟨x1, x2⟩ := h2 e2
      exact ⟨by rw [x2]; exact e1, x1, e3⟩
    · rintro ⟨e1, e2, e3⟩
      obtain ⟨x1, x2⟩ := h3 e2
      exact ⟨by rw [x2]; exact e1, x1, e3⟩
  · constructor
    · rintro ⟨e1, e2, e3⟩
      obtain ⟨x1, x2⟩ := h2 e3
      exact ⟨by rw [x2]; exact e1, e2, x1⟩
    · rintro ⟨e1, e2, e3⟩
      obtain ⟨x1, x2⟩ := h3 e3
      exact ⟨by rw [x2]; exact e1, e2, x1⟩

theorem sameContent_plug (path : List Frame) : ∀ {a b : Node}, sameContent a b →
    sameContent (plug a path) (plug b path) := by
  induction path with
  | nil => intro a b h; exact h
  | cons f rest ih => intro a b h; exact ih (sameContent_fill f h)

/-- The fix-up `balance` keeps the keys in order and the aggregates right. -/
theorem balance_content : ∀ (path : List Frame) (cur t : Node),
    balance cur path = some t → sameContent (plug cur path) t
  | _, null, t, h => by simp [balance] at h
  | [], node v s sz a b c, t, h => by
    simp only [balance, Option.some.injEq] at h
    subst h
    simp [sameContent, plug, inorder, sizeOk, sumOk, sumOf_null, sumOf_node, sizeOf_null, sizeOf_node]
  | [p], node v s sz a b c, t, h => by
    simp only [balance] at h
    split at h
    · simp only [Option.some.injEq] at h; subst h; exact sameContent_refl _
    · simp at h
  | p :: g :: rest, node v s sz a b c, t, h => by
    obtain ⟨pv, ps, psz, pd, po, pc⟩ := p
    obtain ⟨gv, gs, gsz, gd, go, gc⟩ := g
    cases pc
    swap
    · rw [balance_parent_black _ _ _ _ _ _ _ _ rfl] at h
      simp only [Option.some.injEq] at h; subst h; exact sameContent_refl _
    by_cases hu : is_black go = true
    · have key : ∀ top, sameContent
          (Frame.fill ⟨gv, gs, gsz, gd, go, gc⟩ (Frame.fill ⟨pv, ps, psz, pd, po, RED⟩ (node v s sz a b c))) top →
          t = plug top rest → sameContent (plug (node v s sz a b c)
            (⟨pv, ps, psz, pd, po, RED⟩ :: ⟨gv, gs, gsz, gd, go, gc⟩ :: rest)) t := by
        intro top h1 h2
        subst h2
        exact sameContent_plug rest h1
      cases pd <;> cases gd <;>
        simp [balance, hu, Frame.fill, Node.setColor, rotate_d0, rotate_d1, Dir.flip] at h <;>
        refine key _ ?_ h.symm <;>
        simp [sameContent, Frame.fill, inorder, sizeOk, sumOk, sumOf_null, sumOf_node, sizeOf_null, sizeOf_node] <;>
        (repeat' (first | intro _ | constructor)) <;>
        first | assumption | omega | (subst_vars; apply wrapT_congr; push_cast [cast_wrapT]; ring)
    · cases go with
      | null => simp [is_black] at hu
      | node uv us usz ua ub uc =>
        have key : ∀ cur', sameContent
          (Frame.fill ⟨gv, gs, gsz, gd, node uv us usz ua ub uc, gc⟩
            (Frame.fill ⟨pv, ps, psz, pd, po, RED⟩ (node v s sz a b c))) cur' →
          balance cur' rest = some t → sameContent (plug (node v s sz a b c)
            (⟨pv, ps, psz, pd, po, RED⟩ :: ⟨gv, gs, gsz, gd, node uv us usz ua ub uc, gc⟩ :: rest)) t := by
          intro cur' h1 h2
          exact sameContent_trans (sameContent_plug rest h1) (balance_content rest cur' t h2)
        cases pd <;> cases gd <;>
          simp [balance, hu, Frame.fill, Node.setColor] at h <;>
          refine key _ ?_ h <;>
          simp [sameContent, Frame.fill, inorder, sizeOk, sumOk, sumOf_null, sumOf_node, sizeOf_null, sizeOf_node]

/-! ## The procedure `insert` -/

theorem insert_eq (root : Node) (k : Int) :
    insert root k = balance (node k k 1 null null RED) ((insert_descend root k []).map (Frame.add k)) := rfl

theorem descend_plug (k : Int) : ∀ (t : Node) (path : List Frame),
    plug null (insert_descend t k path) = plug t path := by
  intro t
  induction t with
  | null => intro path; rfl
  | node v s sz c0 c1 col ih0 ih1 =>
    intro path
    simp only [insert_descend]
    split
    · rw [ih0]; rfl
    · rw [ih1]; rfl

theorem headBlack_map (g : Frame → Frame) (hg : ∀ f, (g f).color = f.color) (path : List Frame) :
    headBlack (path.map g) ↔ headBlack path := by
  cases path <;> simp [headBlack, hg]

theorem ctxOk_map (g : Frame → Frame) (hc : ∀ f, (g f).color = f.color)
    (ho : ∀ f, (g f).other = f.other) (path : List Frame) :
    ∀ h, ctxOk path h → ctxOk (path.map g) h := by
  induction path with
  | nil => intro h _; trivial
  | cons f rest ih =>
    intro h ⟨h1, h2, h3, h4⟩
    refine ⟨by rw [ho]; exact h1, by rw [ho]; exact h2, ?_, ?_⟩
    · rw [hc, ho]
      intro hr
      obtain ⟨x1, x2, x3⟩ := h3 hr
      exact ⟨x1, (headBlack_map g hc rest).2 x2, by simpa using x3⟩
    · rw [hc]; exact ih _ h4

theorem descend_ctx (k : Int) : ∀ (t : Node) (path : List Frame),
    rbOk t → ctxOk path (blackHeight t) →
    (is_black t = true ∨ (headBlack path ∧ path ≠ [])) →
    ctxOk (insert_descend t k path) 0 := by
  intro t
  induction t with
  | null => intro path _ hc _; exact hc
  | node v s sz c0 c1 col ih0 ih1 =>
    intro path ht hc hb
    obtain ⟨⟨hr, hr0, hr1⟩, hbh, hb0, hb1⟩ := ht
    simp only [insert_descend]
    have hcol : col = RED → headBlack path ∧ path ≠ [] := by
      intro e; subst e; simpa [is_black] using hb
    split
    · apply ih0 _ ⟨hr0, hb0⟩
      · refine ⟨⟨hr1, hb1⟩, hbh.symm, ?_, ?_⟩
        · intro e
          simp only at e
          exact ⟨(hr e).2, (hcol e).1, (hcol e).2⟩
        · simpa [blackHeight] using hc
      · cases col
        · exact Or.inl (hr rfl).1
        · exact Or.inr ⟨rfl, by simp⟩
    · apply ih1 _ ⟨hr1, hb1⟩
      · refine ⟨⟨hr0, hb0⟩, hbh, ?_, ?_⟩
        · intro e
          simp only at e
          exact ⟨(hr e).1, (hcol e).1, (hcol e).2⟩
        · simp only [blackHeight] at hc
          rw [← hbh]; exact hc
      · cases col
        · exact Or.inl (hr rfl).2
        · exact Or.inr ⟨rfl, by simp⟩

/-- `insert` returns on a red-black tree, and the result is a red-black tree. -/
theorem insert_rb (root : Node) (k : Int) (h : RBInv root) :
    ∃ t, insert root k = some t ∧ RBInv t := by
  rw [insert_eq]
  apply balance_rb _ _ _ _ _ _ 0
  · simp [rbOk, redOk, bhOk, is_black]
  · simp [blackHeight]
  · apply ctxOk_map (Frame.add k) (fun _ => rfl) (fun _ => rfl)
    exact descend_ctx k root [] ⟨h.2.1, h.2.2⟩ trivial (Or.inl h.1)

theorem sizeOk_of_plug (path : List Frame) : ∀ a : Node, sizeOk (plug a path) → sizeOk a := by
  induction path with
  | nil => intro a h; exact h
  | cons f rest ih =>
    intro a h
    have := ih _ h
    obtain ⟨fv, fs, fsz, fd, fo, fc⟩ := f
    cases fd
    · exact this.2.1
    · exact this.2.2

theorem sumOk_of_plug (path : List Frame) : ∀ a : Node, sumOk (plug a path) → sumOk a := by
  induction path with
  | nil => intro a h; exact h
  | cons f rest ih =>
    intro a h
    have := ih _ h
    obtain ⟨fv, fs, fsz, fd, fo, fc⟩ := f
    cases fd
    · exact this.2.1
    · exact this.2.2

theorem size_plug_add (k : Int) (path : List Frame) : ∀ (a b : Node), sizeOk (plug a path) →
    sizeOk b → b.sizeOf = a.sizeOf + 1 →
    sizeOk (plug b (path.map (Frame.add k))) ∧
      (plug b (path.map (Frame.add k))).sizeOf = (plug a path).sizeOf + 1 := by
  induction path with
  | nil => intro a b _ hb hz; exact ⟨hb, hz⟩
  | cons f rest ih =>
    intro a b ha hb hz
    obtain ⟨fv, fs, fsz, fd, fo, fc⟩ := f
    simp only [List.map_cons, plug] at ha ⊢
    have haf := sizeOk_of_plug rest _ ha
    apply ih _ _ ha
    · cases fd <;> simp only [Frame.fill, Frame.add, sizeOk, sizeOf_node] at haf ⊢ <;>
        obtain ⟨x1, x2, x3⟩ := haf <;> refine ⟨?_, ?_, ?_⟩ <;> first | assumption | omega
    · cases fd <;> rfl

theorem sum_plug_add (k : Int) (path : List Frame) : ∀ (a b : Node), sumOk (plug a path) →
    sumOk b → b.sumOf = wrapT (a.sumOf + k) →
    sumOk (plug b (path.map (Frame.add k))) ∧
      (plug b (path.map (Frame.add k))).sumOf = wrapT ((plug a path).sumOf + k) := by
  induction path with
  | nil => intro a b _ hb hs; exact ⟨hb, hs⟩
  | cons f rest ih =>
    intro a b ha hb hs
    obtain ⟨fv, fs, fsz, fd, fo, fc⟩ := f
    simp only [List.map_cons, plug] at ha ⊢
    have haf := sumOk_of_plug rest _ ha
    apply ih _ _ ha
    · cases fd <;> simp only [Frame.fill, Frame.add, sumOk, sumOf_node] at haf ⊢ <;>
        obtain ⟨x1, x2, x3⟩ := haf <;> refine ⟨?_, ?_, ?_⟩ <;>
        first | assumption | (rw [x1, hs]; apply wrapT_congr; push_cast [cast_wrapT]; ring)
    · cases fd <;> rfl

/-- `insert` keeps the size invariant, and the root's size grows by one. -/
theorem insert_size (root : Node) (k : Int) (t : Node) (h : sizeOk root)
    (ht : insert root k = some t) : sizeOk t ∧ t.sizeOf = root.sizeOf + 1 := by
  rw [insert_eq] at ht
  have h1 := balance_content _ _ _ ht
  have h2 := size_plug_add k (insert_descend root k []) null (node k k 1 null null RED)
    (by rw [descend_plug]; exact h) (by simp [sizeOk, sizeOf_null])
    (by simp [sizeOf_null, sizeOf_node])
  rw [descend_plug] at h2
  obtain ⟨x1, x2⟩ := h1.2.1 h2.1
  exact ⟨x1, x2.trans h2.2⟩

/-- `insert` of a value of `T` keeps the sum invariant, and the root's sum grows by the key
in `T`. -/
theorem insert_sum (root : Node) (k : Int) (t : Node) (h : sumOk root) (hk : inT k)
    (ht : insert root k = some t) : sumOk t ∧ t.sumOf = wrapT (root.sumOf + k) := by
  rw [insert_eq] at ht
  have h1 := balance_content _ _ _ ht
  have h2 := sum_plug_add k (insert_descend root k []) null (node k k 1 null null RED)
    (by rw [descend_plug]; exact h)
    (by simp [sumOk, sumOf_null, wrapT_of_inT hk])
    (by simp [sumOf_null, sumOf_node, wrapT_of_inT hk])
  rw [descend_plug] at h2
  obtain ⟨x1, x2⟩ := h1.2.2 h2.1
  exact ⟨x1, x2.trans h2.2⟩

/-- `insert` of a value of `T` keeps the aggregate invariant. -/
theorem insert_agg (root : Node) (k : Int) (t : Node) (h : aggOk root) (hk : inT k)
    (ht : insert root k = some t) : aggOk t :=
  (aggOk_iff t).2 ⟨(insert_sum root k t ((aggOk_iff root).1 h).1 hk ht).1,
    (insert_size root k t ((aggOk_iff root).1 h).2 ht).1⟩

theorem ctxL_map (g : Frame → Frame) (hd : ∀ f, (g f).dir = f.dir) (hv : ∀ f, (g f).value = f.value)
    (ho : ∀ f, (g f).other = f.other) (path : List Frame) : ctxL (path.map g) = ctxL path := by
  induction path with
  | nil => rfl
  | cons f rest ih => simp only [List.map_cons, ctxL, ih, hd, hv, ho]

theorem ctxR_map (g : Frame → Frame) (hd : ∀ f, (g f).dir = f.dir) (hv : ∀ f, (g f).value = f.value)
    (ho : ∀ f, (g f).other = f.other) (path : List Frame) : ctxR (path.map g) = ctxR path := by
  induction path with
  | nil => rfl
  | cons f rest ih => simp only [List.map_cons, ctxR, ih, hd, hv, ho]

theorem descend_bounds (k : Int) : ∀ (t : Node) (path : List Frame),
    (inorder t).Sorted (· ≤ ·) → (∀ x ∈ ctxL path, x ≤ k) → (∀ x ∈ ctxR path, k < x) →
    (∀ x ∈ ctxL (insert_descend t k path), x ≤ k) ∧
    (∀ x ∈ ctxR (insert_descend t k path), k < x) := by
  intro t
  induction t with
  | null => intro path _ h1 h2; exact ⟨h1, h2⟩
  | node v s sz c0 c1 col ih0 ih1 =>
    intro path hs h1 h2
    simp only [inorder, List.Sorted, List.pairwise_append, List.pairwise_cons, List.mem_cons,
      forall_eq_or_imp] at hs
    obtain ⟨hs0, ⟨hv1, hs1⟩, h01⟩ := hs
    simp only [insert_descend]
    split
    · rename_i hlt
      apply ih0 _ hs0
      · simpa [ctxL] using h1
      · intro x hx
        simp only [ctxR, List.cons_append, List.mem_cons, List.mem_append] at hx
        rcases hx with hx | hx | hx
        · omega
        · have := hv1 x hx; omega
        · exact h2 x hx
    · rename_i hlt
      apply ih1 _ hs1
      · intro x hx
        simp only [ctxL, List.mem_append, List.mem_singleton] at hx
        rcases hx with hx | hx | hx
        · exact h1 x hx
        · have := (h01 x hx).1; omega
        · omega
      · simpa [ctxR] using h2

theorem cons_append_all_eq (a : Int) (l2 : List Int) : ∀ l1 : List Int, (∀ x ∈ l1, x = a) →
    a :: (l1 ++ l2) = l1 ++ a :: l2 := by
  intro l1
  induction l1 with
  | nil => intro _; rfl
  | cons b l1 ih =>
    intro h
    have hb : b = a := h b (by simp)
    subst hb
    rw [List.cons_append, List.cons_append, ih (fun x hx => h x (by simp [hx]))]

/-- Inserting `k` behind a sorted prefix of keys `≤ k` and before keys `> k` is the
sorted insertion. -/
theorem orderedInsert_split (k : Int) : ∀ (l1 l2 : List Int), (∀ x ∈ l1, x ≤ k) →
    (∀ x ∈ l2, k < x) → (l1 ++ l2).Sorted (· ≤ ·) →
    List.orderedInsert (· ≤ ·) k (l1 ++ l2) = l1 ++ k :: l2 := by
  intro l1
  induction l1 with
  | nil =>
    intro l2 _ h2 _
    cases l2 with
    | nil => rfl
    | cons b l2 =>
      have := h2 b (by simp)
      simp [List.orderedInsert, this.le]
  | cons a l1 ih =>
    intro l2 h1 h2 hs
    have ha := h1 a (by simp)
    rw [List.cons_append] at hs ⊢
    rw [List.sorted_cons] at hs
    have ih' := ih l2 (fun x hx => h1 x (by simp [hx])) h2 hs.2
    by_cases hka : k ≤ a
    · have e : a = k := le_antisymm ha hka
      subst e
      rw [List.orderedInsert_of_le _ _ hka, List.cons_append]
      have hall : ∀ x ∈ l1, x = a := fun x hx =>
        le_antisymm (h1 x (by simp [hx])) (hs.1 x (by simp [hx]))
      rw [cons_append_all_eq a l2 l1 hall]
    · rw [List.orderedInsert, if_neg hka, ih', List.cons_append]

/-- `insert(k)` on a sorted tree puts `k` at its sorted position of the in-order
traversal. -/
theorem insert_inorder (root : Node) (k : Int) (t : Node) (hs : (inorder root).Sorted (· ≤ ·))
    (ht : insert root k = some t) :
    inorder t = List.orderedInsert (· ≤ ·) k (inorder root) := by
  rw [insert_eq] at ht
  have h1 := (balance_content _ _ _ ht).1
  rw [h1, inorder_plug, ctxL_map (Frame.add k) (fun _ => rfl) (fun _ => rfl) (fun _ => rfl),
    ctxR_map (Frame.add k) (fun _ => rfl) (fun _ => rfl) (fun _ => rfl)]
  have h2 : inorder root = ctxL (insert_descend root k []) ++ ctxR (insert_descend root k []) := by
    have := inorder_plug (insert_descend root k []) null
    rw [descend_plug] at this
    simpa [plug, inorder] using this
  have hb := descend_bounds k root [] hs (by simp [ctxL]) (by simp [ctxR])
  rw [h2] at hs ⊢
  rw [orderedInsert_split k _ _ hb.1 hb.2 hs]
  simp [inorder]

/-- On any tree `insert(k)`, when it returns, adds `k` somewhere in the in-order
traversal and keeps all other keys in place. -/
theorem insert_inorder_split (t : Node) (k : Int) (t' : Node) (ht : insert t k = some t') :
    ∃ l1 l2, inorder t = l1 ++ l2 ∧ inorder t' = l1 ++ k :: l2 := by
  rw [insert_eq] at ht
  have h1 := (balance_content _ _ _ ht).1
  rw [inorder_plug, ctxL_map (Frame.add k) (fun _ => rfl) (fun _ => rfl) (fun _ => rfl),
    ctxR_map (Frame.add k) (fun _ => rfl) (fun _ => rfl) (fun _ => rfl)] at h1
  have h2 : inorder t = ctxL (insert_descend t k []) ++ ctxR (insert_descend t k []) := by
    have := inorder_plug (insert_descend t k []) null
    rw [descend_plug] at this
    simpa [plug, inorder] using this
  exact ⟨_, _, h2, by rw [h1]; simp [inorder]⟩

theorem insert_any_tree (t : Node) (k : Int) (t' : Node) (ht : insert t k = some t') :
    t' ≠ t ∧ (inorder t').length = (inorder t).length + 1 ∧
    (inorder t').count k = (inorder t).count k + 1 := by
  obtain ⟨l1, l2, h1, h2⟩ := insert_inorder_split t k t' ht
  have hl : (inorder t').length = (inorder t).length + 1 := by
    rw [h1, h2]; simp; omega
  refine ⟨?_, hl, ?_⟩
  · intro e
    subst e
    omega
  · rw [h1, h2]
    simp [List.count_append, List.count_cons]
    omega

/-! ## The fix-up after an erasure -/

/-- One round of the loop of `balance_erase`, in terms of its cases. -/
theorem balance_erase_succ (fuel : Nat) (v s sz : Int) (c0 c1 : Node) (col : Color) (dir : Dir)
    (path : List Frame) :
    balance_erase (fuel + 1) (node v s sz c0 c1 col) dir path =
      if !is_black ((node v s sz c0 c1 col).children dir) then
        some (plug ((node v s sz c0 c1 col).setChild dir
          (((node v s sz c0 c1 col).children dir).setColor BLACK)) path)
      else
        match erase_case1 (node v s sz c0 c1 col) dir path with
        | none => none
        | some (cur, path) => erase_case234 (balance_erase fuel) cur dir path := by
  rw [balance_erase]
  split
  · rfl
  · simp only [erase_case1]
    generalize (node v s sz c0 c1 col).children dir.flip = w
    have tail : ∀ (cur : Node) (path : List Frame),
        (match cur.children dir.flip with
          | null => none
          | node wv ws wsz w0 w1 wcol =>
            if (is_black w0 && is_black w1) = true then
              match path with
              | [] => some (cur.setChild dir.flip (node wv ws wsz w0 w1 RED))
              | f :: rest =>
                balance_erase fuel (f.fill (cur.setChild dir.flip (node wv ws wsz w0 w1 RED))) f.dir rest
            else
              match
                if is_black ((node wv ws wsz w0 w1 wcol).children dir.flip) = true then
                  match (node wv ws wsz w0 w1 wcol).children dir with
                  | null => none
                  | near =>
                    match rotate (((node wv ws wsz w0 w1 wcol).setChild dir (near.setColor BLACK)).setColor RED)
                        dir.flip with
                    | none => none
                    | some top => some (cur.setChild dir.flip top)
                else some cur with
              | none => none
              | some cur =>
                match cur with
                | null => none
                | node _ _ _ _ _ ccol =>
                  match cur.children dir.flip with
                  | null => none
                  | w =>
                    match w.children dir.flip with
                    | null => none
                    | far =>
                      match rotate ((cur.setChild dir.flip
                          ((w.setColor ccol).setChild dir.flip (far.setColor BLACK))).setColor BLACK) dir with
                      | none => none
                      | some top => some ((plug top path).setColor BLACK)) =
        erase_case234 (balance_erase fuel) cur dir path := by
      intro cur path
      simp only [erase_case234, erase_case34]
      generalize cur.children dir.flip = w
      cases w <;> rfl
    cases w with
    | null => rfl
    | node wv ws wsz w0 w1 wcol =>
      cases wcol
      · simp only [if_true]
        generalize rotate _ dir = r
        cases r with
        | none => rfl
        | some top =>
          simp only []
          generalize down top dir = dd
          cases dd with
          | none => rfl
          | some p => exact tail _ _
      · simp only [reduceCtorEq, if_false]
        exact tail _ _

theorem children_d0 (v s sz : Int) (a b : Node) (c : Color) :
    (node v s sz a b c).children d0 = a := rfl

theorem children_d1 (v s sz : Int) (a b : Node) (c : Color) :
    (node v s sz a b c).children d1 = b := rfl

theorem children_null (d : Dir) : null.children d = null := by cases d <;> rfl

theorem setChild_d0 (v s sz : Int) (a b x : Node) (c : Color) :
    (node v s sz a b c).setChild d0 x = node v s sz x b c := rfl

theorem setChild_d1 (v s sz : Int) (a b x : Node) (c : Color) :
    (node v s sz a b c).setChild d1 x = node v s sz a x c := rfl

theorem setColor_node (v s sz : Int) (a b : Node) (c c' : Color) :
    (node v s sz a b c).setColor c' = node v s sz a b c' := rfl

theorem setColor_null (c : Color) : null.setColor c = null := rfl

theorem flip_d0 : Dir.flip d0 = d1 := rfl

theorem flip_d1 : Dir.flip d1 = d0 := rfl

theorem down_d0 (v s sz : Int) (a b : Node) (c : Color) :
    down (node v s sz a b c) d0 = some (a, ⟨v, s, sz, d0, b, c⟩) := rfl

theorem down_d1 (v s sz : Int) (a b : Node) (c : Color) :
    down (node v s sz a b c) d1 = some (b, ⟨v, s, sz, d1, a, c⟩) := rfl

theorem sameContent_setColor (t : Node) (c : Color) : sameContent t (t.setColor c) := by
  cases t <;> simp [sameContent, setColor_node, setColor_null, inorder, sizeOk, sumOk, sumOf_node, sizeOf_node]

theorem erase_case1_content (cur : Node) (dir : Dir) (path : List Frame) (cur' : Node)
    (path' : List Frame) (h : erase_case1 cur dir path = some (cur', path')) :
    sameContent (plug cur path) (plug cur' path') := by
  cases cur with
  | null => simp [erase_case1, children_null] at h
  | node v s sz a b col =>
    cases dir
    · cases b with
      | null => simp [erase_case1, children_d0, children_d1, flip_d0, flip_d1] at h
      | node wv ws wsz w0 w1 wcol =>
        cases wcol
        · simp only [erase_case1, children_d1, flip_d0, setChild_d1, setColor_node, if_true,
            rotate_d0, down_d0, Option.some.injEq, Prod.mk.injEq] at h
          obtain ⟨h1, h2⟩ := h
          subst h1 h2
          simp only [plug, Frame.fill]
          apply sameContent_plug
          simp [sameContent, inorder, sizeOk, sumOk, sumOf_node, sizeOf_node]
          (repeat' (first | intro _ | constructor)) <;>
            first | assumption | omega | (subst_vars; apply wrapT_congr; push_cast [cast_wrapT]; ring)
        · simp only [erase_case1, children_d0, children_d1, flip_d0, flip_d1, reduceCtorEq, if_false,
            Option.some.injEq, Prod.mk.injEq] at h
          obtain ⟨h1, h2⟩ := h
          subst h1 h2
          exact sameContent_refl _
    · cases a with
      | null => simp [erase_case1, children_d0, children_d1, flip_d0, flip_d1] at h
      | node wv ws wsz w0 w1 wcol =>
        cases wcol
        · simp only [erase_case1, children_d0, flip_d1, setChild_d0, setColor_node, if_true,
            rotate_d1, down_d1, Option.some.injEq, Prod.mk.injEq] at h
          obtain ⟨h1, h2⟩ := h
          subst h1 h2
          simp only [plug, Frame.fill]
          apply sameContent_plug
          simp [sameContent, inorder, sizeOk, sumOk, sumOf_node, sizeOf_node]
          (repeat' (first | intro _ | constructor)) <;>
            first | assumption | omega | (subst_vars; apply wrapT_congr; push_cast [cast_wrapT]; ring)
        · simp only [erase_case1, children_d0, children_d1, flip_d0, flip_d1, reduceCtorEq, if_false,
            Option.some.injEq, Prod.mk.injEq] at h
          obtain ⟨h1, h2⟩ := h
          subst h1 h2
          exact sameContent_refl _

theorem erase_case34_content (cur : Node) (dir : Dir) (path : List Frame) (t : Node)
    (h : erase_case34 cur dir path = some t) : sameContent (plug cur path) t := by
  have key : ∀ top, sameContent cur top → t = (plug top path).setColor BLACK →
      sameContent (plug cur path) t := by
    intro top h1 h2
    subst h2
    exact sameContent_trans (sameContent_plug path h1) (sameContent_setColor _ _)
  cases cur with
  | null => simp [erase_case34, children_null] at h
  | node v s sz a b col =>
    cases dir
    · cases b with
      | null => simp [erase_case34, children_d0, children_d1, flip_d0, flip_d1] at h
      | node wv ws wsz w0 w1 wcol =>
        by_cases hf : is_black w1 = true
        · cases w0 with
          | null => simp [erase_case34, children_d0, children_d1, flip_d0, flip_d1, hf] at h
          | node nv ns nsz n0 n1 ncol =>
            simp [erase_case34, children_d0, children_d1, flip_d0, flip_d1, hf, setChild_d0,
              setChild_d1, setColor_node, rotate_d1, rotate_d0] at h
            refine key _ ?_ h.symm
            simp [sameContent, inorder, sizeOk, sumOk, sumOf_node, sizeOf_node]
            (repeat' (first | intro _ | constructor)) <;>
              first | assumption | omega | (subst_vars; apply wrapT_congr; push_cast [cast_wrapT]; ring)
        · cases w1 with
          | null => simp [is_black] at hf
          | node fv fs fsz f0 f1 fcol =>
            simp [erase_case34, children_d0, children_d1, flip_d0, flip_d1, hf, setChild_d0,
              setChild_d1, setColor_node, rotate_d1, rotate_d0] at h
            refine key _ ?_ h.symm
            simp [sameContent, inorder, sizeOk, sumOk, sumOf_node, sizeOf_node]
            (repeat' (first | intro _ | constructor)) <;>
              first | assumption | omega | (subst_vars; apply wrapT_congr; push_cast [cast_wrapT]; ring)
    · cases a with
      | null => simp [erase_case34, children_d0, children_d1, flip_d0, flip_d1] at h
      | node wv ws wsz w0 w1 wcol =>
        by_cases hf : is_black w0 = true
        · cases w1 with
          | null => simp [erase_case34, children_d0, children_d1, flip_d0, flip_d1, hf] at h
          | node nv ns nsz n0 n1 ncol =>
            simp [erase_case34, children_d0, children_d1, flip_d0, flip_d1, hf, setChild_d0,
              setChild_d1, setColor_node, rotate_d1, rotate_d0] at h
            refine key _ ?_ h.symm
            simp [sameContent, inorder, sizeOk, sumOk, sumOf_node, sizeOf_node]
            (repeat' (first | intro _ | constructor)) <;>
              first | assumption | omega | (subst_vars; apply wrapT_congr; push_cast [cast_wrapT]; ring)
        · cases w0 with
          | null => simp [is_black] at hf
          | node fv fs fsz f0 f1 fcol =>
            simp [erase_case34, children_d0, children_d1, flip_d0, flip_d1, hf, setChild_d0,
              setChild_d1, setColor_node, rotate_d1, rotate_d0] at h
            refine key _ ?_ h.symm
            simp [sameContent, inorder, sizeOk, sumOk, sumOf_node, sizeOf_node]
            (repeat' (first | intro _ | constructor)) <;>
              first | assumption | omega | (subst_vars; apply wrapT_congr; push_cast [cast_wrapT]; ring)

theorem erase_case234_content (next : Node → Dir → List Frame → Option Node)
    (hnext : ∀ c d p t, next c d p = some t → sameContent (plug c p) t)
    (cur : Node) (dir : Dir) (path : List Frame) (t : Node)
    (h : erase_case234 next cur dir path = some t) : sameContent (plug cur path) t := by
  cases cur with
  | null => simp [erase_case234, children_null] at h
  | node v s sz a b col =>
    cases dir
    · cases b with
      | null => simp [erase_case234, children_d1, flip_d0] at h
      | node wv ws wsz w0 w1 wcol =>
        simp only [erase_case234, children_d1, flip_d0, setChild_d1] at h
        split at h
        · have hc : sameContent (node v s sz a (node wv ws wsz w0 w1 wcol) col)
              (node v s sz a (node wv ws wsz w0 w1 RED) col) := by
            simp [sameContent, inorder, sizeOk, sumOk, sumOf_node, sizeOf_node]
          cases path with
          | nil =>
            simp only [Option.some.injEq] at h
            subst h
            exact hc
          | cons f rest =>
            simp only at h
            exact sameContent_trans (sameContent_plug rest (sameContent_fill f hc)) (hnext _ _ _ _ h)
        · exact erase_case34_content _ _ _ _ h
    · cases a with
      | null => simp [erase_case234, children_d0, flip_d1] at h
      | node wv ws wsz w0 w1 wcol =>
        simp only [erase_case234, children_d0, flip_d1, setChild_d0] at h
        split at h
        · have hc : sameContent (node v s sz (node wv ws wsz w0 w1 wcol) b col)
              (node v s sz (node wv ws wsz w0 w1 RED) b col) := by
            simp [sameContent, inorder, sizeOk, sumOk, sumOf_node, sizeOf_node]
          cases path with
          | nil =>
            simp only [Option.some.injEq] at h
            subst h
            exact hc
          | cons f rest =>
            simp only at h
            exact sameContent_trans (sameContent_plug rest (sameContent_fill f hc)) (hnext _ _ _ _ h)
        · exact erase_case34_content _ _ _ _ h

/-- The fix-up `balance_erase` keeps the keys in order and the aggregates right. -/
theorem balance_erase_content : ∀ (fuel : Nat) (cur : Node) (dir : Dir) (path : List Frame)
    (t : Node), balance_erase fuel cur dir path = some t → sameContent (plug cur path) t := by
  intro fuel
  induction fuel with
  | zero => intro cur dir path t h; simp [balance_erase] at h
  | succ n ih =>
    intro cur dir path t h
    cases cur with
    | null => simp [balance_erase] at h
    | node v s sz a b col =>
      rw [balance_erase_succ] at h
      split at h
      · simp only [Option.some.injEq] at h
        subst h
        apply sameContent_plug
        cases dir
        · simp only [children_d0, setChild_d0]
          cases a <;> simp [sameContent, inorder, sizeOk, sumOk, sumOf_node, sizeOf_node,
            setColor_node, setColor_null, sumOf_null, sizeOf_null]
        · simp only [children_d1, setChild_d1]
          cases b <;> simp [sameContent, inorder, sizeOk, sumOk, sumOf_node, sizeOf_node,
            setColor_node, setColor_null, sumOf_null, sizeOf_null]
      · split at h
        · simp at h
        · rename_i cur' path' h1
          exact sameContent_trans (erase_case1_content _ _ _ _ _ h1)
            (erase_case234_content _ (ih) _ _ _ _ h)

theorem RBInv_setColor_black (t : Node) (h : rbOk t) : RBInv (t.setColor BLACK) := by
  cases t with
  | null => exact ⟨rfl, trivial, trivial⟩
  | node v s sz a b c =>
    obtain ⟨⟨_, h1, h2⟩, h3⟩ := h
    exact ⟨rfl, ⟨by simp, h1, h2⟩, h3⟩

theorem setColor_black_of_RBInv (t : Node) (h : RBInv t) : t.setColor BLACK = t := by
  cases t with
  | null => rfl
  | node v s sz a b c =>
    have := h.1
    cases c
    · simp [is_black] at this
    · rfl

theorem erase_case34_rb (x : Node) (fv fs fsz : Int) (fd : Dir) (fc : Color)
    (wv ws wsz : Int) (w0 w1 : Node) (path : List Frame) (h : Nat)
    (hx : rbOk x) (hxb : is_black x = true) (hxh : blackHeight x = h)
    (hw : ¬ (is_black w0 && is_black w1) = true)
    (hc : ctxOk (⟨fv, fs, fsz, fd, node wv ws wsz w0 w1 BLACK, fc⟩ :: path) (h + 1)) :
    ∃ t, erase_case34 (Frame.fill ⟨fv, fs, fsz, fd, node wv ws wsz w0 w1 BLACK, fc⟩ x) fd path
      = some t ∧ RBInv t := by
  obtain ⟨hwo, hwh, hred, hrest⟩ := hc
  simp only at hwo hwh hred hrest
  have hplug : ∀ top, rbOk top → blackHeight top = h + 1 + (if fc = BLACK then 1 else 0) →
      (fc = BLACK → is_black top = true) → RBInv ((plug top path).setColor BLACK) := by
    intro top h1 h2 h3
    apply RBInv_setColor_black
    refine (plug_rb path top _ h1 h2 hrest ?_).1
    cases fc
    · exact Or.inr (hred rfl).2.1
    · exact Or.inl (h3 rfl)
  cases fd
  · -- the deficient side is 0, the sibling is children[1]
    by_cases hf : is_black w1 = true
    · cases w0 with
      | null => simp [is_black_null, is_black_node, hf] at hw
      | node nv ns nsz n0 n1 ncol =>
        cases ncol
        swap
        · simp [is_black_null, is_black_node, hf] at hw
        simp [erase_case34, Frame.fill, children_d0, children_d1, flip_d0, flip_d1, hf,
            setChild_d0, setChild_d1, setColor_node, rotate_d1, rotate_d0]
        apply hplug <;> cases fc <;>
          simp_all [rbOk, redOk, bhOk, blackHeight, is_black_null, is_black_node]
    · cases w1 with
      | null => simp [is_black_null] at hf
      | node nv ns nsz n0 n1 ncol =>
        cases ncol
        swap
        · simp [is_black_null, is_black_node] at hf
        simp [erase_case34, Frame.fill, children_d0, children_d1, flip_d0, flip_d1, hf,
            setChild_d0, setChild_d1, setColor_node, rotate_d1, rotate_d0]
        apply hplug <;> cases fc <;>
          simp_all [rbOk, redOk, bhOk, blackHeight, is_black_null, is_black_node]
  · by_cases hf : is_black w0 = true
    · cases w1 with
      | null => simp [is_black_null, is_black_node, hf] at hw
      | node nv ns nsz n0 n1 ncol =>
        cases ncol
        swap
        · simp [is_black_null, is_black_node, hf] at hw
        simp [erase_case34, Frame.fill, children_d0, children_d1, flip_d0, flip_d1, hf,
            setChild_d0, setChild_d1, setColor_node, rotate_d1, rotate_d0]
        apply hplug <;> cases fc <;>
          simp_all [rbOk, redOk, bhOk, blackHeight, is_black_null, is_black_node]
    · cases w0 with
      | null => simp [is_black_null] at hf
      | node nv ns nsz n0 n1 ncol =>
        cases ncol
        swap
        · simp [is_black_null, is_black_node] at hf
        simp [erase_case34, Frame.fill, children_d0, children_d1, flip_d0, flip_d1, hf,
            setChild_d0, setChild_d1, setColor_node, rotate_d1, rotate_d0]
        apply hplug <;> cases fc <;>
          simp_all [rbOk, redOk, bhOk, blackHeight, is_black_null, is_black_node]

theorem erase_case1_rb (x : Node) (fv fs fsz : Int) (fd : Dir) (fo : Node) (fc : Color)
    (rest : List Frame) (h : Nat)
    (hc : ctxOk (⟨fv, fs, fsz, fd, fo, fc⟩ :: rest) (h + 1)) :
    ∃ (fv' fs' fsz' : Int) (fc' : Color) (wv ws wsz : Int) (w0 w1 : Node) (path' : List Frame),
      erase_case1 (Frame.fill ⟨fv, fs, fsz, fd, fo, fc⟩ x) fd rest =
        some (Frame.fill ⟨fv', fs', fsz', fd, node wv ws wsz w0 w1 BLACK, fc'⟩ x, path') ∧
      ctxOk (⟨fv', fs', fsz', fd, node wv ws wsz w0 w1 BLACK, fc'⟩ :: path') (h + 1) ∧
      (fc' = RED ∨ path' = rest) := by
  obtain ⟨hwo, hwh, hred, hrest⟩ := hc
  simp only at hwo hwh hred hrest
  cases fo with
  | null => simp [blackHeight] at hwh
  | node wv ws wsz w0 w1 wcol =>
    cases wcol
    · -- w is RED
      cases fc
      · simp [is_black_node] at hred
      cases fd
      · cases w0 with
        | null =>
          simp [rbOk, redOk, bhOk, blackHeight] at hwo hwh
        | node gv gs gsz g0 g1 gcol =>
          cases gcol
          · simp [rbOk, redOk, bhOk, blackHeight, is_black_node] at hwo
          refine ⟨_, _, _, _, _, _, _, _, _, _, rfl, ?_, Or.inl rfl⟩
          simp_all [ctxOk, rbOk, redOk, bhOk, blackHeight, is_black_node, headBlack]
      · cases w1 with
        | null =>
          simp [rbOk, redOk, bhOk, blackHeight] at hwo hwh
          omega
        | node gv gs gsz g0 g1 gcol =>
          cases gcol
          · simp [rbOk, redOk, bhOk, blackHeight, is_black_node] at hwo
          refine ⟨_, _, _, _, _, _, _, _, _, _, rfl, ?_, Or.inl rfl⟩
          simp_all [ctxOk, rbOk, redOk, bhOk, blackHeight, is_black_node, headBlack]
    · refine ⟨fv, fs, fsz, fc, wv, ws, wsz, w0, w1, rest, ?_, ⟨hwo, hwh, hred, hrest⟩, Or.inr rfl⟩
      cases fd <;> simp [erase_case1, Frame.fill, children_d0, children_d1, flip_d0, flip_d1]

theorem erase_case234_rb (next : Node → Dir → List Frame → Option Node) (n : Nat)
    (hnext : ∀ (x : Node) (g : Frame) (rest : List Frame) (h : Nat),
      deficient x (g :: rest) h → (if is_black x then rest.length + 2 else 1) ≤ n →
      ∃ t, next (g.fill x) g.dir rest = some t ∧ RBInv t)
    (x : Node) (fv fs fsz : Int) (fd : Dir) (fc : Color)
    (wv ws wsz : Int) (w0 w1 : Node) (path : List Frame) (h : Nat)
    (hx : rbOk x) (hxb : is_black x = true) (hxh : blackHeight x = h)
    (hc : ctxOk (⟨fv, fs, fsz, fd, node wv ws wsz w0 w1 BLACK, fc⟩ :: path) (h + 1))
    (hn : 1 ≤ n) (hfuel : fc = RED ∨ path.length + 1 ≤ n) :
    ∃ t, erase_case234 next (Frame.fill ⟨fv, fs, fsz, fd, node wv ws wsz w0 w1 BLACK, fc⟩ x) fd path
      = some t ∧ RBInv t := by
  by_cases hw : (is_black w0 && is_black w1) = true
  · -- Case 2
    have hc' := hc
    obtain ⟨hwo, hwh, hred, hrest⟩ := hc
    simp only at hwo hwh hred hrest
    have hcur : ∀ c : Color, bhOk (Frame.fill ⟨fv, fs, fsz, fd, node wv ws wsz w0 w1 RED, c⟩ x) ∧
        redOk (Frame.fill ⟨fv, fs, fsz, fd, node wv ws wsz w0 w1 RED, BLACK⟩ x) ∧
        blackHeight (Frame.fill ⟨fv, fs, fsz, fd, node wv ws wsz w0 w1 RED, c⟩ x) =
          h + (if c = BLACK then 1 else 0) := by
      intro c
      cases fd <;>
        simp_all [Frame.fill, rbOk, redOk, bhOk, blackHeight, is_black_null, is_black_node]
    cases path with
    | nil =>
      cases fc
      · simp at hred
      refine ⟨Frame.fill ⟨fv, fs, fsz, fd, node wv ws wsz w0 w1 RED, BLACK⟩ x, ?_, ?_⟩
      · cases fd <;> simp [erase_case234, Frame.fill, children_d0, children_d1, flip_d0, flip_d1,
          hw, setChild_d0, setChild_d1]
      · refine ⟨?_, (hcur BLACK).2.1, (hcur BLACK).1⟩
        cases fd <;> rfl
    | cons g rest =>
      have e : erase_case234 next
          (Frame.fill ⟨fv, fs, fsz, fd, node wv ws wsz w0 w1 BLACK, fc⟩ x) fd (g :: rest) =
          next (g.fill (Frame.fill ⟨fv, fs, fsz, fd, node wv ws wsz w0 w1 RED, fc⟩ x)) g.dir rest := by
        cases fd <;> simp [erase_case234, Frame.fill, children_d0, children_d1, flip_d0, flip_d1,
          hw, setChild_d0, setChild_d1]
      rw [e]
      apply hnext _ _ _ (h + (if fc = BLACK then 1 else 0))
      · have e2 : h + (if fc = BLACK then 1 else 0) + 1 = h + 1 + (if fc = BLACK then 1 else 0) := by
          omega
        refine ⟨(hcur fc).1, ?_, (hcur fc).2.2, by rw [e2]; exact hrest⟩
        have := (hcur fc).2.1
        cases fd <;> simpa [Frame.fill, setColor_node] using this
      · cases fc
        · have : is_black (Frame.fill ⟨fv, fs, fsz, fd, node wv ws wsz w0 w1 RED, RED⟩ x) = false := by
            cases fd <;> rfl
          simp [this, hn]
        · have : is_black (Frame.fill ⟨fv, fs, fsz, fd, node wv ws wsz w0 w1 RED, BLACK⟩ x) = true := by
            cases fd <;> rfl
          simp only [this, if_true]
          rcases hfuel with hf | hf
          · simp at hf
          · simpa using hf
  · have e : erase_case234 next
        (Frame.fill ⟨fv, fs, fsz, fd, node wv ws wsz w0 w1 BLACK, fc⟩ x) fd path =
        erase_case34 (Frame.fill ⟨fv, fs, fsz, fd, node wv ws wsz w0 w1 BLACK, fc⟩ x) fd path := by
      cases fd <;> simp [erase_case234, Frame.fill, children_d0, children_d1, flip_d0, flip_d1, hw]
    rw [e]
    exact erase_case34_rb x fv fs fsz fd fc wv ws wsz w0 w1 path h hx hxb hxh hw hc

theorem balance_erase_fill_succ (n : Nat) (f : Frame) (x : Node) (rest : List Frame) :
    balance_erase (n + 1) (f.fill x) f.dir rest =
      if !is_black x then some (plug (f.fill (x.setColor BLACK)) rest)
      else
        match erase_case1 (f.fill x) f.dir rest with
        | none => none
        | some (cur, path) => erase_case234 (balance_erase n) cur f.dir path := by
  obtain ⟨fv, fs, fsz, fd, fo, fc⟩ := f
  cases fd <;> simp only [Frame.fill, balance_erase_succ, children_d0, children_d1, setChild_d0,
    setChild_d1]

/-- The fix-up `balance_erase` on a deficient slot of a red-black context: it returns within
the bound, and the result satisfies the red-black invariants. -/
theorem balance_erase_rb : ∀ (n : Nat) (x : Node) (f : Frame) (rest : List Frame) (h : Nat),
    deficient x (f :: rest) h → (if is_black x then rest.length + 2 else 1) ≤ n →
    ∃ t, balance_erase n (f.fill x) f.dir rest = some t ∧ RBInv t := by
  intro n
  induction n with
  | zero =>
    intro x f rest h _ hn
    split at hn <;> omega
  | succ n ih =>
    intro x f rest h hd hn
    obtain ⟨fv, fs, fsz, fd, fo, fc⟩ := f
    obtain ⟨hx1, hx2, hx3, hc⟩ := hd
    rw [balance_erase_fill_succ]
    by_cases hb : is_black x = true
    · simp only [hb, Bool.not_true, Bool.false_eq_true, if_false, if_true] at hn ⊢
      have hxr : rbOk x := by
        refine ⟨?_, hx1⟩
        cases x with
        | null => trivial
        | node v s sz a b c =>
          cases c
          · simp [is_black_node] at hb
          · exact hx2
      obtain ⟨fv', fs', fsz', fc', wv, ws, wsz, w0, w1, path', e1, hc1, hp⟩ :=
        erase_case1_rb x fv fs fsz fd fo fc rest h hc
      rw [e1]
      simp only
      apply erase_case234_rb (balance_erase n) n ih x fv' fs' fsz' fd fc' wv ws wsz w0 w1 path' h
        hxr hb hx3 hc1 (by omega)
      rcases hp with hp | hp
      · exact Or.inl hp
      · right; rw [hp]; omega
    · have hb' : is_black x = false := by simpa using hb
      simp only [hb', Bool.not_false, if_true]
      refine ⟨_, rfl, ?_⟩
      cases x with
      | null => simp [is_black_null] at hb
      | node v s sz a b c =>
        cases c
        swap
        · simp [is_black_node] at hb
        simp only [setColor_node] at hx2 ⊢
        have := plug_rb (⟨fv, fs, fsz, fd, fo, fc⟩ :: rest) (node v s sz a b BLACK) (h + 1)
          ⟨hx2, hx1⟩ (by simpa [blackHeight] using hx3) hc (Or.inl rfl)
        exact ⟨this.2 (by simp), this.1.1, this.1.2⟩

theorem erase_case1_shape (cur : Node) (dir : Dir) (path : List Frame) (cur' : Node)
    (path' : List Frame) (h : erase_case1 cur dir path = some (cur', path')) :
    (cur' = cur ∧ path' = path) ∨
    (∃ v s sz a b f, cur' = node v s sz a b RED ∧ path' = f :: path ∧ f.dir = dir) := by
  cases cur with
  | null => simp [erase_case1, children_null] at h
  | node v s sz a b col =>
    cases dir
    · cases b with
      | null => simp [erase_case1, children_d0, children_d1, flip_d0, flip_d1] at h
      | node wv ws wsz w0 w1 wcol =>
        cases wcol
        · simp only [erase_case1, children_d1, flip_d0, setChild_d1, setColor_node, if_true,
            rotate_d0, down_d0, Option.some.injEq, Prod.mk.injEq] at h
          obtain ⟨h1, h2⟩ := h
          subst h1 h2
          exact Or.inr ⟨_, _, _, _, _, _, rfl, rfl, rfl⟩
        · simp only [erase_case1, children_d0, children_d1, flip_d0, flip_d1, reduceCtorEq,
            if_false, Option.some.injEq, Prod.mk.injEq] at h
          exact Or.inl ⟨h.1.symm, h.2.symm⟩
    · cases a with
      | null => simp [erase_case1, children_d0, children_d1, flip_d0, flip_d1] at h
      | node wv ws wsz w0 w1 wcol =>
        cases wcol
        · simp only [erase_case1, children_d0, flip_d1, setChild_d0, setColor_node, if_true,
            rotate_d1, down_d1, Option.some.injEq, Prod.mk.injEq] at h
          obtain ⟨h1, h2⟩ := h
          subst h1 h2
          exact Or.inr ⟨_, _, _, _, _, _, rfl, rfl, rfl⟩
        · simp only [erase_case1, children_d0, children_d1, flip_d0, flip_d1, reduceCtorEq,
            if_false, Option.some.injEq, Prod.mk.injEq] at h
          exact Or.inl ⟨h.1.symm, h.2.symm⟩

theorem erase_case234_congr (next next' : Node → Dir → List Frame → Option Node)
    (cur : Node) (dir : Dir) (path : List Frame)
    (h : ∀ f rest w, path = f :: rest →
      next (f.fill (cur.setChild dir.flip w)) f.dir rest =
        next' (f.fill (cur.setChild dir.flip w)) f.dir rest) :
    erase_case234 next cur dir path = erase_case234 next' cur dir path := by
  simp only [erase_case234]
  split
  · rfl
  · split
    · split
      · rfl
      · exact h _ _ _ rfl
    · rfl

theorem fill_children (f : Frame) (x : Node) : (f.fill x).children f.dir = x := by
  obtain ⟨fv, fs, fsz, fd, fo, fc⟩ := f
  cases fd <;> rfl

theorem is_black_setChild (cur : Node) (d : Dir) (w : Node) :
    is_black (cur.setChild d w) = is_black cur := by
  cases cur <;> cases d <;> rfl

/-- The bound on the loop of `balance_erase` is no restriction: with at least `fuelNeeded`
evaluations allowed, one more changes nothing. -/
theorem balance_erase_fuel_succ : ∀ (n : Nat) (cur : Node) (dir : Dir) (path : List Frame),
    fuelNeeded cur dir path ≤ n →
    balance_erase (n + 1) cur dir path = balance_erase n cur dir path := by
  intro n
  induction n with
  | zero =>
    intro cur dir path h
    simp only [fuelNeeded] at h
    split at h <;> omega
  | succ n ih =>
    intro cur dir path h
    cases cur with
    | null => rfl
    | node v s sz a b col =>
      rw [balance_erase_succ (n + 1), balance_erase_succ n]
      split
      · rfl
      · rename_i hb
        have hblack : is_black ((node v s sz a b col).children dir) = true := by simpa using hb
        have hn : path.length + 2 ≤ n + 1 := by simpa [fuelNeeded, hblack] using h
        cases h1 : erase_case1 (node v s sz a b col) dir path with
        | none => rfl
        | some r =>
          obtain ⟨cur', path'⟩ := r
          simp only
          apply erase_case234_congr
          intro f rest w hp
          apply ih
          simp only [fuelNeeded, fill_children, is_black_setChild]
          rcases erase_case1_shape _ _ _ _ _ h1 with ⟨-, e2⟩ | ⟨v', s', sz', a', b', f', e1, e2, -⟩
          · subst e2
            subst hp
            split
            · simp only [List.length_cons] at hn; omega
            · omega
          · subst e1
            have : is_black (node v' s' sz' a' b' RED) = false := rfl
            simp only [this]
            simp only [Bool.false_eq_true, if_false]
            omega

theorem balance_erase_fuel (m : Nat) : ∀ (n : Nat) (cur : Node) (dir : Dir) (path : List Frame),
    fuelNeeded cur dir path ≤ n →
    balance_erase (n + m) cur dir path = balance_erase n cur dir path := by
  induction m with
  | zero => intro n cur dir path _; rfl
  | succ m ih =>
    intro n cur dir path h
    rw [← Nat.add_assoc, balance_erase_fuel_succ (n + m) cur dir path (by omega), ih n cur dir path h]

/-! ## The procedure `erase` -/

theorem Descends.plug_eq {t : Node} {path : List Frame} {t' : Node} {p : List Frame}
    (h : Descends t path t' p) : plug t' p = plug t path := by
  induction h with
  | here => rfl
  | left v s sz c0 c1 col path t p _ ih => rw [ih]; rfl
  | right v s sz c0 c1 col path t p _ ih => rw [ih]; rfl

theorem Descends.ctx {t : Node} {path : List Frame} {t' : Node} {p : List Frame}
    (h : Descends t path t' p) : rbOk t → ctxOk path (blackHeight t) →
    (is_black t = true ∨ (headBlack path ∧ path ≠ [])) →
    rbOk t' ∧ ctxOk p (blackHeight t') ∧ (is_black t' = true ∨ (headBlack p ∧ p ≠ [])) := by
  induction h with
  | here => intro h1 h2 h3; exact ⟨h1, h2, h3⟩
  | left v s sz c0 c1 col path t p _ ih =>
    intro ht hc hb
    obtain ⟨⟨hr, hr0, hr1⟩, hbh, hb0, hb1⟩ := ht
    have hcol : col = RED → headBlack path ∧ path ≠ [] := by
      intro e; subst e; simpa [is_black_node] using hb
    apply ih ⟨hr0, hb0⟩
    · refine ⟨⟨hr1, hb1⟩, hbh.symm, ?_, ?_⟩
      · intro e
        simp only at e
        exact ⟨(hr e).2, (hcol e).1, (hcol e).2⟩
      · simpa [blackHeight] using hc
    · cases col
      · exact Or.inl (hr rfl).1
      · exact Or.inr ⟨rfl, by simp⟩
  | right v s sz c0 c1 col path t p _ ih =>
    intro ht hc hb
    obtain ⟨⟨hr, hr0, hr1⟩, hbh, hb0, hb1⟩ := ht
    have hcol : col = RED → headBlack path ∧ path ≠ [] := by
      intro e; subst e; simpa [is_black_node] using hb
    apply ih ⟨hr1, hb1⟩
    · refine ⟨⟨hr0, hb0⟩, hbh, ?_, ?_⟩
      · intro e
        simp only at e
        exact ⟨(hr e).1, (hcol e).1, (hcol e).2⟩
      · simp only [blackHeight] at hc
        rw [← hbh]; exact hc
    · cases col
      · exact Or.inl (hr rfl).2
      · exact Or.inr ⟨rfl, by simp⟩

theorem Descends.append {t : Node} {path : List Frame} {t' : Node} {p : List Frame}
    (h : Descends t path t' p) (q : List Frame) : Descends t (path ++ q) t' (p ++ q) := by
  induction h with
  | here => exact Descends.here _ _
  | left v s sz c0 c1 col path t p _ ih => exact Descends.left _ _ _ _ _ _ _ _ _ ih
  | right v s sz c0 c1 col path t p _ ih => exact Descends.right _ _ _ _ _ _ _ _ _ ih

theorem erase_search_descends (k : Int) : ∀ (t : Node) (path : List Frame) (cur : Node)
    (up : List Frame), erase_search t k path = some (cur, up) →
    Descends t path cur up ∧ ∃ s sz c0 c1 col, cur = node k s sz c0 c1 col := by
  intro t
  induction t with
  | null => intro path cur up h; simp [erase_search] at h
  | node v s sz c0 c1 col ih0 ih1 =>
    intro path cur up h
    simp only [erase_search] at h
    split at h
    · rename_i hv
      simp only [Option.some.injEq, Prod.mk.injEq] at h
      obtain ⟨h1, h2⟩ := h
      subst h1 h2 hv
      exact ⟨Descends.here _ _, _, _, _, _, _, rfl⟩
    · split at h
      · obtain ⟨h1, h2⟩ := ih0 _ _ _ h
        exact ⟨Descends.left _ _ _ _ _ _ _ _ _ h1, h2⟩
      · obtain ⟨h1, h2⟩ := ih1 _ _ _ h
        exact ⟨Descends.right _ _ _ _ _ _ _ _ _ h1, h2⟩

/-- On a sorted tree the search of `erase(k)` ends at an absent slot exactly when `k` is
not in the tree. -/
theorem erase_search_none (k : Int) : ∀ (t : Node) (path : List Frame),
    (inorder t).Sorted (· ≤ ·) → (erase_search t k path = none ↔ k ∉ inorder t) := by
  intro t
  induction t with
  | null => intro path _; simp [erase_search, inorder]
  | node v s sz c0 c1 col ih0 ih1 =>
    intro path hs
    simp only [inorder, List.Sorted, List.pairwise_append, List.pairwise_cons, List.mem_cons,
      forall_eq_or_imp] at hs
    obtain ⟨hs0, ⟨hv1, hs1⟩, h01⟩ := hs
    simp only [erase_search, inorder, List.mem_append, List.mem_cons, not_or]
    by_cases e : v = k
    · simp [e]
    · simp only [e, if_false]
      have e' : ¬ k = v := fun h => e h.symm
      by_cases lt : k < v
      · simp only [lt, if_true]
        rw [ih0 _ hs0]
        constructor
        · intro h
          refine ⟨h, e', fun hk => ?_⟩
          have := hv1 k hk; omega
        · exact fun h => h.1
      · simp only [lt, if_false]
        rw [ih1 _ hs1]
        constructor
        · intro h
          refine ⟨fun hk => ?_, e', h⟩
          have := (h01 k hk).1; omega
        · exact fun h => h.2.2

theorem ctxL_append (p q : List Frame) : ctxL (p ++ q) = ctxL q ++ ctxL p := by
  induction p with
  | nil => simp [ctxL]
  | cons f rest ih => simp [ctxL, ih]

theorem ctxR_append (p q : List Frame) : ctxR (p ++ q) = ctxR p ++ ctxR q := by
  induction p with
  | nil => simp [ctxR]
  | cons f rest ih => simp [ctxR, ih]

theorem plug_append (p q : List Frame) : ∀ t : Node, plug t (p ++ q) = plug (plug t p) q := by
  induction p with
  | nil => intro t; rfl
  | cons f rest ih => intro t; exact ih _

theorem leftmost_descends : ∀ (t : Node) (path : List Frame), t ≠ null →
    ∃ yv ys ysz y1 ycol low, leftmost t path = (node yv ys ysz null y1 ycol, low ++ path) ∧
      Descends t [] (node yv ys ysz null y1 ycol) low ∧ ctxL low = [] := by
  intro t
  induction t with
  | null => intro path h; exact absurd rfl h
  | node v s sz c0 c1 col ih0 _ =>
    intro path _
    cases c0 with
    | null =>
      exact ⟨v, s, sz, c1, col, [], rfl, Descends.here _ _, rfl⟩
    | node a b c d e f =>
      obtain ⟨yv, ys, ysz, y1, ycol, low, h1, h2, h3⟩ :=
        ih0 (⟨v, s, sz, d0, c1, col⟩ :: path) (by simp)
      refine ⟨yv, ys, ysz, y1, ycol, low ++ [⟨v, s, sz, d0, c1, col⟩], ?_, ?_, ?_⟩
      · rw [leftmost, h1]; simp
      · have := h2.append [⟨v, s, sz, d0, c1, col⟩]
        exact Descends.left _ _ _ _ _ _ _ _ _ (by simpa using this)
      · rw [ctxL_append, h3]; rfl

theorem erase_of_search_none (root : Node) (k : Int) (h : erase_search root k [] = none) :
    erase root k = some root := by
  simp [erase, h]

theorem erase_of_leaf (root : Node) (k : Int) (v s sz : Int) (c0 c1 : Node) (col : Color)
    (up : List Frame) (h : erase_search root k [] = some (node v s sz c0 c1 col, up))
    (h1 : c0 = null ∨ c1 = null) :
    erase root k = erase_finish col (if c0 != null then c0 else c1) (up.map (Frame.sub v)) := by
  have two : (c0 != null && c1 != null) = false := by
    rcases h1 with h1 | h1 <;> subst h1 <;> simp
  simp only [erase, h, two, erase_finish]
  rfl

theorem erase_of_inner (root : Node) (k : Int) (v s sz : Int) (c0 c1 : Node) (col : Color)
    (up : List Frame) (h : erase_search root k [] = some (node v s sz c0 c1 col, up))
    (h0 : c0 ≠ null) (h1 : c1 ≠ null) (yv ys ysz : Int) (y0 y1 : Node) (ycol : Color)
    (low : List Frame) (hy : leftmost c1 [] = (node yv ys ysz y0 y1 ycol, low)) :
    erase root k = erase_finish ycol (if y0 != null then y0 else y1)
      (low.map (Frame.sub yv) ++ ⟨yv, wrapT (s - v), sz - 1, d1, c0, col⟩ :: up.map (Frame.sub v)) := by
  have two : (c0 != null && c1 != null) = true := by simp [h0, h1]
  simp only [erase, h, two, erase_finish, hy]
  rfl

theorem redOk_setColor_black (x : Node) (h : redOk x) : redOk (x.setColor BLACK) := by
  cases x with
  | null => trivial
  | node v s sz a b c => exact ⟨by simp, h.2.1, h.2.2⟩

theorem erase_finish_rb (ycol : Color) (x : Node) (ypath : List Frame)
    (hx : rbOk x) (hxh : blackHeight x = 0) (hxb : ycol = RED → is_black x = true)
    (hc : ctxOk ypath (if ycol = BLACK then 1 else 0))
    (hb : ycol = BLACK ∨ (headBlack ypath ∧ ypath ≠ [])) :
    ∃ t, erase_finish ycol x ypath = some t ∧ RBInv t := by
  cases ycol
  · -- y is RED: x is absent
    have hxn : x = null := by
      cases x with
      | null => rfl
      | node v s sz a b c =>
        have := hxb rfl
        rw [is_black_node] at this
        subst this
        simp [blackHeight] at hxh
    subst hxn
    refine ⟨plug null ypath, by simp [erase_finish], ?_⟩
    rcases hb with hb | hb
    · cases hb
    · have := plug_rb ypath null 0 hx rfl (by simpa using hc) (Or.inl rfl)
      exact ⟨this.2 hb.2, this.1.1, this.1.2⟩
  · simp only [erase_finish, if_true]
    cases ypath with
    | nil => exact ⟨_, rfl, RBInv_setColor_black x hx⟩
    | cons f rest =>
      obtain ⟨t, h1, h2⟩ := balance_erase_rb (rest.length + 2) x f rest 0
        ⟨hx.2, redOk_setColor_black x hx.1, hxh, by simpa using hc⟩ (by split <;> omega)
      refine ⟨t.setColor BLACK, by simp [h1], RBInv_setColor_black t ⟨h2.2.1, h2.2.2⟩⟩

theorem erase_finish_content (ycol : Color) (x : Node) (ypath : List Frame) (t : Node)
    (h : erase_finish ycol x ypath = some t) : sameContent (plug x ypath) t := by
  cases ycol
  · simp only [erase_finish, reduceCtorEq, if_false] at h
    split at h
    · simp at h
    · simp only [Option.some.injEq] at h
      subst h
      exact sameContent_refl _
  · simp only [erase_finish, if_true] at h
    cases ypath with
    | nil =>
      simp only [Option.map_some', Option.some.injEq] at h
      subst h
      exact sameContent_setColor _ _
    | cons f rest =>
      simp only [Option.map_eq_some'] at h
      obtain ⟨r, h1, h2⟩ := h
      subst h2
      have := balance_erase_content _ _ _ _ _ h1
      exact sameContent_trans this (sameContent_setColor _ _)

theorem headBlack_congr : ∀ (p q : List Frame),
    p.map (fun f => (f.color, f.other)) = q.map (fun f => (f.color, f.other)) →
    (headBlack p ↔ headBlack q) ∧ (p ≠ [] ↔ q ≠ []) := by
  intro p q h
  cases p with
  | nil =>
    cases q with
    | nil => simp
    | cons g q => simp at h
  | cons f p =>
    cases q with
    | nil => simp at h
    | cons g q =>
      simp only [List.map_cons, List.cons.injEq, Prod.mk.injEq] at h
      simp [headBlack, h.1.1]

theorem ctxOk_congr : ∀ (p q : List Frame) (h : Nat),
    p.map (fun f => (f.color, f.other)) = q.map (fun f => (f.color, f.other)) →
    ctxOk p h → ctxOk q h := by
  intro p
  induction p with
  | nil =>
    intro q h e _
    cases q with
    | nil => trivial
    | cons g q => simp at e
  | cons f p ih =>
    intro q h e hc
    cases q with
    | nil => simp at e
    | cons g q =>
      simp only [List.map_cons, List.cons.injEq, Prod.mk.injEq] at e
      obtain ⟨⟨e1, e2⟩, e3⟩ := e
      obtain ⟨h1, h2, h3, h4⟩ := hc
      have hb := headBlack_congr p q e3
      refine ⟨e2 ▸ h1, e2 ▸ h2, ?_, ?_⟩
      · intro hr
        rw [← e1] at hr
        obtain ⟨x1, x2, x3⟩ := h3 hr
        exact ⟨e2 ▸ x1, hb.1.1 x2, hb.2.1 x3⟩
      · rw [← e1]; exact ih q _ e3 h4

theorem map_shape_sub (d : Int) (l : List Frame) :
    (l.map (Frame.sub d)).map (fun f => (f.color, f.other)) =
      l.map (fun f => (f.color, f.other)) := by
  induction l with
  | nil => rfl
  | cons f l ih => simp [Frame.sub]

/-- `erase` returns on a red-black tree, and the result is a red-black tree. -/
theorem erase_rb (root : Node) (k : Int) (h : RBInv root) :
    ∃ t, erase root k = some t ∧ RBInv t := by
  cases hsearch : erase_search root k [] with
  | none => exact ⟨root, erase_of_search_none root k hsearch, h⟩
  | some r =>
    obtain ⟨cur, up⟩ := r
    obtain ⟨hd, s, sz, c0, c1, col, hcur⟩ := erase_search_descends k root [] cur up hsearch
    subst hcur
    obtain ⟨hcr, hcc, hcb⟩ := hd.ctx ⟨h.2.1, h.2.2⟩ trivial (Or.inl h.1)
    by_cases two : c0 ≠ null ∧ c1 ≠ null
    · obtain ⟨yv, ys, ysz, y1, ycol, low, hy, hdy, -⟩ := leftmost_descends c1 [] two.2
      rw [List.append_nil] at hy
      rw [erase_of_inner root k k s sz c0 c1 col up hsearch two.1 two.2 yv ys ysz null y1 ycol low hy]
      obtain ⟨hyr, hyc, hyb⟩ :=
        (Descends.right k s sz c0 c1 col up _ _ (hdy.append (⟨k, s, sz, d1, c0, col⟩ :: up))).ctx
          hcr hcc hcb
      have hshape : (low ++ ⟨k, s, sz, d1, c0, col⟩ :: up).map (fun f => (f.color, f.other)) =
          (low.map (Frame.sub yv) ++ ⟨yv, wrapT (s - k), sz - 1, d1, c0, col⟩ :: up.map (Frame.sub k)).map
            (fun f => (f.color, f.other)) := by
        simp only [List.map_append, List.map_cons, map_shape_sub]
      have hb := headBlack_congr _ _ hshape
      obtain ⟨⟨hr, hr0, hr1⟩, hbh, hb0, hb1⟩ := hyr
      have e0 : blackHeight y1 = 0 := by rw [← hbh]; rfl
      apply erase_finish_rb
      · simpa using (⟨hr1, hb1⟩ : rbOk y1)
      · simpa using e0
      · intro e; simpa using (hr e).2
      · apply ctxOk_congr _ _ _ hshape
        simpa [blackHeight] using hyc
      · cases ycol
        · right
          rcases hyb with hyb | hyb
          · simp [is_black_node] at hyb
          · exact ⟨hb.1.1 hyb.1, hb.2.1 hyb.2⟩
        · exact Or.inl rfl
    · have one : c0 = null ∨ c1 = null := by
        by_cases h0 : c0 = null
        · exact Or.inl h0
        · right
          by_contra h1
          exact two ⟨h0, h1⟩
      rw [erase_of_leaf root k k s sz c0 c1 col up hsearch one]
      have hshape : up.map (fun f => (f.color, f.other)) =
          (up.map (Frame.sub k)).map (fun f => (f.color, f.other)) := (map_shape_sub k up).symm
      have hb := headBlack_congr _ _ hshape
      obtain ⟨⟨hr, hr0, hr1⟩, hbh, hb0, hb1⟩ := hcr
      have hx : rbOk (if (c0 != null) = true then c0 else c1) ∧
          blackHeight (if (c0 != null) = true then c0 else c1) = 0 ∧
          blackHeight c0 = 0 ∧
          (col = RED → is_black (if (c0 != null) = true then c0 else c1) = true) := by
        rcases one with e | e
        · subst e
          have : blackHeight c1 = 0 := by rw [← hbh]; rfl
          exact ⟨by simpa using (⟨hr1, hb1⟩ : rbOk c1), by simpa using this, rfl,
            fun e => by simpa using (hr e).2⟩
        · subst e
          have : blackHeight c0 = 0 := by rw [hbh]; rfl
          refine ⟨?_, ?_, this, ?_⟩
          · split
            · exact ⟨hr0, hb0⟩
            · exact ⟨trivial, trivial⟩
          · split
            · exact this
            · rfl
          · intro e
            split
            · exact (hr e).1
            · rfl
      apply erase_finish_rb _ _ _ hx.1 hx.2.1 hx.2.2.2
      · apply ctxOk_congr _ _ _ hshape
        simpa [blackHeight, hx.2.2.1] using hcc
      · cases col
        · right
          rcases hcb with hcb | hcb
          · simp [is_black_node] at hcb
          · exact ⟨hb.1.1 hcb.1, hb.2.1 hcb.2⟩
        · exact Or.inl rfl

/-- Under the sum invariant a stored sum is a value of `T`. -/
theorem sumOf_wrapT (t : Node) (h : sumOk t) : wrapT t.sumOf = t.sumOf := by
  cases t with
  | null => exact wrapT_zero
  | node v s sz c0 c1 col =>
    rw [sumOf_node, h.1, wrapT_wrapT]

theorem aggDelta_fill (d : Int) (f : Frame) {a b : Node} (h : aggDelta d a b) :
    aggDelta d (f.fill a) ((f.sub d).fill b) := by
  obtain ⟨fv, fs, fsz, fd, fo, fc⟩ := f
  obtain ⟨hz, hs⟩ := h
  cases fd <;> simp only [aggDelta, Frame.fill, Frame.sub, sizeOk, sumOk, sumOf_node, sizeOf_node]
  · constructor
    · rintro ⟨e1, e2, e3⟩
      obtain ⟨x1, x2⟩ := hz e2
      exact ⟨⟨by omega, x1, e3⟩, trivial⟩
    · rintro ⟨e1, e2, e3⟩
      obtain ⟨x1, x2⟩ := hs e2
      refine ⟨⟨?_, x1, e3⟩, trivial⟩
      rw [x2, e1]; apply wrapT_congr; push_cast [cast_wrapT]; ring
  · constructor
    · rintro ⟨e1, e2, e3⟩
      obtain ⟨x1, x2⟩ := hz e3
      exact ⟨⟨by omega, e2, x1⟩, trivial⟩
    · rintro ⟨e1, e2, e3⟩
      obtain ⟨x1, x2⟩ := hs e3
      refine ⟨⟨?_, e2, x1⟩, trivial⟩
      rw [x2, e1]; apply wrapT_congr; push_cast [cast_wrapT]; ring

theorem aggDelta_plug (d : Int) (path : List Frame) : ∀ {a b : Node}, aggDelta d a b →
    aggDelta d (plug a path) (plug b (path.map (Frame.sub d))) := by
  induction path with
  | nil => intro a b h; exact h
  | cons f rest ih => intro a b h; exact ih (aggDelta_fill d f h)

theorem aggDelta_sameContent {d : Int} {a b c : Node} (h1 : aggDelta d a b)
    (h2 : sameContent b c) : aggDelta d a c := by
  refine ⟨fun h => ?_, fun h => ?_⟩
  · obtain ⟨x1, x2⟩ := h1.1 h
    obtain ⟨y1, y2⟩ := h2.2.1 x1
    exact ⟨y1, y2.trans x2⟩
  · obtain ⟨x1, x2⟩ := h1.2 h
    obtain ⟨y1, y2⟩ := h2.2.2 x1
    exact ⟨y1, y2.trans x2⟩

/-- When the search of `erase(k)` finds a node, the result has the in-order traversal of
the tree with one `k` removed; the size invariant is kept and the root's size drops by one;
the sum invariant is kept and the root's sum drops by `k` in `T`. -/
theorem erase_found_content (root : Node) (k : Int) (cur : Node) (up : List Frame) (t : Node)
    (hsearch : erase_search root k [] = some (cur, up)) (ht : erase root k = some t) :
    (∃ l1 l2, inorder root = l1 ++ k :: l2 ∧ inorder t = l1 ++ l2) ∧ aggDelta k root t := by
  obtain ⟨hd, s, sz, c0, c1, col, hcur⟩ := erase_search_descends k root [] cur up hsearch
  subst hcur
  have hroot : root = plug (node k s sz c0 c1 col) up := hd.plug_eq.symm
  have hin : inorder root = (ctxL up ++ inorder c0) ++ k :: (inorder c1 ++ ctxR up) := by
    rw [hroot, inorder_plug]; simp [inorder]
  -- the tree before the fix-up
  have key : ∀ (ycol : Color) (x : Node) (ypath : List Frame),
      erase root k = erase_finish ycol x ypath →
      inorder (plug x ypath) = (ctxL up ++ inorder c0) ++ (inorder c1 ++ ctxR up) →
      aggDelta k root (plug x ypath) →
      (∃ l1 l2, inorder root = l1 ++ k :: l2 ∧ inorder t = l1 ++ l2) ∧ aggDelta k root t := by
    intro ycol x ypath e h1 h2
    rw [e] at ht
    have hc := erase_finish_content ycol x ypath t ht
    exact ⟨⟨_, _, hin, by rw [hc.1, h1]⟩, aggDelta_sameContent h2 hc⟩
  by_cases two : c0 ≠ null ∧ c1 ≠ null
  · obtain ⟨yv, ys, ysz, y1, ycol, low, hy, hdy, hlow⟩ := leftmost_descends c1 [] two.2
    rw [List.append_nil] at hy
    have hc1 : c1 = plug (node yv ys ysz null y1 ycol) low := hdy.plug_eq.symm
    have hc1in : inorder c1 = yv :: (inorder y1 ++ ctxR low) := by
      rw [hc1, inorder_plug, hlow]; simp [inorder]
    have hsub : ∀ (d : Int) (l : List Frame), ctxL (l.map (Frame.sub d)) = ctxL l ∧
        ctxR (l.map (Frame.sub d)) = ctxR l := fun d l =>
      ⟨ctxL_map (Frame.sub d) (fun _ => rfl) (fun _ => rfl) (fun _ => rfl) l,
        ctxR_map (Frame.sub d) (fun _ => rfl) (fun _ => rfl) (fun _ => rfl) l⟩
    apply key ycol (if (null : Node) != null then null else y1)
      (low.map (Frame.sub yv) ++ ⟨yv, wrapT (s - k), sz - 1, d1, c0, col⟩ :: up.map (Frame.sub k))
      (erase_of_inner root k k s sz c0 c1 col up hsearch two.1 two.2 yv ys ysz null y1 ycol low hy)
    · rw [inorder_plug, ctxL_append, ctxR_append, hc1in]
      simp [ctxL, ctxR, (hsub _ _).1, (hsub _ _).2, hlow]
    · rw [plug_append, hroot]
      simp only [plug]
      apply aggDelta_plug
      have h1 : aggDelta yv (node yv ys ysz null y1 ycol) y1 := by
        constructor
        · intro h
          obtain ⟨e1, -, e3⟩ := h
          simp only [sizeOf_null] at e1
          exact ⟨e3, by simp only [sizeOf_node]; omega⟩
        · intro h
          obtain ⟨e1, -, e3⟩ := h
          simp only [sumOf_null] at e1
          refine ⟨e3, ?_⟩
          rw [sumOf_node, e1, ← sumOf_wrapT y1 e3]
          apply wrapT_congr; push_cast [cast_wrapT]; ring
      have h2 := aggDelta_plug yv low h1
      rw [← hc1] at h2
      simp only [show ((if (null != null) = true then null else y1) : Node) = y1 from rfl]
      constructor
      · intro ha
        obtain ⟨e1, e2, e3⟩ := ha
        obtain ⟨x1, x2⟩ := h2.1 e3
        simp only [Frame.fill, sizeOk, sizeOf_node]
        exact ⟨⟨by omega, e2, x1⟩, trivial⟩
      · intro ha
        obtain ⟨e1, e2, e3⟩ := ha
        obtain ⟨x1, x2⟩ := h2.2 e3
        simp only [Frame.fill, sumOk, sumOf_node]
        refine ⟨⟨?_, e2, x1⟩, trivial⟩
        rw [x2, e1]; apply wrapT_congr; push_cast [cast_wrapT]; ring
  · have one : c0 = null ∨ c1 = null := by
      by_cases h0 : c0 = null
      · exact Or.inl h0
      · right
        by_contra h1
        exact two ⟨h0, h1⟩
    apply key col (if c0 != null then c0 else c1) (up.map (Frame.sub k))
      (erase_of_leaf root k k s sz c0 c1 col up hsearch one)
    · rw [inorder_plug, ctxL_map (Frame.sub k) (fun _ => rfl) (fun _ => rfl) (fun _ => rfl),
        ctxR_map (Frame.sub k) (fun _ => rfl) (fun _ => rfl) (fun _ => rfl)]
      rcases one with e | e <;> subst e
      · simp [inorder]
      · by_cases h0 : c0 = null
        · subst h0; simp [inorder]
        · have : (c0 != null) = true := by simpa using h0
          simp [inorder, this]
    · rw [hroot]
      apply aggDelta_plug
      have hx : (if c0 != null then c0 else c1) = c0 ∧ c1 = null ∨
          (if c0 != null then c0 else c1) = c1 ∧ c0 = null := by
        rcases one with e | e
        · subst e; exact Or.inr ⟨rfl, rfl⟩
        · subst e
          by_cases h0 : c0 = null
          · subst h0; exact Or.inr ⟨rfl, rfl⟩
          · have : (c0 != null) = true := by simpa using h0
            exact Or.inl ⟨by simp [this], rfl⟩
      constructor
      · intro ha
        obtain ⟨e1, e2, e3⟩ := ha
        rcases hx with ⟨hx1, hx2⟩ | ⟨hx1, hx2⟩
        · rw [hx1]; subst hx2
          simp only [sizeOf_null, sizeOf_node] at e1 ⊢
          exact ⟨e2, by omega⟩
        · rw [hx1]; subst hx2
          simp only [sizeOf_null, sizeOf_node] at e1 ⊢
          exact ⟨e3, by omega⟩
      · intro ha
        obtain ⟨e1, e2, e3⟩ := ha
        rcases hx with ⟨hx1, hx2⟩ | ⟨hx1, hx2⟩
        · rw [hx1]; subst hx2
          simp only [sumOf_null, sumOf_node] at e1 ⊢
          refine ⟨e2, ?_⟩
          rw [e1, ← sumOf_wrapT c0 e2]
          apply wrapT_congr; push_cast [cast_wrapT]; ring
        · rw [hx1]; subst hx2
          simp only [sumOf_null, sumOf_node] at e1 ⊢
          refine ⟨e3, ?_⟩
          rw [e1, ← sumOf_wrapT c1 e3]
          apply wrapT_congr; push_cast [cast_wrapT]; ring

/-! ## Sequences of calls -/

theorem erase_split_sorted (k : Int) (l2 : List Int) : ∀ l1 : List Int,
    (l1 ++ k :: l2).Sorted (· ≤ ·) → (l1 ++ k :: l2).erase k = l1 ++ l2 := by
  intro l1
  induction l1 with
  | nil => intro _; simp
  | cons a l1 ih =>
    intro hs
    rw [List.cons_append, List.sorted_cons] at hs
    by_cases e : a = k
    · subst e
      rw [List.cons_append, List.erase_cons_head]
      have hall : ∀ x ∈ l1, x = a := by
        intro x hx
        have h1 : a ≤ x := hs.1 x (by simp [hx])
        have h2 : x ≤ a := by
          have := (List.pairwise_append.1 hs.2).2.2 x hx a (by simp)
          exact this
        exact le_antisymm h2 h1
      rw [← cons_append_all_eq a l2 l1 hall, List.cons_append]
    · rw [List.cons_append, List.erase_cons_tail (by simpa using e), ih hs.2, List.cons_append]

theorem KeyInv_null : KeyInv null :=
  ⟨⟨rfl, trivial, trivial⟩, trivial, List.sorted_nil⟩

theorem TreeInv_null : TreeInv null :=
  ⟨⟨rfl, trivial, trivial⟩, trivial, List.sorted_nil⟩

theorem KeyInv_of_TreeInv {t : Node} (h : TreeInv t) : KeyInv t :=
  ⟨h.1, sizeOk_of_aggOk t h.2.1, h.2.2⟩

/-- `insert` returns and keeps the red-black invariants, the size invariant and the order
of the keys. -/
theorem insert_inv (t : Node) (k : Int) (h : KeyInv t) :
    ∃ t', insert t k = some t' ∧ KeyInv t' ∧
      inorder t' = List.orderedInsert (· ≤ ·) k (inorder t) ∧ t'.sizeOf = t.sizeOf + 1 := by
  obtain ⟨t', h1, h2⟩ := insert_rb t k h.1
  have h3 := insert_inorder t k t' h.2.2 h1
  have h4 := insert_size t k t' h.2.1 h1
  refine ⟨t', h1, ⟨h2, h4.1, ?_⟩, h3, h4.2⟩
  rw [h3]
  exact List.Sorted.orderedInsert k _ h.2.2

/-- The effect of `erase` on the keys and the aggregates of a tree with sorted in-order
traversal. -/
theorem erase_content (t : Node) (k : Int) (t' : Node) (hs : (inorder t).Sorted (· ≤ ·))
    (h1 : erase t k = some t') :
    inorder t' = (inorder t).erase k ∧ (sizeOk t → sizeOk t') ∧
    (sumOk t → sumOk t' ∧ (k ∈ inorder t → t'.sumOf = wrapT (t.sumOf - k)) ∧
      (k ∉ inorder t → t' = t)) := by
  cases hsearch : erase_search t k [] with
  | none =>
    have e := erase_of_search_none t k hsearch
    rw [e] at h1
    simp only [Option.some.injEq] at h1
    subst h1
    have := (erase_search_none k t [] hs).1 hsearch
    exact ⟨(List.erase_of_not_mem this).symm, id, fun h => ⟨h, fun hk => absurd hk this,
      fun _ => rfl⟩⟩
  | some r =>
    obtain ⟨cur, up⟩ := r
    obtain ⟨⟨l1, l2, e1, e2⟩, e3⟩ := erase_found_content t k cur up t' hsearch h1
    refine ⟨?_, fun h => (e3.1 h).1, fun h => ⟨(e3.2 h).1, fun _ => (e3.2 h).2, fun hk => ?_⟩⟩
    · rw [e2, e1, erase_split_sorted k l2 l1 (e1 ▸ hs)]
    · exact absurd (by rw [e1]; simp) hk

/-- `erase` returns and keeps the red-black invariants, the size invariant and the order of
the keys, and removes one copy of the key. -/
theorem erase_inv (t : Node) (k : Int) (h : KeyInv t) :
    ∃ t', erase t k = some t' ∧ KeyInv t' ∧ inorder t' = (inorder t).erase k := by
  obtain ⟨t', h1, h2⟩ := erase_rb t k h.1
  have key := erase_content t k t' h.2.2 h1
  refine ⟨t', h1, ⟨h2, key.2.1 h.2.1, ?_⟩, key.1⟩
  rw [key.1]
  exact h.2.2.sublist (List.erase_sublist k _)

theorem applyOp_inv (t : Node) (op : Op) (h : KeyInv t) :
    ∃ t', applyOp t op = some t' ∧ KeyInv t' := by
  cases op with
  | ins k => obtain ⟨t', h1, h2, -⟩ := insert_inv t k h; exact ⟨t', h1, h2⟩
  | del k => obtain ⟨t', h1, h2, -⟩ := erase_inv t k h; exact ⟨t', h1, h2⟩

/-- Every sequence of calls runs to the end and keeps the red-black invariants, the size
invariant and the order of the keys. -/
theorem runOps_inv (ops : List Op) : ∀ t : Node, KeyInv t →
    ∃ t', runOps t ops = some t' ∧ KeyInv t' := by
  induction ops with
  | nil => intro t h; exact ⟨t, rfl, h⟩
  | cons op ops ih =>
    intro t h
    obtain ⟨t1, h1, h2⟩ := applyOp_inv t op h
    obtain ⟨t2, h3, h4⟩ := ih t1 h2
    exact ⟨t2, by simp [runOps, h1, h3], h4⟩

/-- A sequence of calls whose `insert` keys are values of `T` keeps the sum invariant. -/
theorem runOps_sum (ops : List Op) : ∀ t t' : Node, KeyInv t → sumOk t →
    (∀ op ∈ ops, op.keyInT) → runOps t ops = some t' → sumOk t' := by
  induction ops with
  | nil =>
    intro t t' _ hs _ hr
    simp only [runOps, Option.some.injEq] at hr
    exact hr ▸ hs
  | cons op ops ih =>
    intro t t' h hs hk hr
    obtain ⟨t1, h1, h2⟩ := applyOp_inv t op h
    simp only [runOps, h1, Option.some_bind] at hr
    refine ih t1 t' h2 ?_ (fun o ho => hk o (List.mem_cons_of_mem _ ho)) hr
    cases op with
    | ins k => exact (insert_sum t k t1 hs (hk _ (List.mem_cons_self _ _)) h1).1
    | del k => exact ((erase_content t k t1 h.2.2 h1).2.2 hs).1

/-- Every sequence of calls whose `insert` keys are values of `T` keeps all invariants of
the data model. -/
theorem runOps_tree (ops : List Op) (hk : ∀ op ∈ ops, op.keyInT) :
    ∃ t, runOps null ops = some t ∧ TreeInv t := by
  obtain ⟨t, h1, h2⟩ := runOps_inv ops null KeyInv_null
  have h3 := runOps_sum ops null t KeyInv_null trivial hk h1
  exact ⟨t, h1, h2.1, (aggOk_iff t).2 ⟨h3, h2.2.1⟩, h2.2.2⟩

theorem bh_mem_blackCounts (t : Node) : blackHeight t ∈ blackCounts t := by
  induction t with
  | null => simp [blackHeight, blackCounts]
  | node v s sz c0 c1 col ih0 _ =>
    simp only [blackHeight, blackCounts, List.mem_map, List.mem_append]
    exact ⟨blackHeight c0, Or.inl ih0, rfl⟩

theorem blackCounts_of_bhOk (t : Node) (h : bhOk t) : ∀ a ∈ blackCounts t, a = blackHeight t := by
  induction t with
  | null => intro a ha; simpa [blackCounts, blackHeight] using ha
  | node v s sz c0 c1 col ih0 ih1 =>
    intro a ha
    obtain ⟨hb, h0, h1⟩ := h
    simp only [blackCounts, List.mem_map, List.mem_append] at ha
    obtain ⟨b, hb', rfl⟩ := ha
    simp only [blackHeight]
    rcases hb' with hb' | hb'
    · rw [ih0 h0 b hb']
    · rw [ih1 h1 b hb', hb]

/-- The local form of the black-height invariant is the same as equal numbers of BLACK
nodes on all paths from the root to an absent slot. -/
theorem bhOk_iff_blackUniform (t : Node) : bhOk t ↔ blackUniform t := by
  constructor
  · intro h a ha b hb
    rw [blackCounts_of_bhOk t h a ha, blackCounts_of_bhOk t h b hb]
  · induction t with
    | null => intro _; trivial
    | node v s sz c0 c1 col ih0 ih1 =>
      intro h
      have hsub : ∀ a ∈ blackCounts c0 ++ blackCounts c1, ∀ b ∈ blackCounts c0 ++ blackCounts c1,
          a = b := by
        intro a ha b hb
        have := h (a + if col = BLACK then 1 else 0)
          (by simp only [blackCounts, List.mem_map]; exact ⟨a, ha, rfl⟩)
          (b + if col = BLACK then 1 else 0)
          (by simp only [blackCounts, List.mem_map]; exact ⟨b, hb, rfl⟩)
        omega
      refine ⟨?_, ih0 ?_, ih1 ?_⟩
      · exact hsub _ (List.mem_append_left _ (bh_mem_blackCounts c0)) _
          (List.mem_append_right _ (bh_mem_blackCounts c1))
      · intro a ha b hb
        exact hsub a (List.mem_append_left _ ha) b (List.mem_append_left _ hb)
      · intro a ha b hb
        exact hsub a (List.mem_append_right _ ha) b (List.mem_append_right _ hb)

theorem minsum_of_agg (t : Node) (K : Int) (hagg : aggOk t) (hK : 0 ≤ K) :
    minsum t K = some (wrapT ((inorder t).take K.toNat).sum) := by
  have := minsum_inner_nat t hagg K.toNat
  rw [Int.toNat_of_nonneg hK] at this
  simp [minsum, this]

/-! ## The contract of the tree -/

theorem holds_iff_mem (t : Node) (k : Int) : holds t k ↔ k ∈ inorder t := by
  induction t with
  | null => simp [holds, inorder]
  | node v s sz c0 c1 col ih0 ih1 =>
    simp only [holds, inorder, List.mem_append, List.mem_cons, ih0, ih1]
    constructor
    · rintro (h | h | h)
      · exact Or.inr (Or.inl h.symm)
      · exact Or.inl h
      · exact Or.inr (Or.inr h)
    · rintro (h | h | h)
      · exact Or.inr (Or.inl h)
      · exact Or.inl h.symm
      · exact Or.inr (Or.inr h)

theorem blackUniformAll_of_bhOk (t : Node) (h : bhOk t) : blackUniformAll t := by
  induction t with
  | null => trivial
  | node v s sz c0 c1 col ih0 ih1 =>
    exact ⟨(bhOk_iff_blackUniform _).1 h, ih0 h.2.1, ih1 h.2.2⟩

theorem bhOk_iff_blackUniformAll (t : Node) : bhOk t ↔ blackUniformAll t := by
  refine ⟨blackUniformAll_of_bhOk t, fun h => (bhOk_iff_blackUniform t).2 ?_⟩
  cases t with
  | null => intro a ha b hb; simp [blackCounts] at ha hb; omega
  | node v s sz c0 c1 col => exact h.1

theorem take_min_length (l : List Int) (n : Nat) : l.take (min n l.length) = l.take n := by
  by_cases h : n ≤ l.length
  · rw [min_eq_left h]
  · have h' : l.length ≤ n := by omega
    rw [min_eq_right h', List.take_of_length_le h', List.take_of_length_le (le_refl _)]

/-- C1, counterexample: the tree with the keys `-2^63`, `-2^63 + 1`, `2^63 - 1`, built by
three `insert` calls, has a sorted in-order traversal and sum and size fields that satisfy
the aggregate invariant (also over the integers), yet `minsum(2)` returns `1`, whereas the
sum of its two smallest keys is `-2^64 + 1`: the additions of `minsum_inner` are those of
`T` and wrap around. -/
theorem minsum_overflow_counterexample :
    insertAll null [-9223372036854775807, -9223372036854775808, 9223372036854775807] =
      some extremes3 ∧
    (inorder extremes3).Sorted (· ≤ ·) ∧ aggOkInt extremes3 ∧ aggOk extremes3 ∧
    minsum extremes3 2 = some 1 ∧
    (((inorder extremes3).insertionSort (· ≤ ·)).take
      (min (2 : Int).toNat (inorder extremes3).length)).sum = -18446744073709551615 ∧
    minsum extremes3 2 ≠ some ((((inorder extremes3).insertionSort (· ≤ ·)).take
      (min (2 : Int).toNat (inorder extremes3).length)).sum) :=
  ⟨rfl, by decide, by decide, by decide, rfl, by decide, by decide⟩

/-- C1, amended: on a tree with a sorted in-order traversal whose sum and size fields satisfy
the aggregate invariant (sums in the arithmetic of `T`), `minsum(K)` for `K ≥ 0` is the sum
of the first `min(K, n)` elements of the sorted list of the `n` keys, added up in `T`, that
is reduced modulo `2^64` to the range of `T`; it is that sum itself whenever the sum is a
value of `T`.  `minsum(0)` is `0`, `minsum(K)` is the sum of all keys in `T` (the root's
stored sum) when `K ≥ n`, and on the empty tree the result is `0`. -/
theorem minsum_prefix_sum (t : Node) (K : Int) (hs : (inorder t).Sorted (· ≤ ·))
    (hagg : aggOk t) (hK : 0 ≤ K) :
    minsum t K = some (wrapT (((inorder t).insertionSort (· ≤ ·)).take
        (min K.toNat (inorder t).length)).sum) ∧
    (inT (((inorder t).insertionSort (· ≤ ·)).take (min K.toNat (inorder t).length)).sum →
      minsum t K = some ((((inorder t).insertionSort (· ≤ ·)).take
        (min K.toNat (inorder t).length)).sum)) ∧
    minsum t 0 = some 0 ∧
    (((inorder t).length : Int) ≤ K →
      minsum t K = some (wrapT (inorder t).sum) ∧ minsum t K = some t.sumOf) ∧
    minsum null K = some 0 := by
  have h1 : minsum t K = some (wrapT (((inorder t).insertionSort (· ≤ ·)).take
      (min K.toNat (inorder t).length)).sum) := by
    rw [List.Sorted.insertionSort_eq hs, take_min_length]
    exact minsum_of_agg t K hagg hK
  refine ⟨h1, ?_, ?_, ?_, ?_⟩
  · intro hfit
    rw [h1, wrapT_of_inT hfit]
  · simpa [wrapT_zero] using minsum_of_agg t 0 hagg (le_refl _)
  · intro hn
    have h2 : minsum t K = some (wrapT (inorder t).sum) := by
      rw [minsum_of_agg t K hagg hK, List.take_of_length_le (by omega)]
    exact ⟨h2, by rw [h2, (agg_sum_size hagg).1]⟩
  · simpa [inorder, wrapT_zero] using minsum_of_agg null K trivial hK

theorem minsum_prefix_sum_witness :
    insertAll null [5, 3, 8, 1, 4, 7, 9] = some scenario7 ∧
    (inorder scenario7).Sorted (· ≤ ·) ∧ aggOk scenario7 ∧ minsum scenario7 3 = some 8 :=
  ⟨rfl, by decide, by decide,
    (minsum_prefix_sum scenario7 3 (by decide) (by decide) (by decide)).2.1 (by decide)⟩

/-- C2, counterexample: after `insert(2^63 - 1)` and `insert(1)` on the empty tree the root
stores the sum `-2^63`, whereas the integer sum of its keys, and of its value and the sum of
its child, is `2^63`: the addition `n->sum += t` is that of `T` and wraps around. -/
theorem aggregate_overflow_counterexample :
    runOps null [Op.ins 9223372036854775807, Op.ins 1] =
      some (node 9223372036854775807 (-9223372036854775808) 2 (node 1 1 1 null null RED) null
        BLACK) ∧
    (node 9223372036854775807 (-9223372036854775808) 2 (node 1 1 1 null null RED) null
      BLACK).sumOf = -9223372036854775808 ∧
    (inorder (node 9223372036854775807 (-9223372036854775808) 2 (node 1 1 1 null null RED) null
      BLACK)).sum = 9223372036854775808 ∧
    ¬ aggOkInt (node 9223372036854775807 (-9223372036854775808) 2 (node 1 1 1 null null RED)
      null BLACK) ∧
    (node 9223372036854775807 (-9223372036854775808) 2 (node 1 1 1 null null RED) null
      BLACK).sumOf ≠
      (inorder (node 9223372036854775807 (-9223372036854775808) 2 (node 1 1 1 null null RED)
        null BLACK)).sum :=
  ⟨rfl, rfl, by decide, by decide, by decide⟩

/-- C2, amended: after any finite sequence of `insert` and `erase` calls on the empty tree,
every node stores `size = 1 + left.size + right.size` (absent children count for nothing),
so the root's size is the number of nodes; and when the inserted keys are values of `T`,
every node stores `sum = value + left.sum + right.sum` in the arithmetic of `T`,
equivalently the sum of the keys of its subtree reduced modulo `2^64` to the range of `T`.
Where no overflow occurs, that is when the integer sums of the keys of all subtrees are
values of `T`, every node stores the exact integer sum of the keys of its subtree. -/
theorem aggregate_invariant_reachable (ops : List Op) :
    ∃ t, runOps null ops = some t ∧ sizeOk t ∧ t.sizeOf = ((inorder t).length : Int) ∧
      ((∀ op ∈ ops, op.keyInT) →
        aggOk t ∧ aggExact t ∧ t.sumOf = wrapT (inorder t).sum ∧
        (sumsFit t → aggOkInt t ∧ aggExactInt t ∧ t.sumOf = (inorder t).sum)) := by
  obtain ⟨t, h1, h2⟩ := runOps_inv ops null KeyInv_null
  refine ⟨t, h1, h2.2.1, sizeOf_of_sizeOk t h2.2.1, fun hk => ?_⟩
  have h3 := runOps_sum ops null t KeyInv_null trivial hk h1
  have h4 : aggOk t := (aggOk_iff t).2 ⟨h3, h2.2.1⟩
  exact ⟨h4, (aggOk_iff_aggExact t).1 h4, (agg_sum_size h4).1, aggOkInt_of_aggOk t h4⟩

theorem aggregate_invariant_reachable_witness :
    (∀ op ∈ [Op.ins 5, Op.ins 3, Op.del 5, Op.ins 8], op.keyInT) ∧
    ∃ t, runOps null [Op.ins 5, Op.ins 3, Op.del 5, Op.ins 8] = some t ∧ sizeOk t ∧
      t.sizeOf = ((inorder t).length : Int) ∧ aggOk t ∧ aggExact t ∧
      t.sumOf = wrapT (inorder t).sum :=
  ⟨by decide, (aggregate_invariant_reachable [Op.ins 5, Op.ins 3, Op.del 5, Op.ins 8]).imp
    fun _ h => ⟨h.1, h.2.1, h.2.2.1, (h.2.2.2 (by decide)).1, (h.2.2.2 (by decide)).2.1,
      (h.2.2.2 (by decide)).2.2.1⟩⟩

/-- C3: after any finite sequence of `insert` calls on the empty tree the root is BLACK or
absent, no RED node has a RED child, and all paths from the root to an absent slot hold the
same number of BLACK nodes. -/
theorem insert_colour_invariants (ks : List Int) :
    ∃ t, insertAll null ks = some t ∧ is_black t = true ∧ redOk t ∧ blackUniform t := by
  obtain ⟨t, h1, h2⟩ := runOps_inv (ks.map Op.ins) null KeyInv_null
  exact ⟨t, h1, h2.1.1, h2.1.2.1, (bhOk_iff_blackUniform t).1 h2.1.2.2⟩

/-- C4: if the root is BLACK or absent, no RED node has a RED child and all paths from the
root to an absent slot hold the same number of BLACK nodes, then `erase(k)` returns a tree
with the same three properties, the last one from every node; hence they hold after any
sequence of `insert` and `erase` calls on the empty tree. -/
theorem erase_colour_invariants (root : Node) (k : Int) (hb : is_black root = true)
    (hr : redOk root) (hu : blackUniform root) :
    (∃ t, erase root k = some t ∧ is_black t = true ∧ redOk t ∧ blackUniform t ∧
      blackUniformAll t) ∧
    ∀ ops : List Op, ∃ t, runOps null ops = some t ∧ is_black t = true ∧ redOk t ∧
      blackUniform t ∧ blackUniformAll t := by
  constructor
  · obtain ⟨t, h1, h2⟩ := erase_rb root k ⟨hb, hr, (bhOk_iff_blackUniform root).2 hu⟩
    exact ⟨t, h1, h2.1, h2.2.1, (bhOk_iff_blackUniform t).1 h2.2.2,
      blackUniformAll_of_bhOk t h2.2.2⟩
  · intro ops
    obtain ⟨t, h1, h2⟩ := runOps_inv ops null KeyInv_null
    exact ⟨t, h1, h2.1.1, h2.1.2.1, (bhOk_iff_blackUniform t).1 h2.1.2.2,
      blackUniformAll_of_bhOk t h2.1.2.2⟩

theorem erase_colour_invariants_witness :
    is_black scenario7 = true ∧ redOk scenario7 ∧ blackUniform scenario7 ∧
    ∃ t, erase scenario7 5 = some t ∧ is_black t = true ∧ redOk t ∧ blackUniform t ∧
      blackUniformAll t :=
  ⟨by decide, by decide, by decide,
    (erase_colour_invariants scenario7 5 (by decide) (by decide) (by decide)).1⟩

theorem strict_orderedInsert (k : Int) (l : List Int) (hs : l.Sorted (· < ·)) (hk : k ∉ l) :
    (List.orderedInsert (· ≤ ·) k l).Sorted (· < ·) := by
  apply List.Sorted.lt_of_le (List.Sorted.orderedInsert k l hs.le_of_lt)
  rw [(List.perm_orderedInsert (· ≤ ·) k l).nodup_iff]
  exact List.nodup_cons.2 ⟨hk, hs.nodup⟩

theorem find_false_iff (t : Node) (k : Int) (hs : (inorder t).Sorted (· ≤ ·)) :
    find t k = false ↔ k ∉ inorder t := by
  rw [← find_iff_mem t k hs]
  simp

theorem freshRun_strict (ops : List Op) : ∀ t : Node, KeyInv t → (inorder t).Sorted (· < ·) →
    freshRun t ops = true → ∃ t', runOps t ops = some t' ∧ (inorder t').Sorted (· < ·) := by
  induction ops with
  | nil => intro t _ hs _; exact ⟨t, rfl, hs⟩
  | cons op ops ih =>
    intro t h hs hf
    cases op with
    | ins k =>
      obtain ⟨t1, h1, h2, h3, -⟩ := insert_inv t k h
      simp only [freshRun, h1, Bool.and_eq_true, Bool.not_eq_true'] at hf
      have hk := (find_false_iff t k h.2.2).1 hf.1
      obtain ⟨t2, h4, h5⟩ := ih t1 h2 (h3 ▸ strict_orderedInsert k _ hs hk) hf.2
      exact ⟨t2, by simp [runOps, applyOp, h1, h4], h5⟩
    | del k =>
      obtain ⟨t1, h1, h2, h3⟩ := erase_inv t k h
      simp only [freshRun, h1] at hf
      obtain ⟨t2, h4, h5⟩ := ih t1 h2 (h3 ▸ hs.sublist (List.erase_sublist k _)) hf
      exact ⟨t2, by simp [runOps, applyOp, h1, h4], h5⟩

/-- C5, counterexample: inserting the key `1` twice gives a tree with two nodes holding `1`,
whose in-order traversal `[1, 1]` is not strictly increasing. -/
theorem strict_order_counterexample :
    runOps null [Op.ins 1, Op.ins 1] = some (node 1 2 2 null (node 1 1 1 null null RED) BLACK) ∧
    inorder (node 1 2 2 null (node 1 1 1 null null RED) BLACK) = [1, 1] ∧
    ¬ (inorder (node 1 2 2 null (node 1 1 1 null null RED) BLACK)).Sorted (· < ·) :=
  ⟨rfl, rfl, by decide⟩

/-- C5, amended: after any finite sequence of `insert` and `erase` calls on the empty tree
the in-order traversal is non-decreasing; it is strictly increasing when no `insert` call
was given a key that the tree held at that moment. -/
theorem inorder_sorted_reachable (ops : List Op) :
    ∃ t, runOps null ops = some t ∧ (inorder t).Sorted (· ≤ ·) ∧
      (freshRun null ops = true → (inorder t).Sorted (· < ·)) := by
  obtain ⟨t, h1, h2⟩ := runOps_inv ops null KeyInv_null
  refine ⟨t, h1, h2.2.2, fun hf => ?_⟩
  obtain ⟨t', h3, h4⟩ := freshRun_strict ops null KeyInv_null List.sorted_nil hf
  rw [h1] at h3
  simp only [Option.some.injEq] at h3
  exact h3 ▸ h4

theorem inorder_sorted_reachable_witness :
    freshRun null [Op.ins 5, Op.ins 3, Op.del 5, Op.ins 5] = true ∧
    ∃ t, runOps null [Op.ins 5, Op.ins 3, Op.del 5, Op.ins 5] = some t ∧
      (inorder t).Sorted (· ≤ ·) ∧ (inorder t).Sorted (· < ·) :=
  ⟨by decide, (inorder_sorted_reachable [Op.ins 5, Op.ins 3, Op.del 5, Op.ins 5]).imp
    fun _ h => ⟨h.1, h.2.1, h.2.2 (by decide)⟩⟩

theorem insert_ne_self (t : Node) (k : Int) (t' : Node)
    (hin : inorder t' = List.orderedInsert (· ≤ ·) k (inorder t)) : t' ≠ t := by
  intro e
  subst e
  have := congrArg List.length hin
  rw [List.orderedInsert_length] at this
  omega

/-- C6, counterexample: inserting `1` into the tree that holds only `1` is not a no-op; the
result has a second node holding `1`. -/
theorem insert_idempotent_counterexample :
    insert null 1 = some (node 1 1 1 null null BLACK) ∧
    insert (node 1 1 1 null null BLACK) 1 =
      some (node 1 2 2 null (node 1 1 1 null null RED) BLACK) ∧
    node 1 2 2 null (node 1 1 1 null null RED) BLACK ≠ node 1 1 1 null null BLACK :=
  ⟨rfl, rfl, by decide⟩

/-- C6, amended: `insert(k)` is never a no-op, also when `k` is already in the tree: on
every tree on which it returns, the result has one more node and one more copy of `k`; on a
tree that satisfies the invariants of the data model it returns, the in-order traversal
gains `k` at its sorted position and the root's size grows by `1`, and a second `insert(k)`
again yields a different tree with one more copy of `k`.  When `k` is a value of `T`, each
of the two calls adds `k` to the root's sum in the arithmetic of `T`, and exactly `k` when
the new integer sum is a value of `T`. -/
theorem insert_adds_copy (t : Node) (k : Int) :
    (∀ t', insert t k = some t' → t' ≠ t ∧ (inorder t').length = (inorder t).length + 1 ∧
      (inorder t').count k = (inorder t).count k + 1) ∧
    (TreeInv t → ∃ t1 t2, insert t k = some t1 ∧ insert t1 k = some t2 ∧ t1 ≠ t ∧ t2 ≠ t1 ∧
      inorder t1 = List.orderedInsert (· ≤ ·) k (inorder t) ∧
      inorder t2 = List.orderedInsert (· ≤ ·) k (inorder t1) ∧
      (inorder t1).count k = (inorder t).count k + 1 ∧
      (inorder t2).count k = (inorder t1).count k + 1 ∧
      t1.sizeOf = t.sizeOf + 1 ∧ t2.sizeOf = t1.sizeOf + 1 ∧
      (inT k → t1.sumOf = wrapT (t.sumOf + k) ∧ t2.sumOf = wrapT (t1.sumOf + k) ∧
        (inT (t.sumOf + k) → t1.sumOf = t.sumOf + k) ∧
        (inT (t1.sumOf + k) → t2.sumOf = t1.sumOf + k))) := by
  refine ⟨fun t' ht => insert_any_tree t k t' ht, fun h => ?_⟩
  obtain ⟨t1, h1, h2, h3, hz1⟩ := insert_inv t k (KeyInv_of_TreeInv h)
  obtain ⟨t2, h4, h5, h6, hz2⟩ := insert_inv t1 k h2
  refine ⟨t1, t2, h1, h4, insert_ne_self t k t1 h3, insert_ne_self t1 k t2 h6, h3, h6, ?_, ?_,
    hz1, hz2, fun hk => ?_⟩
  · rw [h3, List.orderedInsert_count]; simp
  · rw [h6, List.orderedInsert_count]; simp
  · have a := insert_sum t k t1 ((aggOk_iff t).1 h.2.1).1 hk h1
    have b := insert_sum t1 k t2 a.1 hk h4
    exact ⟨a.2, b.2, fun hf => by rw [a.2, wrapT_of_inT hf],
      fun hf => by rw [b.2, wrapT_of_inT hf]⟩

theorem insert_adds_copy_witness :
    TreeInv scenario7 ∧
    ∃ t1 t2, insert scenario7 5 = some t1 ∧ insert t1 5 = some t2 ∧ t1 ≠ scenario7 ∧ t2 ≠ t1 ∧
      inorder t1 = List.orderedInsert (· ≤ ·) 5 (inorder scenario7) ∧
      inorder t2 = List.orderedInsert (· ≤ ·) 5 (inorder t1) ∧
      (inorder t1).count 5 = (inorder scenario7).count 5 + 1 ∧
      (inorder t2).count 5 = (inorder t1).count 5 + 1 ∧
      t1.sizeOf = scenario7.sizeOf + 1 ∧ t2.sizeOf = t1.sizeOf + 1 ∧
      (inT 5 → t1.sumOf = wrapT (scenario7.sumOf + 5) ∧ t2.sumOf = wrapT (t1.sumOf + 5) ∧
        (inT (scenario7.sumOf + 5) → t1.sumOf = scenario7.sumOf + 5) ∧
        (inT (t1.sumOf + 5) → t2.sumOf = t1.sumOf + 5)) :=
  ⟨by decide, (insert_adds_copy scenario7 5).2 (by decide)⟩

/-- C7: on a tree whose in-order traversal is sorted, `find(k)` returns true exactly when
some node of the tree holds `k`.  (`find` only reads the tree: it returns a boolean and
no tree.) -/
theorem find_iff_holds (t : Node) (k : Int) (hs : (inorder t).Sorted (· ≤ ·)) :
    (find t k = true ↔ holds t k) ∧ (find t k = true ↔ k ∈ inorder t) :=
  ⟨(find_iff_mem t k hs).trans (holds_iff_mem t k).symm, find_iff_mem t k hs⟩

theorem find_iff_holds_witness :
    (inorder scenario7).Sorted (· ≤ ·) ∧ find scenario7 4 = true ∧ holds scenario7 4 ∧
    find scenario7 6 = false ∧ ¬ holds scenario7 6 :=
  ⟨by decide, by decide,
    (find_iff_holds scenario7 4 (by decide)).1.1 (by decide), by decide,
    fun h => absurd ((find_iff_holds scenario7 6 (by decide)).1.2 h) (by decide)⟩

/-- C8, counterexample: the tree with the keys `-1`, `1`, `2^63 - 1`, built by three
`insert` calls, satisfies the invariants of the data model (strict order, red-black,
aggregates, also over the integers) and stores the sum `2^63 - 1` at the root; after
`erase(-1)` the root stores `-2^63`, not the old sum less `-1`, which is `2^63`: the
subtraction `yy->sum -= v` is that of `T` and wraps around. -/
theorem erase_sum_overflow_counterexample :
    insertAll null [1, -1, 9223372036854775807] = some nearMax3 ∧
    (inorder nearMax3).Sorted (· < ·) ∧ RBInv nearMax3 ∧ aggOkInt nearMax3 ∧ aggOk nearMax3 ∧
    (-1 : Int) ∈ inorder nearMax3 ∧
    erase nearMax3 (-1) = some (node 1 (-9223372036854775808) 2 null
      (node 9223372036854775807 9223372036854775807 1 null null RED) BLACK) ∧
    (node 1 (-9223372036854775808) 2 null
      (node 9223372036854775807 9223372036854775807 1 null null RED) BLACK).sumOf =
      -9223372036854775808 ∧
    nearMax3.sumOf - (-1) = 9223372036854775808 ∧
    (node 1 (-9223372036854775808) 2 null
      (node 9223372036854775807 9223372036854775807 1 null null RED) BLACK).sumOf ≠
      nearMax3.sumOf - (-1) :=
  ⟨rfl, by decide, by decide, by decide, by decide, by decide, rfl, rfl, rfl, by decide⟩

/-- C8, amended: on a tree with strictly increasing in-order traversal that satisfies the
red-black and aggregate invariants (sums in the arithmetic of `T`), `erase(k)` of a key `k`
of the tree returns a tree whose in-order traversal is the old one with `k` removed: every
other key is kept, `k` is gone and `find(k)` is false, the root's size is smaller by `1`,
the root's sum is smaller by `k` in the arithmetic of `T`, and exactly by `k` when the new
integer sum is a value of `T`, and the invariants hold again. -/
theorem erase_removes_key (t : Node) (k : Int) (hs : (inorder t).Sorted (· < ·))
    (hrb : RBInv t) (hagg : aggOk t) (hk : k ∈ inorder t) :
    ∃ t', erase t k = some t' ∧ inorder t' = (inorder t).erase k ∧
      (∀ j, j ≠ k → (j ∈ inorder t' ↔ j ∈ inorder t)) ∧ k ∉ inorder t' ∧
      find t' k = false ∧ t'.sizeOf = t.sizeOf - 1 ∧ t'.sumOf = wrapT (t.sumOf - k) ∧
      (inT (t.sumOf - k) → t'.sumOf = t.sumOf - k) ∧
      (inorder t').Sorted (· < ·) ∧ RBInv t' ∧ aggOk t' := by
  have hagg' := (aggOk_iff t).1 hagg
  obtain ⟨t', h1, h2, h3⟩ := erase_inv t k ⟨hrb, hagg'.2, hs.le_of_lt⟩
  have hc := (erase_content t k t' hs.le_of_lt h1).2.2 hagg'.1
  have hmem : ∀ j, j ∈ inorder t' ↔ j ≠ k ∧ j ∈ inorder t := by
    intro j; rw [h3]; exact hs.nodup.mem_erase_iff
  have hnot : k ∉ inorder t' := fun h => ((hmem k).1 h).1 rfl
  have hsz : t'.sizeOf = t.sizeOf - 1 := by
    have hl := List.length_erase_of_mem hk
    have hpos : 0 < (inorder t).length := List.length_pos_of_mem hk
    rw [sizeOf_of_sizeOk t' h2.2.1, sizeOf_of_sizeOk t hagg'.2, h3]
    omega
  refine ⟨t', h1, h3, ?_, hnot, (find_false_iff t' k h2.2.2).2 hnot, hsz, hc.2.1 hk,
    fun hf => by rw [hc.2.1 hk, wrapT_of_inT hf], ?_, h2.1, (aggOk_iff t').2 ⟨hc.1, h2.2.1⟩⟩
  · intro j hj
    rw [hmem j]
    exact ⟨fun h => h.2, fun h => ⟨hj, h⟩⟩
  · rw [h3]
    exact hs.sublist (List.erase_sublist k _)

theorem erase_removes_key_witness :
    insertAll null [5, 3, 8, 1, 4, 7, 9] = some scenario7 ∧
    erase scenario7 5 = some scenario7_erased ∧
    find scenario7_erased 5 = false ∧ scenario7_erased.sizeOf = 6 ∧
    minsum scenario7_erased 6 = some 32 ∧
    ∃ t', erase scenario7 5 = some t' ∧ inorder t' = (inorder scenario7).erase 5 ∧
      (∀ j, j ≠ 5 → (j ∈ inorder t' ↔ j ∈ inorder scenario7)) ∧ (5 : Int) ∉ inorder t' ∧
      find t' 5 = false ∧ t'.sizeOf = scenario7.sizeOf - 1 ∧
      t'.sumOf = wrapT (scenario7.sumOf - 5) ∧
      (inT (scenario7.sumOf - 5) → t'.sumOf = scenario7.sumOf - 5) ∧
      (inorder t').Sorted (· < ·) ∧ RBInv t' ∧ aggOk t' :=
  ⟨rfl, rfl, rfl, rfl, rfl,
    erase_removes_key scenario7 5 (by decide) (by decide) (by decide) (by decide)⟩

/-- C9, counterexample: the tree that holds only `-2^63` satisfies the invariants of the data
model and does not hold `-1`; after `insert(-1)` the root stores the sum `2^63 - 1`, not the
old sum plus `-1`, which is `-2^63 - 1`: the addition `n->sum += t` is that of `T` and wraps
around. -/
theorem insert_sum_overflow_counterexample :
    insert null (-9223372036854775808) =
      some (node (-9223372036854775808) (-9223372036854775808) 1 null null BLACK) ∧
    (inorder (node (-9223372036854775808) (-9223372036854775808) 1 null null
      BLACK)).Sorted (· < ·) ∧
    RBInv (node (-9223372036854775808) (-9223372036854775808) 1 null null BLACK) ∧
    aggOkInt (node (-9223372036854775808) (-9223372036854775808) 1 null null BLACK) ∧
    (-1 : Int) ∉ inorder (node (-9223372036854775808) (-9223372036854775808) 1 null null BLACK) ∧
    insert (node (-9223372036854775808) (-9223372036854775808) 1 null null BLACK) (-1) =
      some (node (-9223372036854775808) 9223372036854775807 2 null
        (node (-1) (-1) 1 null null RED) BLACK) ∧
    (node (-9223372036854775808) 9223372036854775807 2 null
      (node (-1) (-1) 1 null null RED) BLACK).sumOf = 9223372036854775807 ∧
    (node (-9223372036854775808) (-9223372036854775808) 1 null null BLACK).sumOf + (-1) =
      -9223372036854775809 ∧
    (node (-9223372036854775808) 9223372036854775807 2 null
      (node (-1) (-1) 1 null null RED) BLACK).sumOf ≠
      (node (-9223372036854775808) (-9223372036854775808) 1 null null BLACK).sumOf + (-1) :=
  ⟨rfl, by decide, by decide, by decide, by decide, rfl, rfl, rfl, by decide⟩

/-- C9, amended: on a tree with strictly increasing in-order traversal that satisfies the
red-black and aggregate invariants (sums in the arithmetic of `T`), `insert(k)` of a key `k`
not in the tree returns a tree whose in-order traversal is the old one with `k` inserted at
its sorted position: `find(k)` is true, `find` of every other key is unchanged, the root's
size is larger by `1`, and the red-black and size invariants hold again; when `k` is a value
of `T`, the root's sum is larger by `k` in the arithmetic of `T`, and exactly by `k` when the
new integer sum is a value of `T`, and the aggregate invariant holds again. -/
theorem insert_adds_key (t : Node) (k : Int) (hs : (inorder t).Sorted (· < ·))
    (hrb : RBInv t) (hagg : aggOk t) (hk : k ∉ inorder t) :
    ∃ t', insert t k = some t' ∧
      inorder t' = List.orderedInsert (· ≤ ·) k (inorder t) ∧
      find t' k = true ∧ (∀ j, j ≠ k → find t' j = find t j) ∧
      t'.sizeOf = t.sizeOf + 1 ∧
      (inorder t').Sorted (· < ·) ∧ RBInv t' ∧ sizeOk t' ∧
      (inT k → t'.sumOf = wrapT (t.sumOf + k) ∧ (inT (t.sumOf + k) → t'.sumOf = t.sumOf + k) ∧
        aggOk t') := by
  have hagg' := (aggOk_iff t).1 hagg
  have hinv : KeyInv t := ⟨hrb, hagg'.2, hs.le_of_lt⟩
  obtain ⟨t', h1, h2, h3, hz⟩ := insert_inv t k hinv
  refine ⟨t', h1, h3, ?_, ?_, hz, h3 ▸ strict_orderedInsert k _ hs hk, h2.1, h2.2.1,
    fun hT => ?_⟩
  · rw [find_iff_mem t' k h2.2.2, h3]
    simp
  · intro j hj
    rw [Bool.eq_iff_iff, find_iff_mem t' j h2.2.2, find_iff_mem t j hinv.2.2, h3,
      List.mem_orderedInsert]
    exact ⟨fun h => h.resolve_left hj, Or.inr⟩
  · have a := insert_sum t k t' hagg'.1 hT h1
    exact ⟨a.2, fun hf => by rw [a.2, wrapT_of_inT hf], (aggOk_iff t').2 ⟨a.1, h2.2.1⟩⟩

theorem insert_adds_key_witness :
    insertAll null [5, 3, 8, 1, 4, 7] = some scenario6 ∧
    insert scenario6 9 = some scenario7 ∧
    inorder scenario7 = [1, 3, 4, 5, 7, 8, 9] ∧ scenario7.sizeOf = 7 ∧
    ∃ t', insert scenario6 9 = some t' ∧
      inorder t' = List.orderedInsert (· ≤ ·) 9 (inorder scenario6) ∧
      find t' 9 = true ∧ (∀ j, j ≠ 9 → find t' j = find scenario6 j) ∧
      t'.sizeOf = scenario6.sizeOf + 1 ∧
      (inorder t').Sorted (· < ·) ∧ RBInv t' ∧ sizeOk t' ∧
      (inT 9 → t'.sumOf = wrapT (scenario6.sumOf + 9) ∧
        (inT (scenario6.sumOf + 9) → t'.sumOf = scenario6.sumOf + 9) ∧ aggOk t') :=
  ⟨rfl, rfl, rfl, rfl,
    insert_adds_key scenario6 9 (by decide) (by decide) (by decide) (by decide)⟩

theorem insert_erase_empty (k : Int) :
    insert null k = some (node k k 1 null null BLACK) ∧
    erase (node k k 1 null null BLACK) k = some null := by
  constructor
  · rfl
  · simp [erase, erase_search]
    rfl

/-- C10: for every tree built by `insert` and `erase` calls from the empty tree and every
key `k`, `insert(k)` followed by `erase(k)` gives a tree with the same in-order traversal and
the same root size, and, the keys given to `insert` being values of `T`, the same root sum
and the same `minsum(K)` for every `K ≥ 0`; on the empty tree the pair of calls gives the
empty tree again, with size `0` and `minsum(5) = 0`. -/
theorem insert_erase_round_trip (ops : List Op) (k : Int) :
    (∃ t t1 t2, runOps null ops = some t ∧ insert t k = some t1 ∧ erase t1 k = some t2 ∧
      inorder t2 = inorder t ∧ t2.sizeOf = t.sizeOf ∧
      ((∀ op ∈ ops, op.keyInT) → inT k →
        t2.sumOf = t.sumOf ∧ ∀ K : Int, 0 ≤ K → minsum t2 K = minsum t K)) ∧
    (∃ t1, insert null k = some t1 ∧ erase t1 k = some null) ∧
    null.sizeOf = 0 ∧ minsum null 5 = some 0 := by
  refine ⟨?_, ⟨_, (insert_erase_empty k).1, (insert_erase_empty k).2⟩, rfl, rfl⟩
  obtain ⟨t, h1, h2⟩ := runOps_inv ops null KeyInv_null
  obtain ⟨t1, h3, h4, h5, -⟩ := insert_inv t k h2
  obtain ⟨t2, h6, h7, h8⟩ := erase_inv t1 k h4
  have hin : inorder t2 = inorder t := by
    rw [h8, h5, List.erase_orderedInsert]
  refine ⟨t, t1, t2, h1, h3, h6, hin, ?_, fun hops hk => ?_⟩
  · rw [sizeOf_of_sizeOk t2 h7.2.1, sizeOf_of_sizeOk t h2.2.1, hin]
  · have s0 := runOps_sum ops null t KeyInv_null trivial hops h1
    have s1 := (insert_sum t k t1 s0 hk h3).1
    have s2 := ((erase_content t1 k t2 h4.2.2 h6).2.2 s1).1
    have a : aggOk t := (aggOk_iff t).2 ⟨s0, h2.2.1⟩
    have b : aggOk t2 := (aggOk_iff t2).2 ⟨s2, h7.2.1⟩
    refine ⟨?_, fun K hK => ?_⟩
    · rw [(agg_sum_size b).1, (agg_sum_size a).1, hin]
    · rw [minsum_of_agg t2 K b hK, minsum_of_agg t K a hK, hin]

theorem insert_erase_round_trip_witness :
    insert null 10 = some (node 10 10 1 null null BLACK) ∧
    erase (node 10 10 1 null null BLACK) 10 = some null ∧
    (∀ op ∈ [Op.ins 5, Op.ins 3], op.keyInT) ∧ inT 10 ∧
    (∃ t t1 t2, runOps null [Op.ins 5, Op.ins 3] = some t ∧ insert t 10 = some t1 ∧
      erase t1 10 = some t2 ∧ inorder t2 = inorder t ∧ t2.sizeOf = t.sizeOf ∧
      t2.sumOf = t.sumOf ∧ ∀ K : Int, 0 ≤ K → minsum t2 K = minsum t K) :=
  ⟨rfl, rfl, by decide, by decide,
    (insert_erase_round_trip [Op.ins 5, Op.ins 3] 10).1.imp fun _ h => h.imp fun _ h =>
      h.imp fun _ h => ⟨h.1, h.2.1, h.2.2.1, h.2.2.2.1, h.2.2.2.2.1,
        (h.2.2.2.2.2 (by decide) (by decide)).1, (h.2.2.2.2.2 (by decide) (by decide)).2⟩⟩

/-! ## `minsum` and the size fields; `erase` of an absent key -/

/-- Under the size invariant `minsum_inner(n, K)` for `K ≥ 0` returns, and leaves in `K`
what exceeds the number of nodes of `n`. -/
theorem minsum_inner_budget (t : Node) (hsz : sizeOk t) (k : Nat) :
    ∃ s, minsum_inner t (k : Int) = some (s, ((k - (inorder t).length : Nat) : Int)) := by
  induction t generalizing k with
  | null => exact ⟨0, by simp [minsum_inner_null, inorder]⟩
  | node v s sz c0 c1 col ih0 ih1 =>
    have hh := sizeOf_of_sizeOk _ hsz
    obtain ⟨hz, h0, h1⟩ := hsz
    have a0 := sizeOf_of_sizeOk _ h0
    have a1 := sizeOf_of_sizeOk _ h1
    simp only [sizeOf_node] at hh
    have hlen : (inorder (node v s sz c0 c1 col)).length =
        (inorder c0).length + 1 + (inorder c1).length := by
      simp [inorder]; omega
    rw [minsum_inner_node]
    by_cases hle : sz ≤ (k : Int)
    · rw [if_pos hle]
      refine ⟨s, ?_⟩
      congr 2
      omega
    · rw [if_neg hle]
      have hlt : k < (inorder c0).length + 1 + (inorder c1).length := by omega
      obtain ⟨s0, e0⟩ := ih0 h0 k
      rw [e0]
      simp only [Option.map_some', Option.some_bind]
      by_cases hk0 : k ≤ (inorder c0).length
      · have z : k - (inorder c0).length = 0 := by omega
        have z2 : k - (inorder (node v s sz c0 c1 col)).length = 0 := by omega
        simp [z, z2]
      · obtain ⟨m, hm⟩ : ∃ m, k - (inorder c0).length = m + 1 :=
          ⟨k - (inorder c0).length - 1, by omega⟩
        have pos1 : ((m + 1 : Nat) : Int) > 0 := by omega
        simp only [hm]
        simp only [pos1, if_true]
        have e1 : ((m + 1 : Nat) : Int) - 1 = (m : Int) := by push_cast; ring
        rw [e1]
        have z2 : k - (inorder (node v s sz c0 c1 col)).length = 0 := by omega
        by_cases hm0 : m = 0
        · subst hm0
          simp [z2]
        · have pos2 : (m : Int) > 0 := by omega
          simp only [pos2, if_true]
          cases c1 with
          | null => simp [inorder] at hlt; omega
          | node a b c d e f =>
            have z3 : m - (inorder (node a b c d e f)).length = 0 := by omega
            obtain ⟨s1, e1'⟩ := ih1 h1 m
            simp only []
            rw [e1']
            simp [z2, z3]

/-- Under the size invariant `minsum_inner(n, K)` for `K < 0` returns `0` and leaves `K`
as it is. -/
theorem minsum_inner_neg (t : Node) (hsz : sizeOk t) (K : Int) (hK : K < 0) :
    minsum_inner t K = some (0, K) := by
  induction t with
  | null => rfl
  | node v s sz c0 c1 col ih0 ih1 =>
    have hh := sizeOf_of_sizeOk _ hsz
    simp only [sizeOf_node] at hh
    rw [minsum_inner_node]
    have h1 : ¬ sz ≤ K := by omega
    have h2 : ¬ K > 0 := by omega
    rw [if_neg h1, ih0 hsz.2.1]
    simp [h2, wrapT_zero]

/-- C11: when the search descent of `erase(k)` reaches an absent slot without meeting a node
equal to `k`, in particular when `k` is not in a tree with sorted in-order traversal,
`erase(k)` returns the very same tree: same shape, keys, colours, sums and sizes. -/
theorem erase_absent_unchanged (t : Node) (k : Int) :
    (erase_search t k [] = none → erase t k = some t) ∧
    ((inorder t).Sorted (· ≤ ·) → k ∉ inorder t → erase t k = some t) :=
  ⟨erase_of_search_none t k,
    fun hs hk => erase_of_search_none t k ((erase_search_none k t [] hs).2 hk)⟩

theorem erase_absent_unchanged_witness :
    erase_search scenario7 6 [] = none ∧ (inorder scenario7).Sorted (· ≤ ·) ∧
    (6 : Int) ∉ inorder scenario7 ∧ erase scenario7 6 = some scenario7 :=
  ⟨by decide, by decide, by decide,
    (erase_absent_unchanged scenario7 6).2 (by decide) (by decide)⟩

/-- C12, counterexample: `minsum(-1)` on the empty tree and `minsum(-3)` on the tree of the
seven keys return `0`; no assertion fails. -/
theorem minsum_negative_counterexample :
    minsum null (-1) = some 0 ∧ minsum scenario7 (-3) = some 0 ∧
    minsum_inner scenario7 (-3) = some (0, -3) :=
  ⟨rfl, rfl, rfl⟩

/-- C12, amended: on a tree whose size fields satisfy the aggregate invariant, `minsum(K)`
with `K < 0` fails no assertion: it returns `0`, and the inner recursion leaves `K` as it
was. -/
theorem minsum_negative_returns_zero (t : Node) (K : Int) (hsz : sizeOk t) (hK : K < 0) :
    minsum t K = some 0 ∧ minsum_inner t K = some (0, K) := by
  have h := minsum_inner_neg t hsz K hK
  exact ⟨by simp [minsum, h], h⟩

theorem minsum_negative_returns_zero_witness :
    sizeOk scenario7 ∧ minsum scenario7 (-1) = some 0 ∧
    minsum_inner scenario7 (-1) = some (0, -1) :=
  ⟨by decide, minsum_negative_returns_zero scenario7 (-1) (by decide) (by decide)⟩

/-- C13: on a tree whose size fields satisfy the aggregate invariant and for `K ≥ 0`,
`minsum_inner` never fails `assert(n->children[1])`: it returns; entered at a node with
`size > K` it returns with the remaining budget `0`; and at a node with `size > K`, when the
budget is still positive after the left subtree and the node itself, the right child
exists. -/
theorem minsum_assert_unreachable (t : Node) (K : Int) (hsz : sizeOk t) (hK : 0 ≤ K) :
    (∃ r, minsum_inner t K = some r) ∧ (∃ r, minsum t K = some r) ∧
    (K < t.sizeOf → ∃ s, minsum_inner t K = some (s, 0)) ∧
    (∀ v s sz c0 c1 col, t = node v s sz c0 c1 col → K < sz →
      ∀ s0 K0, minsum_inner c0 K = some (s0, K0) → 0 < K0 → 0 < K0 - 1 → c1 ≠ null) := by
  obtain ⟨s, hs⟩ := minsum_inner_budget t hsz K.toNat
  rw [Int.toNat_of_nonneg hK] at hs
  refine ⟨⟨_, hs⟩, ⟨s, by simp [minsum, hs]⟩, ?_, ?_⟩
  · intro hlt
    rw [sizeOf_of_sizeOk t hsz] at hlt
    refine ⟨s, ?_⟩
    rw [hs]
    congr 2
    omega
  · intro v s' sz c0 c1 col ht hlt s0 K0 h0 hp hp1 hnull
    subst ht hnull
    have hz := sizeOf_of_sizeOk _ hsz.2.1
    have hz0 := hsz.1
    obtain ⟨s1, h1⟩ := minsum_inner_budget c0 hsz.2.1 K.toNat
    rw [Int.toNat_of_nonneg hK, h0] at h1
    simp only [Option.some.injEq, Prod.mk.injEq] at h1
    simp only [sizeOf_null] at hz0
    omega

theorem minsum_assert_unreachable_witness :
    sizeOk scenario7 ∧ (∃ r, minsum_inner scenario7 3 = some r) ∧
    (∃ s, minsum_inner scenario7 3 = some (s, 0)) ∧ minsum_inner scenario7 3 = some (8, 0) :=
  ⟨by decide, (minsum_assert_unreachable scenario7 3 (by decide) (by decide)).1,
    (minsum_assert_unreachable scenario7 3 (by decide) (by decide)).2.2.1 (by decide), rfl⟩

/-! ## Safety of the erase fix-up; `rotate` -/

theorem erase_root_leaf (k s sz : Int) (c0 c1 : Node) (col : Color) (h : c0 = null ∨ c1 = null) :
    erase (node k s sz c0 c1 col) k = erase_finish col (if c0 != null then c0 else c1) [] := by
  have hs : erase_search (node k s sz c0 c1 col) k [] = some (node k s sz c0 c1 col, []) := by
    simp [erase_search]
  exact erase_of_leaf _ k k s sz c0 c1 col [] hs h

theorem sibling_exists (x : Node) (f : Frame) (rest : List Frame) (h : Nat)
    (hd : deficient x (f :: rest) h) : f.other ≠ null := by
  intro e
  have := hd.2.2.2.2.1
  rw [e] at this
  simp [blackHeight] at this

/-- C14: on a tree that satisfies the red-black invariants `erase(k)` never fails `assert(w)`
or `assert(c)` and never dereferences an absent node: it returns a tree.  In every round of
the fix-up loop on a deficient slot the sibling exists and the loop returns; and when the
spliced node is a BLACK root the fix-up is not entered with any node, the only action being
to colour the new root BLACK. -/
theorem erase_fixup_safe (t : Node) (k : Int) (h : RBInv t) :
    (∃ r, erase t k = some r) ∧
    (∀ (x : Node) (f : Frame) (rest : List Frame) (b : Nat), deficient x (f :: rest) b →
      f.other ≠ null ∧ ∃ r, balance_erase (rest.length + 2) (f.fill x) f.dir rest = some r) ∧
    (∀ s sz c0 c1, t = node k s sz c0 c1 BLACK → (c0 = null ∨ c1 = null) →
      erase t k = some ((if c0 != null then c0 else c1).setColor BLACK)) := by
  refine ⟨?_, ?_, ?_⟩
  · obtain ⟨r, h1, -⟩ := erase_rb t k h
    exact ⟨r, h1⟩
  · intro x f rest b hd
    refine ⟨sibling_exists x f rest b hd, ?_⟩
    obtain ⟨r, h1, -⟩ := balance_erase_rb (rest.length + 2) x f rest b hd (by split <;> omega)
    exact ⟨r, h1⟩
  · intro s sz c0 c1 ht hc
    subst ht
    rw [erase_root_leaf k s sz c0 c1 BLACK hc]
    rfl

theorem erase_fixup_safe_witness :
    RBInv scenario7_erased ∧ (∃ r, erase scenario7_erased 8 = some r) ∧
    erase (node 10 10 1 null null BLACK) 10 = some null :=
  ⟨by decide, (erase_fixup_safe scenario7_erased 8 (by decide)).1,
    (erase_fixup_safe (node 10 10 1 null null BLACK) 10 (by decide)).2.2 10 1 null null rfl
      (Or.inl rfl)⟩

theorem rotate_shape (v s sz : Int) (n0 n1 : Node) (col : Color) (dir : Dir)
    (cv cs csz : Int) (cc0 cc1 : Node) (ccol : Color)
    (hc : (node v s sz n0 n1 col).children dir.flip = node cv cs csz cc0 cc1 ccol) :
    rotate (node v s sz n0 n1 col) dir =
      some ((node cv
          (wrapT (wrapT (cs - ((node cv cs csz cc0 cc1 ccol).children dir).sumOf) +
            wrapT (wrapT (s - cs) + ((node cv cs csz cc0 cc1 ccol).children dir).sumOf)))
          sz cc0 cc1 ccol).setChild dir
        ((node v (wrapT (wrapT (s - cs) + ((node cv cs csz cc0 cc1 ccol).children dir).sumOf))
          (sz - csz + ((node cv cs csz cc0 cc1 ccol).children dir).sizeOf) n0 n1 col).setChild
            dir.flip ((node cv cs csz cc0 cc1 ccol).children dir))) := by
  cases dir
  · simp only [flip_d0, children_d1] at hc
    subst hc
    rw [rotate_d0]
    rfl
  · simp only [flip_d1, children_d0] at hc
    subst hc
    rw [rotate_d1]
    rfl

theorem rotate_sameContent (n : Node) (dir : Dir) (top : Node) (h : rotate n dir = some top) :
    sameContent n top := by
  cases n with
  | null => simp [rotate] at h
  | node v s sz n0 n1 col =>
    cases dir
    · cases n1 with
      | null => simp [rotate_d0_null] at h
      | node cv cs csz cc0 cc1 ccol =>
        rw [rotate_d0] at h
        simp only [Option.some.injEq] at h
        subst h
        simp [sameContent, inorder, sizeOk, sumOk, sumOf_node, sizeOf_node]
        (repeat' (first | intro _ | constructor)) <;>
          first | assumption | omega | (subst_vars; apply wrapT_congr; push_cast [cast_wrapT]; ring)
    · cases n0 with
      | null => simp [rotate_d1_null] at h
      | node cv cs csz cc0 cc1 ccol =>
        rw [rotate_d1] at h
        simp only [Option.some.injEq] at h
        subst h
        simp [sameContent, inorder, sizeOk, sumOk, sumOf_node, sizeOf_node]
        (repeat' (first | intro _ | constructor)) <;>
          first | assumption | omega | (subst_vars; apply wrapT_congr; push_cast [cast_wrapT]; ring)

theorem sumOf_setChild (v s sz : Int) (a b x : Node) (c : Color) (dir : Dir) :
    ((node v s sz a b c).setChild dir x).sumOf = s := by
  cases dir <;> rfl

/-- C15, counterexample: the subtree `extremes3` satisfies the aggregate invariant over the
integers and its child on side `1` exists; `rotate(n, 0)` leaves the node `n` with the stored
sum `1`, whereas its value and the sum of its child add up to `-2^64 + 1`: the subtraction
`n->sum -= c->sum` is that of `T` and wraps around, and the aggregate invariant over the
integers is lost. -/
theorem rotate_overflow_counterexample :
    aggOkInt extremes3 ∧ aggOk extremes3 ∧ extremes3.children d1 ≠ null ∧
    rotate extremes3 d0 =
      some (node 9223372036854775807 (-9223372036854775808) 3
        (node (-9223372036854775807) 1 2
          (node (-9223372036854775808) (-9223372036854775808) 1 null null RED) null BLACK)
        null RED) ∧
    ¬ aggOkInt (node 9223372036854775807 (-9223372036854775808) 3
        (node (-9223372036854775807) 1 2
          (node (-9223372036854775808) (-9223372036854775808) 1 null null RED) null BLACK)
        null RED) ∧
    (node (-9223372036854775807) 1 2
      (node (-9223372036854775808) (-9223372036854775808) 1 null null RED) null BLACK).sumOf ≠
      -9223372036854775807 +
        (node (-9223372036854775808) (-9223372036854775808) 1 null null RED).sumOf +
        null.sumOf :=
  ⟨by decide, by decide, by decide, rfl, by decide, by decide⟩

/-- C15, amended: let the child `c` of `n` on side `1 - dir` exist.  Then `rotate(n, dir)`
returns `c` on top (it takes the place of `n` in the tree), with `n` as its child on side
`dir` and the former child of `c` on side `dir` as the child of `n` on side `1 - dir`; the
keys of the whole tree keep their order; and when the subtree of `n` satisfies the aggregate
invariant with the sums in the arithmetic of `T`, so does the rotated subtree, the node on
top stores the sum and size that `n` stored, and the aggregate invariant of the whole tree is
kept.  When in addition the integer sums of the keys of all subtrees of the rotated subtree
are values of `T`, the rotated subtree satisfies the aggregate invariant over the integers. -/
theorem rotate_spec (v s sz : Int) (n0 n1 : Node) (col : Color) (dir : Dir)
    (cv cs csz : Int) (cc0 cc1 : Node) (ccol : Color)
    (hc : (node v s sz n0 n1 col).children dir.flip = node cv cs csz cc0 cc1 ccol)
    (hagg : aggOk (node v s sz n0 n1 col)) :
    ∃ top s1 z1, rotate (node v s sz n0 n1 col) dir = some top ∧
      top = (node cv s sz cc0 cc1 ccol).setChild dir
        ((node v s1 z1 n0 n1 col).setChild dir.flip
          ((node cv cs csz cc0 cc1 ccol).children dir)) ∧
      inorder top = inorder (node v s sz n0 n1 col) ∧
      aggOk top ∧ top.sumOf = s ∧ top.sizeOf = sz ∧
      (sumsFit top → aggOkInt top) ∧
      ∀ path : List Frame,
        inorder (plug top path) = inorder (plug (node v s sz n0 n1 col) path) ∧
        (aggOk (plug (node v s sz n0 n1 col) path) → aggOk (plug top path)) := by
  have h := rotate_shape v s sz n0 n1 col dir cv cs csz cc0 cc1 ccol hc
  have hsc := rotate_sameContent _ _ _ h
  have hagg' := (aggOk_iff _).1 hagg
  obtain ⟨a1, a2⟩ := hsc.2.2 hagg'.1
  obtain ⟨b1, b2⟩ := hsc.2.1 hagg'.2
  have htop := (aggOk_iff _).2 ⟨a1, b1⟩
  have hX : wrapT (wrapT (cs - ((node cv cs csz cc0 cc1 ccol).children dir).sumOf) +
      wrapT (wrapT (s - cs) + ((node cv cs csz cc0 cc1 ccol).children dir).sumOf)) = s := by
    rw [sumOf_setChild] at a2
    exact a2
  rw [hX] at h htop a2 b2 hsc
  refine ⟨_, _, _, h, rfl, hsc.1, htop, a2, b2, fun hf => (aggOkInt_of_aggOk _ htop hf).1,
    fun path => ?_⟩
  have hp := sameContent_plug path hsc
  refine ⟨hp.1, fun ha => ?_⟩
  have ha' := (aggOk_iff _).1 ha
  exact (aggOk_iff _).2 ⟨(hp.2.2 ha'.1).1, (hp.2.1 ha'.2).1⟩

theorem rotate_spec_witness :
    aggOk scenario7 ∧
    ∃ top s1 z1, rotate scenario7 d0 = some top ∧
      top = (node 8 37 7 (node 7 7 1 null null RED) (node 9 9 1 null null RED) BLACK).setChild d0
        ((node 5 s1 z1
          (node 3 8 3 (node 1 1 1 null null RED) (node 4 4 1 null null RED) BLACK)
          (node 8 24 3 (node 7 7 1 null null RED) (node 9 9 1 null null RED) BLACK)
          BLACK).setChild d1 (node 7 7 1 null null RED)) ∧
      inorder top = inorder scenario7 ∧
      aggOk top ∧ top.sumOf = 37 ∧ top.sizeOf = 7 ∧
      (sumsFit top → aggOkInt top) ∧
      ∀ path : List Frame,
        inorder (plug top path) = inorder (plug scenario7 path) ∧
        (aggOk (plug scenario7 path) → aggOk (plug top path)) :=
  ⟨by decide, rotate_spec 5 37 7 _ _ BLACK d0 8 24 3 _ _ BLACK rfl (by decide)⟩

/-! ## Height, the multiset model, safety of the insert fix-up -/

theorem nodeCount_eq_length (t : Node) : nodeCount t = (inorder t).length := by
  induction t with
  | null => rfl
  | node v s sz c0 c1 col ih0 ih1 => simp [nodeCount, inorder, ih0, ih1]; omega

theorem pow_blackHeight_le (t : Node) (h : bhOk t) : 2 ^ blackHeight t ≤ nodeCount t + 1 := by
  induction t with
  | null => simp [blackHeight, nodeCount]
  | node v s sz c0 c1 col ih0 ih1 =>
    obtain ⟨hb, h0, h1⟩ := h
    have a0 := ih0 h0
    have a1 := ih1 h1
    rw [← hb] at a1
    simp only [blackHeight, nodeCount]
    cases col
    · simp only [reduceCtorEq, if_false, add_zero]
      omega
    · simp only [if_true, pow_succ]
      omega

theorem height_le_blackHeight (t : Node) (h : rbOk t) :
    height t ≤ 2 * blackHeight t + (if is_black t then 0 else 1) := by
  induction t with
  | null => simp [height, blackHeight]
  | node v s sz c0 c1 col ih0 ih1 =>
    obtain ⟨⟨hr, hr0, hr1⟩, hb, hb0, hb1⟩ := h
    have a0 := ih0 ⟨hr0, hb0⟩
    have a1 := ih1 ⟨hr1, hb1⟩
    rw [← hb] at a1
    simp only [height, blackHeight]
    cases col
    · obtain ⟨x0, x1⟩ := hr rfl
      simp only [x0, x1, if_true, add_zero] at a0 a1
      simp [is_black]
      omega
    · simp [is_black]
      split at a0 <;> split at a1 <;> omega

theorem height_bound_of_RBInv (t : Node) (h : RBInv t) :
    2 ^ ((height t + 1) / 2) ≤ nodeCount t + 1 ∧ height t ≤ 2 * Nat.log 2 (nodeCount t + 1) := by
  have h1 := height_le_blackHeight t ⟨h.2.1, h.2.2⟩
  have h2 := pow_blackHeight_le t h.2.2
  simp only [h.1, if_true, add_zero] at h1
  have h3 : (height t + 1) / 2 ≤ blackHeight t := by omega
  have h4 : blackHeight t ≤ Nat.log 2 (nodeCount t + 1) :=
    Nat.le_log_of_pow_le (by norm_num) h2
  exact ⟨le_trans (Nat.pow_le_pow_right (by norm_num) h3) h2, by omega⟩

/-- C16: for every tree built from the empty tree by a finite sequence of `insert` and
`erase` calls, with `n` nodes and height `h` (nodes on the longest root-to-leaf path),
`2 ^ ⌈h / 2⌉ ≤ n + 1`, hence `h ≤ 2 * log2 (n + 1)`. -/
theorem height_bound_reachable (ops : List Op) :
    ∃ t, runOps null ops = some t ∧ nodeCount t = (inorder t).length ∧
      2 ^ ((height t + 1) / 2) ≤ nodeCount t + 1 ∧
      height t ≤ 2 * Nat.log 2 (nodeCount t + 1) := by
  obtain ⟨t, h1, h2⟩ := runOps_inv ops null KeyInv_null
  have := height_bound_of_RBInv t h2.1
  exact ⟨t, h1, nodeCount_eq_length t, this.1, this.2⟩

theorem msRun_inv (ops : List Op) : ∀ (t : Node) (M : Multiset Int), KeyInv t →
    (inorder t : Multiset Int) = M →
    ∃ t', runOps t ops = some t' ∧ KeyInv t' ∧ (inorder t' : Multiset Int) = msRun M ops := by
  induction ops with
  | nil => intro t M h hM; exact ⟨t, rfl, h, hM⟩
  | cons op ops ih =>
    intro t M h hM
    cases op with
    | ins k =>
      obtain ⟨t1, h1, h2, h3, -⟩ := insert_inv t k h
      have hM1 : (inorder t1 : Multiset Int) = msApply M (Op.ins k) := by
        rw [h3, msApply, ← hM, Multiset.cons_coe]
        exact Multiset.coe_eq_coe.2 (List.perm_orderedInsert _ _ _)
      obtain ⟨t2, h4, h5, h6⟩ := ih t1 _ h2 hM1
      exact ⟨t2, by simp [runOps, applyOp, h1, h4], h5, h6⟩
    | del k =>
      obtain ⟨t1, h1, h2, h3⟩ := erase_inv t k h
      have hM1 : (inorder t1 : Multiset Int) = msApply M (Op.del k) := by
        rw [h3, msApply, ← hM, Multiset.coe_erase]
      obtain ⟨t2, h4, h5, h6⟩ := ih t1 _ h2 hM1
      exact ⟨t2, by simp [runOps, applyOp, h1, h4], h5, h6⟩

/-- C19, counterexample: after two calls `insert(2^63 - 1)` on the empty tree the root stores
the sum `-2`, whereas the multiset of the two keys has the sum `2^64 - 2`: the addition
`n->sum += t` is that of `T` and wraps around. -/
theorem multiset_sum_overflow_counterexample :
    runOps null [Op.ins 9223372036854775807, Op.ins 9223372036854775807] =
      some (node 9223372036854775807 (-2) 2 null
        (node 9223372036854775807 9223372036854775807 1 null null RED) BLACK) ∧
    (node 9223372036854775807 (-2) 2 null
      (node 9223372036854775807 9223372036854775807 1 null null RED) BLACK).sumOf = -2 ∧
    (msRun 0 [Op.ins 9223372036854775807, Op.ins 9223372036854775807]).sum =
      18446744073709551614 ∧
    (node 9223372036854775807 (-2) 2 null
      (node 9223372036854775807 9223372036854775807 1 null null RED) BLACK).sumOf ≠
      (msRun 0 [Op.ins 9223372036854775807, Op.ins 9223372036854775807]).sum :=
  ⟨rfl, rfl, by simp [msRun, msApply], by simp [msRun, msApply, sumOf_node]⟩

/-- C19, amended: for every finite sequence of `insert` and `erase` calls on the empty tree,
the in-order traversal of the result is non-decreasing and is the sorted listing of the
multiset obtained by running the calls on a multiset, where `insert(k)` always adds a copy of
`k` and `erase(k)` removes one copy if there is one; the root's size is the cardinality of
that multiset; and when the inserted keys are values of `T`, the root's sum is the sum of the
multiset reduced modulo `2^64` to the range of `T`, hence the sum of the multiset itself
whenever that sum is a value of `T`. -/
theorem multiset_model (ops : List Op) :
    ∃ t, runOps null ops = some t ∧ (inorder t).Sorted (· ≤ ·) ∧
      (inorder t : Multiset Int) = msRun 0 ops ∧
      inorder t = (msRun 0 ops).sort (· ≤ ·) ∧
      t.sizeOf = (Multiset.card (msRun 0 ops) : Int) ∧
      ((∀ op ∈ ops, op.keyInT) → t.sumOf = wrapT (msRun 0 ops).sum ∧
        (inT (msRun 0 ops).sum → t.sumOf = (msRun 0 ops).sum)) := by
  obtain ⟨t, h1, h2, h3⟩ := msRun_inv ops null 0 KeyInv_null rfl
  refine ⟨t, h1, h2.2.2, h3, ?_, ?_, fun hk => ?_⟩
  · apply List.eq_of_perm_of_sorted _ h2.2.2 (Multiset.sort_sorted _ _)
    apply Multiset.coe_eq_coe.1
    rw [Multiset.sort_eq, h3]
  · rw [sizeOf_of_sizeOk t h2.2.1, ← h3, Multiset.coe_card]
  · have hs := runOps_sum ops null t KeyInv_null trivial hk h1
    have e : t.sumOf = wrapT (msRun 0 ops).sum := by
      rw [sumOf_of_sumOk t hs, ← h3, Multiset.sum_coe]
    exact ⟨e, fun hf => by rw [e, wrapT_of_inT hf]⟩

theorem multiset_model_witness :
    (∀ op ∈ [Op.ins 5, Op.ins 5, Op.del 3, Op.del 5], op.keyInT) ∧
    ∃ t, runOps null [Op.ins 5, Op.ins 5, Op.del 3, Op.del 5] = some t ∧
      (inorder t).Sorted (· ≤ ·) ∧
      (inorder t : Multiset Int) = msRun 0 [Op.ins 5, Op.ins 5, Op.del 3, Op.del 5] ∧
      t.sizeOf = (Multiset.card (msRun 0 [Op.ins 5, Op.ins 5, Op.del 3, Op.del 5]) : Int) ∧
      t.sumOf = wrapT (msRun 0 [Op.ins 5, Op.ins 5, Op.del 3, Op.del 5]).sum :=
  ⟨by decide, (multiset_model [Op.ins 5, Op.ins 5, Op.del 3, Op.del 5]).imp
    fun _ h => ⟨h.1, h.2.1, h.2.2.1, h.2.2.2.2.1, (h.2.2.2.2.2 (by decide)).1⟩⟩

/-- C20: on a tree that satisfies the red-black invariants `insert(k)` never dereferences an
absent node and never fails `assert(c)` in `rotate`: it returns a tree; and the fix-up
`balance` returns for every RED node with red-black subtree in a red-black surrounding, where
a RED parent always has a parent. -/
theorem insert_fixup_safe (t : Node) (k : Int) (h : RBInv t) :
    (∃ r, insert t k = some r) ∧
    (∀ (path : List Frame) (v s sz : Int) (a b : Node) (bh : Nat),
      rbOk (node v s sz a b RED) → blackHeight (node v s sz a b RED) = bh → ctxOk path bh →
      (∃ r, balance (node v s sz a b RED) path = some r) ∧
      ∀ p rest, path = p :: rest → p.color = RED → rest ≠ []) := by
  refine ⟨?_, ?_⟩
  · obtain ⟨r, h1, -⟩ := insert_rb t k h
    exact ⟨r, h1⟩
  · intro path v s sz a b bh h1 h2 h3
    refine ⟨?_, ?_⟩
    · obtain ⟨r, h4, -⟩ := balance_rb path v s sz a b bh h1 h2 h3
      exact ⟨r, h4⟩
    · intro p rest hp hc
      subst hp
      exact (h3.2.2.1 hc).2.2

theorem insert_fixup_safe_witness :
    RBInv scenario6 ∧ insert scenario6 9 = some scenario7 ∧ ∃ r, insert scenario6 6 = some r :=
  ⟨by decide, rfl, (insert_fixup_safe scenario6 6 (by decide)).1⟩

/-! ## The baseline tree against the augmented tree -/

theorem strip_fill (f : Frame) (t : Node) : strip (f.fill t) = (stripF f).fill (strip t) := by
  obtain ⟨fv, fs, fsz, fd, fo, fc⟩ := f
  cases fd <;> rfl

theorem strip_plug (path : List Frame) : ∀ t : Node,
    strip (plug t path) = Baseline.plug (strip t) (path.map stripF) := by
  induction path with
  | nil => intro t; rfl
  | cons f rest ih => intro t; simp only [plug, List.map_cons, Baseline.plug, ih, strip_fill]

theorem strip_setColor (t : Node) (c : Color) : strip (t.setColor c) = (strip t).setColor c := by
  cases t <;> rfl

theorem isRed_strip (t : Node) : Baseline.isRed (strip t) = !is_black t := by
  cases t with
  | null => rfl
  | node v s sz a b c => cases c <;> rfl

theorem strip_rotate_d0 (n : Node) : (rotate n d0).map strip = Baseline.rotate_left (strip n) := by
  cases n with
  | null => rfl
  | node v s sz a b c =>
    cases b with
    | null => rw [rotate_d0_null]; rfl
    | node cv cs csz cc0 cc1 ccol => rw [rotate_d0]; rfl

theorem strip_rotate_d1 (n : Node) : (rotate n d1).map strip = Baseline.rotate_right (strip n) := by
  cases n with
  | null => rfl
  | node v s sz a b c =>
    cases a with
    | null => rw [rotate_d1_null]; rfl
    | node cv cs csz cc0 cc1 ccol => rw [rotate_d1]; rfl

theorem strip_inorder (t : Node) : Baseline.inorder (strip t) = inorder t := by
  induction t with
  | null => rfl
  | node v s sz c0 c1 col ih0 ih1 => simp [strip, Baseline.inorder, inorder, ih0, ih1]

theorem strip_find (t : Node) (k : Int) : Baseline.find (strip t) k = find t k := by
  induction t with
  | null => rfl
  | node v s sz c0 c1 col ih0 ih1 => simp [strip, Baseline.find, find, ih0, ih1]

theorem strip_balance : ∀ (path : List Frame) (cur : Node),
    (balance cur path).map strip = Baseline.balance (strip cur) (path.map stripF)
  | _, null => by simp [balance, strip, Baseline.balance]
  | [], node v s sz a b c => by simp [balance, strip, Baseline.balance]
  | [p], node v s sz a b c => by
    obtain ⟨pv, ps, psz, pd, po, pc⟩ := p
    cases pc <;> cases pd <;>
      simp [balance, strip, Baseline.balance, stripF, plug, Baseline.plug, Frame.fill,
        Baseline.Frame.fill]
  | p :: g :: rest, node v s sz a b c => by
    obtain ⟨pv, ps, psz, pd, po, pc⟩ := p
    obtain ⟨gv, gs, gsz, gd, go, gc⟩ := g
    cases pc
    swap
    · rw [balance_parent_black _ _ _ _ _ _ _ _ rfl]
      simp only [Option.map_some', strip_plug]
      simp [strip, Baseline.balance, stripF]
    by_cases hu : is_black go = true
    · have hr : Baseline.isRed (strip go) = false := by rw [isRed_strip, hu]; rfl
      cases pd <;> cases gd <;>
        simp [balance, hu, hr, strip, Baseline.balance, stripF, Frame.fill, Baseline.Frame.fill,
          setColor_node, Baseline.Node.setColor, rotate_d0, rotate_d1, flip_d0, flip_d1,
          Baseline.rotate_left, Baseline.rotate_right, strip_plug]
    · have hr : Baseline.isRed (strip go) = true := by
        rw [isRed_strip]; simpa using hu
      have ih := strip_balance rest
      cases pd <;> cases gd <;>
        simp [balance, hu, hr, strip, Baseline.balance, stripF, Frame.fill, Baseline.Frame.fill,
          setColor_node, Baseline.Node.setColor, ih, strip_setColor]

theorem stripF_add (k : Int) (path : List Frame) :
    (path.map (Frame.add k)).map stripF = path.map stripF := by
  induction path with
  | nil => rfl
  | cons f rest ih => simp [Frame.add, stripF]

theorem strip_descend (k : Int) : ∀ (t : Node) (path : List Frame), k ∉ inorder t →
    Baseline.insert_descend (strip t) k (path.map stripF) =
      some ((insert_descend t k path).map stripF) := by
  intro t
  induction t with
  | null => intro path _; rfl
  | node v s sz c0 c1 col ih0 ih1 =>
    intro path hk
    simp only [inorder, List.mem_append, List.mem_cons, not_or] at hk
    obtain ⟨h0, hv, h1⟩ := hk
    have hv' : ¬ v = k := fun e => hv e.symm
    simp only [strip, Baseline.insert_descend, insert_descend, hv', if_false]
    split
    · exact ih0 (⟨v, s, sz, d0, c1, col⟩ :: path) h0
    · exact ih1 (⟨v, s, sz, d1, c0, col⟩ :: path) h1

theorem strip_descend_present (k : Int) : ∀ (t : Node) (path : List Baseline.Frame),
    (inorder t).Sorted (· ≤ ·) → k ∈ inorder t →
    Baseline.insert_descend (strip t) k path = none := by
  intro t
  induction t with
  | null => intro path _ hk; simp [inorder] at hk
  | node v s sz c0 c1 col ih0 ih1 =>
    intro path hs hk
    simp only [inorder, List.Sorted, List.pairwise_append, List.pairwise_cons, List.mem_cons,
      forall_eq_or_imp] at hs
    obtain ⟨hs0, ⟨hv1, hs1⟩, h01⟩ := hs
    simp only [inorder, List.mem_append, List.mem_cons] at hk
    simp only [strip, Baseline.insert_descend]
    by_cases e : v = k
    · simp [e]
    · simp only [e, if_false]
      by_cases lt : k < v
      · simp only [lt, if_true]
        apply ih0 _ hs0
        rcases hk with h | h | h
        · exact h
        · exact absurd h.symm e
        · have := hv1 k h; omega
      · simp only [lt, if_false]
        apply ih1 _ hs1
        rcases hk with h | h | h
        · have := (h01 k h).1; omega
        · exact absurd h.symm e
        · exact h

/-- On a key that the tree does not hold, the baseline `insert` does what the augmented
`insert` does, sums and sizes apart. -/
theorem strip_insert (t : Node) (k : Int) (hk : k ∉ inorder t) :
    Baseline.insert (strip t) k = (insert t k).map strip := by
  have h := strip_descend k t [] hk
  simp only [List.map_nil] at h
  rw [Baseline.insert, h, insert_eq, strip_balance, stripF_add]
  rfl

/-- On a key that the sorted tree holds, the baseline `insert` returns before creating a
node. -/
theorem strip_insert_present (t : Node) (k : Int) (hs : (inorder t).Sorted (· ≤ ·))
    (hk : k ∈ inorder t) : Baseline.insert (strip t) k = some (strip t) := by
  rw [Baseline.insert, strip_descend_present k t [] hs hk]

theorem insertAll_cons (t : Node) (k : Int) (ks : List Int) :
    insertAll t (k :: ks) = (insert t k).bind fun r => insertAll r ks := rfl

theorem mem_inorder_insert (t : Node) (k : Int) (t' : Node)
    (h : inorder t' = List.orderedInsert (· ≤ ·) k (inorder t)) (x : Int) :
    x ∈ inorder t' ↔ x = k ∨ x ∈ inorder t := by
  rw [h, List.mem_orderedInsert]

theorem strip_insertAll (ks : List Int) : ∀ t : Node, KeyInv t → ks.Nodup →
    (∀ k ∈ ks, k ∉ inorder t) →
    ∃ t', insertAll t ks = some t' ∧ Baseline.insertAll (strip t) ks = some (strip t') ∧
      KeyInv t' := by
  induction ks with
  | nil => intro t h _ _; exact ⟨t, rfl, rfl, h⟩
  | cons k ks ih =>
    intro t h hnd hk
    obtain ⟨t1, h1, h2, h3, -⟩ := insert_inv t k h
    have hk0 : k ∉ inorder t := hk k (by simp)
    rw [List.nodup_cons] at hnd
    obtain ⟨t2, h4, h5, h6⟩ := ih t1 h2 hnd.2 (by
      intro j hj hmem
      rw [mem_inorder_insert t k t1 h3] at hmem
      rcases hmem with e | e
      · subst e; exact hnd.1 hj
      · exact hk j (by simp [hj]) e)
    refine ⟨t2, ?_, ?_, h6⟩
    · rw [insertAll_cons, h1]; exact h4
    · rw [Baseline.insertAll, strip_insert t k hk0, h1]; exact h5

/-- C17: for every list of pairwise distinct keys, inserting them in order into an empty
baseline tree and into an empty augmented tree gives trees with the same shape, the same
key and the same colour at every position (`left` is `children[0]`, `right` is
`children[1]`), hence `find` gives the same result on both for every key. -/
theorem baseline_refines_augmented (ks : List Int) (hnd : ks.Nodup) :
    ∃ ta tb, insertAll null ks = some ta ∧ Baseline.insertAll Baseline.Node.null ks = some tb ∧
      strip ta = tb ∧ ∀ k, Baseline.find tb k = find ta k := by
  obtain ⟨ta, h1, h2, -⟩ := strip_insertAll ks null KeyInv_null hnd (by simp [inorder])
  exact ⟨ta, strip ta, h1, h2, rfl, fun k => strip_find ta k⟩

theorem baseline_refines_augmented_witness :
    insertAll null [5, 3, 8, 1, 4, 7, 9] = some scenario7 ∧
    Baseline.insertAll Baseline.Node.null [5, 3, 8, 1, 4, 7, 9] = some (strip scenario7) ∧
    ∃ ta tb, insertAll null [5, 3, 8, 1, 4, 7, 9] = some ta ∧
      Baseline.insertAll Baseline.Node.null [5, 3, 8, 1, 4, 7, 9] = some tb ∧
      strip ta = tb ∧ ∀ k, Baseline.find tb k = find ta k :=
  ⟨rfl, rfl, baseline_refines_augmented [5, 3, 8, 1, 4, 7, 9] (by decide)⟩

theorem baseline_run (L : List Int) : ∀ t : Node, KeyInv t → (inorder t).Sorted (· < ·) →
    ∃ t', Baseline.insertAll (strip t) L = some (strip t') ∧ KeyInv t' ∧
      (inorder t').Sorted (· < ·) ∧ ∀ x, x ∈ inorder t' ↔ x ∈ L ∨ x ∈ inorder t := by
  induction L with
  | nil => intro t h hs; exact ⟨t, rfl, h, hs, by simp⟩
  | cons k L ih =>
    intro t h hs
    by_cases hk : k ∈ inorder t
    · obtain ⟨t', h1, h2, h3, h4⟩ := ih t h hs
      refine ⟨t', ?_, h2, h3, ?_⟩
      · rw [Baseline.insertAll, strip_insert_present t k h.2.2 hk]; exact h1
      · intro x
        rw [h4 x, List.mem_cons]
        constructor
        · rintro (e | e)
          · exact Or.inl (Or.inr e)
          · exact Or.inr e
        · rintro ((e | e) | e)
          · subst e; exact Or.inr hk
          · exact Or.inl e
          · exact Or.inr e
    · obtain ⟨t1, h1, h2, h3, -⟩ := insert_inv t k h
      obtain ⟨t', h4, h5, h6, h7⟩ := ih t1 h2 (h3 ▸ strict_orderedInsert k _ hs hk)
      refine ⟨t', ?_, h5, h6, ?_⟩
      · rw [Baseline.insertAll, strip_insert t k hk, h1]; exact h4
      · intro x
        rw [h7 x, mem_inorder_insert t k t1 h3, List.mem_cons]
        tauto

/-- C18: for every list `L` of keys, repeats allowed, inserted in order into an empty
baseline tree, and every key `k`: `find(k)` is true exactly when `k` occurs in `L`; the tree
holds every key of `L` exactly once, in strictly increasing order; and `insert` of a key of
`L` returns the tree unchanged. -/
theorem baseline_set_semantics (L : List Int) (k : Int) :
    ∃ tb, Baseline.insertAll Baseline.Node.null L = some tb ∧
      (Baseline.find tb k = true ↔ k ∈ L) ∧
      (Baseline.inorder tb).Sorted (· < ·) ∧
      (∀ x, x ∈ Baseline.inorder tb ↔ x ∈ L) ∧
      (∀ x ∈ L, (Baseline.inorder tb).count x = 1) ∧
      (∀ x ∈ L, Baseline.insert tb x = some tb) := by
  obtain ⟨t, h1, h2, h3, h4⟩ := baseline_run L null KeyInv_null List.sorted_nil
  have hmem : ∀ x, x ∈ inorder t ↔ x ∈ L := fun x => by simpa [inorder] using h4 x
  refine ⟨strip t, h1, ?_, ?_, ?_, ?_, ?_⟩
  · rw [strip_find, find_iff_mem t k h2.2.2, hmem]
  · rw [strip_inorder]; exact h3
  · intro x; rw [strip_inorder]; exact hmem x
  · intro x hx
    rw [strip_inorder]
    exact List.count_eq_one_of_mem h3.nodup ((hmem x).2 hx)
  · intro x hx
    exact strip_insert_present t x h2.2.2 ((hmem x).2 hx)

theorem baseline_set_semantics_witness :
    Baseline.insertAll Baseline.Node.null [5, 3, 5, 8, 3] =
      some (Baseline.Node.node 5 (Baseline.Node.node 3 Baseline.Node.null Baseline.Node.null RED)
        (Baseline.Node.node 8 Baseline.Node.null Baseline.Node.null RED) BLACK) ∧
    ∃ tb, Baseline.insertAll Baseline.Node.null [5, 3, 5, 8, 3] = some tb ∧
      (Baseline.find tb 8 = true ↔ (8 : Int) ∈ [5, 3, 5, 8, 3]) ∧
      (Baseline.inorder tb).Sorted (· < ·) ∧
      (∀ x, x ∈ Baseline.inorder tb ↔ x ∈ [5, 3, 5, 8, 3]) ∧
      (∀ x ∈ [5, 3, 5, 8, 3], (Baseline.inorder tb).count x = 1) ∧
      (∀ x ∈ [5, 3, 5, 8, 3], Baseline.insert tb x = some tb) :=
  ⟨rfl, baseline_set_semantics [5, 3, 5, 8, 3] 8⟩

end RBTree
